import Mathlib

/-!
Verification of the bit-level codec subsystem of libgamecommon: the
`bitstream` bit-granular reader/writer (src/bitstream.cpp), the LZSS
filter pair (src/filter-lzss.cpp) and the LZW filter pair together with
its `Dictionary` (src/lzw.cpp), shallowly embedded as executable Lean
functions.  Machine integers are modelled as `Nat` with explicit masking
where the C++ relies on fixed-width truncation; the two negative sentinel
values stored in the C++ `int origBufByte` are modelled with `Int`.
-/

set_option maxHeartbeats 1000000
set_option maxRecDepth 100000
set_option linter.unnecessarySeqFocus false

namespace Camoto

/-! ### Bit-sequence denotations

Helper vocabulary used by the theorems: a byte stream is given a denotation
as a `List Bool` of bits in consumption order (least-significant-bit first
for `littleEndian`, most-significant-bit first for `bigEndian`), and values
assembled from bit runs are recovered with `lsbVal`/`msbVal`.
-/

/-- The `n` low bits of `v`, least-significant first. -/
def lsbBits : Nat → Nat → List Bool
  | 0, _ => []
  | n + 1, v => (v % 2 = 1) :: lsbBits n (v / 2)

/-- The `n` low bits of `v`, most-significant first. -/
def msbBits (n v : Nat) : List Bool := (lsbBits n v).reverse

/-- Value of a bit list, head = least significant bit. -/
def lsbVal : List Bool → Nat
  | [] => 0
  | b :: bs => (if b then 1 else 0) + 2 * lsbVal bs

/-- Value of a bit list, head = most significant bit. -/
def msbVal (bs : List Bool) : Nat := lsbVal bs.reverse

/-- Bit-endianness of a `bitstream` (`bitstream::endian`). -/
inductive endian where
  | littleEndian
  | bigEndian
deriving DecidableEq, Repr

export endian (littleEndian bigEndian)

/-- The eight bits of one byte in consumption order for endianness `e`. -/
def byteBits (e : endian) (b : Nat) : List Bool :=
  match e with
  | littleEndian => lsbBits 8 b
  | bigEndian => msbBits 8 b

/-- All bits of a byte stream in consumption order. -/
def bitsOfBytes (e : endian) : List Nat → List Bool
  | [] => []
  | b :: bs => byteBits e b ++ bitsOfBytes e bs

/-- Repack a bit list (consumption order) into a byte: unfilled bit
positions are zero, matching a byte only partially filled by writes. -/
def byteVal (e : endian) (bs : List Bool) : Nat :=
  match e with
  | littleEndian => lsbVal bs
  | bigEndian => msbVal bs <<< (8 - bs.length)

/-- Repack a bit list into bytes of eight bits each, the final byte
zero-padded (what a write sequence followed by `flushByte` produces). -/
def bytesOfBits (e : endian) : List Bool → List Nat
  | [] => []
  | b0 :: b1 :: b2 :: b3 :: b4 :: b5 :: b6 :: b7 :: rest =>
      byteVal e [b0, b1, b2, b3, b4, b5, b6, b7] :: bytesOfBits e rest
  | bs => [byteVal e bs]

/-! ### The `bitstream` model (bitstream.cpp), callback flavour

`bitstream::read`/`write`/`flushByte` in their `fn_getnextchar` /
`fn_putnextchar` overloads, as driven by the codec filters.  The byte
source is an input buffer with a read index `r` bounded by `lenIn`
(`bitstreamFilterNextChar`), the byte sink an output list bounded by
`lenOut` (`bitstreamFilterPutChar`).
-/

/-- `origBufByte` sentinel: the last operation was a write, so the byte
under the cursor was never fetched from the medium. -/
def WASNT_BUFFERED : Int := -1

/-- `origBufByte` sentinel: no operation has happened yet. -/
def INITIAL_VALUE : Int := -2

/-- Bitwise complement at 32-bit width (C++ `~` on a 32-bit operand). -/
def cNot32 (x : Nat) : Nat := x ^^^ 0xFFFFFFFF

/-- The mutable state of a `bitstream` used by the callback overloads:
`curBitPos` (0..8, 8 = byte exhausted/unfetched), the buffered byte, and
the tri-state `origBufByte`. -/
structure bitstream where
  curBitPos : Nat
  bufByte : Nat
  origBufByte : Int
deriving DecidableEq, Repr

/-- A freshly constructed `bitstream`. -/
def bitstream.fresh : bitstream := ⟨8, 0, INITIAL_VALUE⟩

/-- `bitstreamFilterNextChar`: fetch the byte at read index `r` of the
input buffer, failing once `lenIn` bytes have been consumed. -/
def bitstreamFilterNextChar (inBuf : List Nat) (lenIn r : Nat) : Option (Nat × Nat) :=
  if r < lenIn then some (inBuf.getD r 0, r + 1) else none

/-- `bitstreamFilterPutChar`: append a byte to the output, failing once
`lenOut` bytes have been produced. -/
def bitstreamFilterPutChar (lenOut : Nat) (out : List Nat) (b : Nat) : Option (List Nat) :=
  if out.length < lenOut then some (out ++ [b]) else none

/-- The refill step at the top of the read loop ("If the bit buffer is
empty, refill it"): at a byte boundary fetch the next byte, else keep the
current state.  `none` = end of data. -/
def bitstream.readRefill (inBuf : List Nat) (lenIn : Nat) (st : bitstream) (r : Nat) :
    Option (bitstream × Nat) :=
  if st.curBitPos = 8 then
    match bitstreamFilterNextChar inBuf lenIn r with
    | none => none
    | some (b, r') => some (⟨0, b, (b : Int)⟩, r')
  else some (st, r)

/-- "Figure out which bits in the buffered byte we're interested in":
the `exval` computation of `bitstream::read`. -/
def readExtract (e : endian) (bufByte curBitPos bitsNow : Nat) : Nat :=
  if e = littleEndian then
    (bufByte >>> curBitPos) &&& (cNot32 (0xFF <<< bitsNow) &&& 0xFF)
  else
    ((bufByte <<< curBitPos) &&& (cNot32 (0xFF >>> bitsNow) &&& 0xFF)) >>> (8 - bitsNow)

/-- "Work out where they have to go in the current number": merge `exval`
into the accumulator. -/
def readAccum (e : endian) (acc exval bitsread bitsNow : Nat) : Nat :=
  if e = littleEndian then acc ||| (exval <<< bitsread)
  else (acc <<< bitsNow) ||| exval

/-- The `while (bits > 0)` loop of `bitstream::read` (callback overload):
refills `bufByte` at a byte boundary, extracts `bitsNow` bits and merges
them into the accumulator per the endianness.  Returns
`(bitsread, out, state, r)`.  On end of data the accumulated count is
returned as-is in little-endian mode, while big-endian mode zero-pads the
value *and the count* (`*out <<= bits; bitsread += bits`). -/
def bitstream.readLoop (e : endian) (inBuf : List Nat) (lenIn : Nat) :
    Nat → Nat → Nat → Nat → bitstream → Nat → Nat × Nat × bitstream × Nat
  | 0, _, acc, bitsread, st, r => (bitsread, acc, st, r)
  | fuel + 1, bits, acc, bitsread, st, r =>
  if bits = 0 then (bitsread, acc, st, r)
  else
    match bitstream.readRefill inBuf lenIn st r with
    | none =>
        if bitsread = 0 then (0, acc, st, r)
        else if e = bigEndian then (bitsread + bits, acc <<< bits, st, r)
        else (bitsread, acc, st, r)
    | some (st1, r1) =>
        -- C++ ternary `(bits > bufBitsRemaining) ? bufBitsRemaining : bits`
        let bitsNow := min bits (8 - st1.curBitPos)
        if bitsNow = 0 then
          -- unreachable when `curBitPos ≤ 8` (the C++ asserts this invariant)
          (bitsread, acc, st1, r1)
        else
          bitstream.readLoop e inBuf lenIn fuel (bits - bitsNow)
            (readAccum e acc (readExtract e st1.bufByte st1.curBitPos bitsNow) bitsread bitsNow)
            (bitsread + bitsNow)
            ⟨st1.curBitPos + bitsNow, st1.bufByte, st1.origBufByte⟩ r1

/-- `bitstream::read(fnNextChar, bits, out)`: the lazy read-and-merge step
for a byte entered during a write (`origBufByte == WASNT_BUFFERED`),
followed by the main loop.  Returns `(bitsread, out, state, r)`. -/
def bitstream.read (e : endian) (inBuf : List Nat) (lenIn : Nat) (bits : Nat)
    (st : bitstream) (r : Nat) : Nat × Nat × bitstream × Nat :=
  if st.origBufByte = WASNT_BUFFERED then
    match bitstreamFilterNextChar inBuf lenIn r with
    | none => (0, 0, st, r)
    | some (b, r') =>
        let mask : Nat :=
          if e = littleEndian then (0xFF <<< st.curBitPos) &&& 0xFFFFFFFF
          else 0xFF >>> st.curBitPos
        let buf' := ((st.bufByte &&& cNot32 mask) ||| (b &&& mask)) &&& 0xFF
        bitstream.readLoop e inBuf lenIn bits bits 0 0 ⟨st.curBitPos, buf', (b : Int)⟩ r'
  else bitstream.readLoop e inBuf lenIn bits bits 0 0 st r

/-- "Extract the next bits we will be writing": computes
`(writeVal, writeMask, in')` for one chunk of `bitstream::write`.  In
big-endian mode `in` is kept as a `bits`-wide register shifted left after
each chunk. -/
def writeExtract (e : endian) (bits bitsNow curBitPos inv : Nat) : Nat × Nat × Nat :=
  if e = littleEndian then
    let wm := (cNot32 (0xFF <<< bitsNow) &&& 0xFF) <<< curBitPos
    ((inv <<< curBitPos) &&& wm, wm, inv >>> bitsNow)
  else
    let mask := if bits = 32 then 0xFFFFFFFF else (1 <<< bits) - 1
    let wm0 := cNot32 (mask >>> bitsNow) &&& mask
    let wv1 := (inv &&& wm0) >>> (bits - bitsNow)
    let wm1 := wm0 >>> (bits - bitsNow)
    (wv1 <<< (8 - bitsNow - curBitPos), wm1 <<< (8 - bitsNow - curBitPos),
      (inv <<< bitsNow) &&& mask)

/-- The flush step at the top of the write loop ("If the bit buffer is
full, write it out"): at a byte boundary the completed byte is emitted if
it was modified since `INITIAL_VALUE`, otherwise the state passes through.
`none` = the byte sink refused the byte (output budget exhausted). -/
def bitstream.writeFlush (lenOut : Nat) (st : bitstream) (out : List Nat) :
    Option (bitstream × List Nat) :=
  if st.curBitPos = 8 then
    if st.origBufByte ≠ INITIAL_VALUE ∧ (st.bufByte : Int) ≠ st.origBufByte then
      match bitstreamFilterPutChar lenOut out st.bufByte with
      | none => none
      | some out' => some (⟨0, 0, WASNT_BUFFERED⟩, out')
    else some (⟨0, 0, WASNT_BUFFERED⟩, out)
  else some (st, out)

/-- The `while (bitswritten < bits)` loop of `bitstream::write` (callback
overload): at a byte boundary the completed byte is emitted (if modified
since `INITIAL_VALUE`), then `bitsNow` bits of `inv` are merged into
`bufByte` per the endianness.  Returns `(bitswritten, state, out)`. -/
def bitstream.writeLoop (e : endian) (lenOut bits : Nat) :
    Nat → Nat → Nat → bitstream → List Nat → Nat × bitstream × List Nat
  | 0, bitswritten, _, st, out => (bitswritten, st, out)
  | fuel + 1, bitswritten, inv, st, out =>
  if bits ≤ bitswritten then (bitswritten, st, out)
  else
    match bitstream.writeFlush lenOut st out with
    | none => (bitswritten, st, out)
    | some (st1, out1) =>
        let bufBitsRemaining := 8 - st1.curBitPos
        -- C++ ternary `(bits-bitswritten > bufBitsRemaining) ? ... : ...`
        let bitsNow := min (bits - bitswritten) bufBitsRemaining
        if bitsNow = 0 then
          -- unreachable when `curBitPos ≤ 8` (the C++ asserts this invariant)
          (bitswritten, st1, out1)
        else
          let step := writeExtract e bits bitsNow st1.curBitPos inv
          let bufByte' := ((st1.bufByte &&& cNot32 step.2.1) ||| step.1) &&& 0xFF
          bitstream.writeLoop e lenOut bits fuel (bitswritten + bitsNow) step.2.2
            ⟨st1.curBitPos + bitsNow, bufByte', st1.origBufByte⟩ out1

/-- `bitstream::write(fnNextChar, bits, in)`.  Precondition (a C++
`assert`): `bits = 32 ∨ in < 2 ^ bits`. -/
def bitstream.write (e : endian) (lenOut bits inv : Nat) (st : bitstream)
    (out : List Nat) : Nat × bitstream × List Nat :=
  bitstream.writeLoop e lenOut bits bits 0 inv st out

/-- `bitstream::flushByte(fnNextChar)`: emit the pending byte if it was
ever touched, then reset to a byte boundary.  The C++ ignores the
callback's return value, so a full sink silently drops the byte. -/
def bitstream.flushByte (lenOut : Nat) (st : bitstream) (out : List Nat) :
    bitstream × List Nat :=
  let out' :=
    if st.origBufByte ≠ INITIAL_VALUE ∧ (st.bufByte : Int) ≠ st.origBufByte then
      match bitstreamFilterPutChar lenOut out st.bufByte with
      | none => out
      | some o => o
    else out
  (⟨8, 0, INITIAL_VALUE⟩, out')


/-! ### LZSS filters (filter-lzss.cpp)

The decompressor is a five-state machine reading flag/literal/length/
distance fields through the `bitstream`; the compressor is the shipped
placeholder that emits every input byte as a 9-bit literal.
-/

/-- `LZSS_LEFTOVER_BYTES`: output slack kept so a codeword is never
truncated mid-write. -/
def LZSS_LEFTOVER_BYTES : Nat := 2

/-- `filter_lzss_decompress::State`. -/
inductive LzssState where
  | S0_READ_FLAG
  | S1_COPY_BYTE
  | S2_READ_LEN
  | S3_READ_DIST
  | S4_COPY_REF
deriving DecidableEq, Repr

/-- The state of a `filter_lzss_decompress`: its private `bitstream`, the
field widths fixed at construction, the machine state, the circular
sliding window and the current back-reference being copied.  The C++
allocates the window uninitialised; the model starts it at zeroes (no
theorem depends on the initial contents). -/
structure filter_lzss_decompress where
  data : bitstream
  sizeLength : Nat
  sizeDistance : Nat
  state : LzssState
  maxDistance : Nat
  window : List Nat
  posWindow : Nat
  lzssLength : Nat
  lzssDistance : Nat
deriving DecidableEq, Repr

/-- Constructor plus `reset(lenInput)` of `filter_lzss_decompress`. -/
def filter_lzss_decompress.mk' (_e : endian) (sizeLength sizeDistance : Nat) :
    filter_lzss_decompress :=
  { data := bitstream.fresh
    sizeLength := sizeLength
    sizeDistance := sizeDistance
    state := LzssState.S0_READ_FLAG
    maxDistance := 1 <<< sizeDistance
    window := List.replicate (1 <<< sizeDistance) 0
    posWindow := 0
    lzssLength := 0
    lzssDistance := 0 }

/-- One execution of the `while` loop of `filter_lzss_decompress::transform`
(`fuel` bounds the iteration count; every theorem supplies enough fuel for
the loop to reach its own exit condition).  Arguments `r`, `w`, `out`
mirror the local read/write counters and the output buffer; returns the
final filter, `r`, `w` and output. -/
def lzssDecompLoop (e : endian) (inBuf : List Nat) (lenIn lenOut : Nat) :
    Nat → filter_lzss_decompress → Nat → Nat → List Nat →
    filter_lzss_decompress × Nat × Nat × List Nat
  | 0, f, r, w, out => (f, r, w, out)
  | fuel + 1, f, r, w, out =>
    if w < lenOut ∧ (r < lenIn ∨ f.lzssLength ≠ 0) then
      match f.state with
      | LzssState.S0_READ_FLAG =>
          let (bitsRead, code, st', r') := bitstream.read e inBuf lenIn 1 f.data r
          if bitsRead = 0 then (f, r', w, out)  -- needMoreData
          else
            lzssDecompLoop e inBuf lenIn lenOut fuel
              { f with
                data := st'
                state := if code = 0 then LzssState.S1_COPY_BYTE
                         else LzssState.S2_READ_LEN } r' w out
      | LzssState.S1_COPY_BYTE =>
          let (bitsRead, code, st', r') := bitstream.read e inBuf lenIn 8 f.data r
          if bitsRead ≠ 8 then ({ f with data := st' }, r', w, out)  -- needMoreData
          else
            lzssDecompLoop e inBuf lenIn lenOut fuel
              { f with
                data := st'
                window := f.window.set f.posWindow code
                posWindow := (f.posWindow + 1) % f.maxDistance
                state := LzssState.S0_READ_FLAG } r' (w + 1) (out ++ [code])
      | LzssState.S2_READ_LEN =>
          let (bitsRead, code, st', r') := bitstream.read e inBuf lenIn f.sizeLength f.data r
          if bitsRead ≠ f.sizeLength then ({ f with data := st' }, r', w, out)
          else
            lzssDecompLoop e inBuf lenIn lenOut fuel
              { f with
                data := st'
                lzssLength := 2 + code
                state := LzssState.S3_READ_DIST } r' w out
      | LzssState.S3_READ_DIST =>
          let (bitsRead, code, st', r') := bitstream.read e inBuf lenIn f.sizeDistance f.data r
          if bitsRead ≠ f.sizeDistance then ({ f with data := st' }, r', w, out)
          else
            lzssDecompLoop e inBuf lenIn lenOut fuel
              { f with
                data := st'
                lzssDistance := 1 + code
                state := LzssState.S4_COPY_REF } r' w out
      | LzssState.S4_COPY_REF =>
          if f.lzssLength = 0 then
            lzssDecompLoop e inBuf lenIn lenOut fuel
              { f with state := LzssState.S0_READ_FLAG } r w out
          else
            let b := f.window.getD ((f.maxDistance + f.posWindow - f.lzssDistance) % f.maxDistance) 0
            lzssDecompLoop e inBuf lenIn lenOut fuel
              { f with
                window := f.window.set f.posWindow b
                posWindow := (f.posWindow + 1) % f.maxDistance
                lzssLength := f.lzssLength - 1 } r (w + 1) (out ++ [b])
    else (f, r, w, out)

/-- `filter_lzss_decompress::transform(out, lenOut, in, lenIn)`: runs the
loop with enough fuel for it to reach its own exit condition, and returns
`(filter, lenIn', lenOut', outBytes)` where the primed lengths are the
bytes actually consumed/produced. -/
def filter_lzss_decompress.transform (e : endian) (f : filter_lzss_decompress)
    (inBuf : List Nat) (lenIn lenOut : Nat) :
    filter_lzss_decompress × Nat × Nat × List Nat :=
  lzssDecompLoop e inBuf lenIn lenOut (9 * lenIn + 2 * lenOut + f.lzssLength + 18) f 0 0 []

/-- The state of a `filter_lzss_compress`: just its private `bitstream`
(the field widths play no role in the placeholder encoder). -/
structure filter_lzss_compress where
  data : bitstream
deriving DecidableEq, Repr

/-- Constructor plus `reset(lenInput)` of `filter_lzss_compress`. -/
def filter_lzss_compress.mk' : filter_lzss_compress := ⟨bitstream.fresh⟩

/-- The `while` loop of `filter_lzss_compress::transform`: emits each
input byte as one 9-bit value (flag bit plus the 8 data bits) while the
guard leaves sufficient slack. -/
def lzssCompLoop (e : endian) (inBuf : List Nat) (lenIn lenOut : Nat) :
    Nat → bitstream → Nat → List Nat → bitstream × Nat × List Nat
  | 0, st, r, out => (st, r, out)
  | fuel + 1, st, r, out =>
    if out.length + LZSS_LEFTOVER_BYTES < lenOut ∧
        (r + 1 < lenIn ∨ (r < lenIn ∧ lenIn < 2)) then
      let (bitsWritten, st', out') :=
        bitstream.write e lenOut 9 (inBuf.getD r 0) st out
      if bitsWritten < 9 then (st', r + 1, out')  -- EOF
      else lzssCompLoop e inBuf lenIn lenOut fuel st' (r + 1) out'
    else (st, r, out)

/-- `filter_lzss_compress::transform`: the literal-emitting loop followed
by the end-of-input `flushByte`.  Returns `(filter, lenIn', outBytes)`. -/
def filter_lzss_compress.transform (e : endian) (f : filter_lzss_compress)
    (inBuf : List Nat) (lenIn lenOut : Nat) : filter_lzss_compress × Nat × List Nat :=
  let (st, r, out) := lzssCompLoop e inBuf lenIn lenOut (lenIn + 1) f.data 0 []
  let (st2, out2) :=
    if out.length < lenOut ∧ lenIn = 0 then bitstream.flushByte lenOut st out
    else (st, out)
  (⟨st2⟩, r, out2)

/-- The caller protocol documented in filter.hpp: call `transform`
repeatedly, handing over the not-yet-consumed input, until a call neither
consumes nor produces anything.  Output capacity per call is ample so the
filter is never starved of output space. -/
def lzssDecompressAll (e : endian) (sizeLength sizeDistance : Nat)
    (comp : List Nat) : List Nat :=
  let rec go : Nat → filter_lzss_decompress → List Nat → List Nat → List Nat
    | 0, _, _, acc => acc
    | fuel + 1, f, inp, acc =>
        let (f', r, w, out) :=
          filter_lzss_decompress.transform e f inp inp.length (8 * inp.length + acc.length + 16)
        if r = 0 ∧ w = 0 then acc
        else go fuel f' (inp.drop r) (acc ++ out)
  go (comp.length + 3) (filter_lzss_decompress.mk' e sizeLength sizeDistance) comp []

/-- The same caller protocol for the compressor. -/
def lzssCompressAll (e : endian) (inp0 : List Nat) : List Nat :=
  let rec go : Nat → filter_lzss_compress → List Nat → List Nat → List Nat
    | 0, _, _, acc => acc
    | fuel + 1, f, inp, acc =>
        let (f', r, out) :=
          filter_lzss_compress.transform e f inp inp.length (2 * inp.length + 16)
        if r = 0 ∧ out.length = 0 then acc
        else go fuel f' (inp.drop r) (acc ++ out)
  go (inp0.length + 3) filter_lzss_compress.mk' inp0 []

/-! ### LZW dictionary and filters (lzw.cpp)

`Dictionary` is a flat table of `CodeString` entries indexed by codeword;
`fillDecodedString` walks the prefix chain guarded by a safety counter.
The C++ `while` loop is modelled with explicit fuel so that its
termination is a theorem rather than an assumption.
-/

/-- `LZW_LEFTOVER_BYTES`. -/
def LZW_LEFTOVER_BYTES : Nat := 2

/-- LZW behaviour flags. -/
def LZW_LITTLE_ENDIAN : Nat := 0x00
def LZW_BIG_ENDIAN : Nat := 0x01
def LZW_RESET_FULL_DICT : Nat := 0x02
def LZW_NO_BITSIZE_RESET : Nat := 0x04
def LZW_EOF_PARAM_VALID : Nat := 0x08
def LZW_RESET_PARAM_VALID : Nat := 0x10
def LZW_FLUSH_ON_RESET : Nat := 0x20

/-- C++ `~0U`, the "no prefix" marker. -/
def U32_MAX : Nat := 0xFFFFFFFF

/-- `CodeString`: one dictionary entry.  `first`/`nextLeft`/`nextRight`
are carried for fidelity but never read by the decode path. -/
structure CodeString where
  prefixIndex : Nat
  first : Nat
  nextLeft : Nat
  nextRight : Nat
  k : Nat
deriving DecidableEq, Repr

/-- `CodeString::CodeString(byte newByte = 0, unsigned pI = ~0U)`.
`k` is a `char`; stored values are reduced mod 256. -/
def CodeString.mk' (newByte : Nat := 0) (pI : Nat := U32_MAX) : CodeString :=
  ⟨pI, U32_MAX, U32_MAX, U32_MAX, newByte % 256⟩

/-- The three `filter_error` conditions raised by the LZW decoder. -/
inductive FilterErr where
  | codeOutOfRange   -- codeword larger than the table
  | selfPrefix       -- codeword whose prefix is itself
  | prefixCycle      -- prefix walk exceeded twice the table size
deriving DecidableEq, Repr

/-- `Dictionary`: the table with its capacity fixed at `2 ^ maxBits`,
the first assignable codeword and the next free slot. -/
structure Dictionary where
  table : List CodeString
  codeStart : Nat
  newCodeStringIndex : Nat
deriving DecidableEq, Repr

/-- `Dictionary::Dictionary(maxBits, codeStart)`: a default-constructed
table of `2 ^ maxBits` entries whose first `codeStart` entries have
`k = i` (their `prefixIndex` stays `~0U` from the default constructor). -/
def Dictionary.mk' (maxBits codeStart : Nat) : Dictionary :=
  { table := (List.range (1 <<< maxBits)).map fun i =>
      if i < codeStart then { CodeString.mk' with k := i % 256 } else CodeString.mk'
    codeStart := codeStart
    newCodeStringIndex := codeStart }

/-- `Dictionary::reset()`. -/
def Dictionary.reset (d : Dictionary) : Dictionary :=
  { d with
    newCodeStringIndex := d.codeStart
    table := (List.range d.table.length).map fun i =>
      if i < d.codeStart then CodeString.mk' i else d.table.getD i CodeString.mk' }

/-- The `while (code != ~0U)` loop of `Dictionary::fillDecodedString`,
with explicit `fuel`; `none` means the fuel ran out before the loop
finished (shown impossible with fuel `2 * tableSize + 2`).  `acc` is
`decodedString`: the `k` bytes in walk order (reverse of the decoded
sequence); `safety` the C++ safety counter. -/
def fillLoop (table : List CodeString) (tableSize : Nat) :
    Nat → Nat → List Nat → Nat → Option (Except FilterErr (List Nat))
  | 0, _, _, _ => none
  | fuel + 1, code, acc, safety =>
      if code = U32_MAX then some (Except.ok acc)
      else if tableSize ≤ code then some (Except.error FilterErr.codeOutOfRange)
      -- C++ locals: `cs` is `table[code]`, and `decodedString` gains `cs.k`
      else if (table.getD code CodeString.mk').prefixIndex = code then
        some (Except.error FilterErr.selfPrefix)
      else if tableSize * 2 < safety + 1 then some (Except.error FilterErr.prefixCycle)
      else fillLoop table tableSize fuel (table.getD code CodeString.mk').prefixIndex
        (acc ++ [(table.getD code CodeString.mk').k]) (safety + 1)

/-- `Dictionary::fillDecodedString(code)`: the loop run with enough fuel
to reach one of its own exits. -/
def Dictionary.fillDecodedString (d : Dictionary) (code : Nat) :
    Except FilterErr (List Nat) :=
  (fillLoop d.table d.table.length (2 * d.table.length + 2) code [] 0).getD
    (Except.error FilterErr.prefixCycle)

/-- `Dictionary::decode(oldCode, code, outStream)`: returns the bytes
appended to `outStream` and the updated dictionary.  Codewords at or past
the next free slot resolve `oldCode`'s sequence and re-emit its first
byte (the KwKwK path). -/
def Dictionary.decode (d : Dictionary) (oldCode code : Nat) :
    Except FilterErr (List Nat × Dictionary) :=
  let codeExists := code < d.newCodeStringIndex
  match d.fillDecodedString (if codeExists then code else oldCode) with
  | Except.error e => Except.error e
  | Except.ok decodedString =>
      let emitted := decodedString.reverse
      let emitted := if codeExists then emitted
        else emitted ++ [decodedString.getLastD 0]
      if d.newCodeStringIndex < d.table.length then
        let entry := d.table.getD d.newCodeStringIndex CodeString.mk'
        Except.ok (emitted,
          { d with
            table := d.table.set d.newCodeStringIndex
              { entry with
                prefixIndex := oldCode
                k := decodedString.getLastD 0 }
            newCodeStringIndex := d.newCodeStringIndex + 1 })
      else Except.ok (emitted, d)  -- dictionary full, don't add anything

/-- `Dictionary::size()`. -/
def Dictionary.size (d : Dictionary) : Nat := d.newCodeStringIndex

/-- The state of a `filter_lzw_decompress`.  The `cur*` codewords and
`maxCode` are `int`s recomputed by `recalcCodes`. -/
structure filter_lzw_decompress where
  maxBits : Nat
  flags : Nat
  eofCode : Int
  curEOFCode : Int
  resetCode : Int
  curResetCode : Int
  maxCode : Int
  initialBits : Nat
  buffer : List Nat
  dictionary : Dictionary
  currentBits : Nat
  data : bitstream
  isDictReset : Bool
  code : Nat
  oldCode : Nat
deriving DecidableEq, Repr

/-- `filter_lzw_decompress::recalcCodes()`. -/
def filter_lzw_decompress.recalcCodes (f : filter_lzw_decompress) :
    filter_lzw_decompress :=
  let actualMaxCode : Int := (1 <<< f.currentBits : Nat) - 1
  let f := { f with maxCode := actualMaxCode }
  let f :=
    if f.flags &&& LZW_EOF_PARAM_VALID ≠ 0 then
      if f.eofCode < 1 then
        { f with curEOFCode := actualMaxCode + f.eofCode, maxCode := f.maxCode - 1 }
      else { f with curEOFCode := f.eofCode }
    else f
  if f.flags &&& LZW_RESET_PARAM_VALID ≠ 0 then
    if f.resetCode < 1 then
      { f with curResetCode := actualMaxCode + f.resetCode, maxCode := f.maxCode - 1 }
    else { f with curResetCode := f.resetCode }
  else f

/-- `filter_lzw_decompress::resetDictionary()`. -/
def filter_lzw_decompress.resetDictionary (f : filter_lzw_decompress) :
    filter_lzw_decompress :=
  let f := { f with dictionary := f.dictionary.reset }
  let f :=
    if f.flags &&& LZW_NO_BITSIZE_RESET = 0 then
      ({ f with currentBits := f.initialBits }).recalcCodes
    else f
  { f with isDictReset := true }

/-- Constructor plus `reset(lenInput)` of `filter_lzw_decompress`. -/
def filter_lzw_decompress.mk' (initialBits maxBits : Nat) (firstCode : Nat)
    (eofCode resetCode : Int) (flags : Nat) : filter_lzw_decompress :=
  let f : filter_lzw_decompress :=
    { maxBits := maxBits
      flags := flags
      eofCode := eofCode
      curEOFCode := 0
      resetCode := resetCode
      curResetCode := 0
      maxCode := 0
      initialBits := initialBits
      buffer := []
      dictionary := Dictionary.mk' maxBits firstCode
      currentBits := initialBits
      data := bitstream.fresh
      isDictReset := false
      code := 0
      oldCode := 0 }
  (f.recalcCodes).resetDictionary

/-- The `while` loop of `filter_lzw_decompress::transform` (`fuel`-bounded;
`continue` is a recursive call).  Returns the final filter, `r`, `w` and
output, or the `filter_error` thrown by `Dictionary::decode`. -/
def lzwDecompLoop (inBuf : List Nat) (lenIn lenOut : Nat) :
    Nat → filter_lzw_decompress → Nat → Nat → List Nat →
    Except FilterErr (filter_lzw_decompress × Nat × Nat × List Nat)
  | 0, f, r, w, out => Except.ok (f, r, w, out)
  | fuel + 1, f, r, w, out =>
    if w < lenOut ∧
        ((r + LZW_LEFTOVER_BYTES < lenIn ∨ (r < lenIn ∧ lenIn ≤ LZW_LEFTOVER_BYTES)) ∨
          f.buffer ≠ []) then
      match f.buffer with
      | b :: rest =>
          lzwDecompLoop inBuf lenIn lenOut fuel
            { f with buffer := rest } r (w + 1) (out ++ [b])
      | [] =>
          if f.flags &&& LZW_EOF_PARAM_VALID ≠ 0 ∧ (f.code : Int) = f.curEOFCode then
            Except.ok (f, r, w, out)
          else
            let e := if f.flags &&& LZW_BIG_ENDIAN ≠ LZW_BIG_ENDIAN
              then littleEndian else bigEndian
            let (bitsRead, code, st', r') :=
              bitstream.read e inBuf lenIn f.currentBits f.data r
            let f := { f with data := st', code := code }
            if bitsRead < f.currentBits then Except.ok (f, r', w, out)  -- EOF
            else if f.flags &&& LZW_EOF_PARAM_VALID ≠ 0 ∧ (f.code : Int) = f.curEOFCode then
              lzwDecompLoop inBuf lenIn lenOut fuel f r' w out
            else if f.isDictReset then
              lzwDecompLoop inBuf lenIn lenOut fuel
                { f with
                  buffer := [f.code % 256]
                  oldCode := f.code
                  isDictReset := false } r' w out
            else if f.flags &&& LZW_RESET_PARAM_VALID ≠ 0 ∧ (f.code : Int) = f.curResetCode then
              let f := f.resetDictionary
              let f := if f.flags &&& LZW_FLUSH_ON_RESET ≠ 0
                then { f with data := ⟨8, 0, INITIAL_VALUE⟩ } else f
              lzwDecompLoop inBuf lenIn lenOut fuel f r' w out
            else
              match f.dictionary.decode f.oldCode f.code with
              | Except.error err => Except.error err
              | Except.ok (decoded, dict') =>
                  let f := { f with buffer := decoded, dictionary := dict' }
                  let f :=
                    if (f.dictionary.size : Int) > f.maxCode then
                      if f.currentBits = f.maxBits then
                        if f.flags &&& LZW_RESET_FULL_DICT ≠ 0 then f.resetDictionary else f
                      else ({ f with currentBits := f.currentBits + 1 }).recalcCodes
                    else f
                  let f := { f with oldCode := f.code }
                  if f.buffer = [] then Except.ok (f, r', w, out)
                  else lzwDecompLoop inBuf lenIn lenOut fuel f r' w out
    else Except.ok (f, r, w, out)

/-- `filter_lzw_decompress::transform`. -/
def filter_lzw_decompress.transform (f : filter_lzw_decompress)
    (inBuf : List Nat) (lenIn lenOut : Nat) :
    Except FilterErr (filter_lzw_decompress × Nat × Nat × List Nat) :=
  lzwDecompLoop inBuf lenIn lenOut
    (8 * lenIn + 2 * lenOut + f.buffer.length + 32) f 0 0 []

/-- The state of a `filter_lzw_compress`: the encoder keeps only the
dictionary *size*, never the table. -/
structure filter_lzw_compress where
  maxBits : Nat
  flags : Nat
  eofCode : Int
  curEOFCode : Int
  resetCode : Int
  curResetCode : Int
  maxCode : Int
  firstCode : Nat
  initialBits : Nat
  dictSize : Nat
  currentBits : Nat
  data : bitstream
deriving DecidableEq, Repr

/-- `filter_lzw_compress::recalcCodes()` (note the `dictSize++` for
positive reserved codewords). -/
def filter_lzw_compress.recalcCodes (f : filter_lzw_compress) :
    filter_lzw_compress :=
  let actualMaxCode : Int := (1 <<< f.currentBits : Nat) - 1
  let f := { f with maxCode := actualMaxCode }
  let f :=
    if f.flags &&& LZW_EOF_PARAM_VALID ≠ 0 then
      if f.eofCode < 1 then
        { f with curEOFCode := actualMaxCode + f.eofCode, maxCode := f.maxCode - 1 }
      else { f with curEOFCode := f.eofCode, dictSize := f.dictSize + 1 }
    else f
  if f.flags &&& LZW_RESET_PARAM_VALID ≠ 0 then
    if f.resetCode < 1 then
      { f with curResetCode := actualMaxCode + f.resetCode, maxCode := f.maxCode - 1 }
    else
      let f := { f with curResetCode := f.resetCode }
      if f.curEOFCode ≠ f.curResetCode then { f with dictSize := f.dictSize + 1 } else f
  else f

/-- `filter_lzw_compress::resetDictionary()`. -/
def filter_lzw_compress.resetDictionary (f : filter_lzw_compress) :
    filter_lzw_compress :=
  let f := { f with dictSize := 256 }
  if f.flags &&& LZW_NO_BITSIZE_RESET = 0 then
    ({ f with currentBits := f.initialBits }).recalcCodes
  else f

/-- Constructor plus `reset(lenInput)` of `filter_lzw_compress`.
Precondition (C++ `assert`): `initialBits > 0`. -/
def filter_lzw_compress.mk' (initialBits maxBits : Nat) (firstCode : Nat)
    (eofCode resetCode : Int) (flags : Nat) : filter_lzw_compress :=
  let f : filter_lzw_compress :=
    { maxBits := maxBits
      flags := flags
      eofCode := eofCode
      curEOFCode := 0
      resetCode := resetCode
      curResetCode := 0
      maxCode := 0
      firstCode := firstCode
      initialBits := initialBits
      dictSize := 256
      currentBits := initialBits
      data := bitstream.fresh }
  (f.recalcCodes).resetDictionary

/-- The `while` loop of `filter_lzw_compress::transform`: writes each
input byte as one codeword at the current width, then updates the width
bookkeeping exactly as the decoder would. -/
def lzwCompLoop (inBuf : List Nat) (lenIn lenOut : Nat) :
    Nat → filter_lzw_compress → Nat → List Nat →
    filter_lzw_compress × Nat × List Nat
  | 0, f, r, out => (f, r, out)
  | fuel + 1, f, r, out =>
    if out.length + LZW_LEFTOVER_BYTES < lenOut ∧
        (r + 1 < lenIn ∨ (r < lenIn ∧ lenIn < 2)) then
      let e := if f.flags &&& LZW_BIG_ENDIAN ≠ LZW_BIG_ENDIAN
        then littleEndian else bigEndian
      let (bitsWritten, st', out') :=
        bitstream.write e lenOut f.currentBits (inBuf.getD r 0) f.data out
      let f := { f with data := st' }
      let r := r + 1
      if bitsWritten < f.currentBits then (f, r, out')  -- EOF
      else
        let f :=
          if (f.dictSize : Int) > f.maxCode then
            if f.currentBits = f.maxBits then
              if f.flags &&& LZW_RESET_FULL_DICT ≠ 0 then f.resetDictionary else f
            else ({ f with currentBits := f.currentBits + 1 }).recalcCodes
          else { f with dictSize := f.dictSize + 1 }
        lzwCompLoop inBuf lenIn lenOut fuel f r out'
    else (f, r, out)

/-- `filter_lzw_compress::transform`: the main loop, then (with input
exhausted and room left) the deferred EOF codeword and the final
`flushByte`. -/
def filter_lzw_compress.transform (f : filter_lzw_compress)
    (inBuf : List Nat) (lenIn lenOut : Nat) : filter_lzw_compress × Nat × List Nat :=
  let (f, r, out) := lzwCompLoop inBuf lenIn lenOut (lenIn + 1) f 0 []
  let (f, out) :=
    if out.length < lenOut ∧ lenIn = 0 then
      if f.flags &&& LZW_EOF_PARAM_VALID ≠ 0 ∧ f.curEOFCode > 0 then
        let (_, st', out') :=
          bitstream.write (if f.flags &&& LZW_BIG_ENDIAN ≠ LZW_BIG_ENDIAN
            then littleEndian else bigEndian) lenOut f.currentBits
            f.curEOFCode.toNat f.data out
        ({ f with data := st', curEOFCode := 0 }, out')
      else (f, out)
    else (f, out)
  let (f, out) :=
    if out.length < lenOut ∧ lenIn = 0 then
      let (st', out') := bitstream.flushByte lenOut f.data out
      ({ f with data := st' }, out')
    else (f, out)
  (f, r, out)

/-- Caller protocol for the LZW decompressor (errors propagate). -/
def lzwDecompressAll (f0 : filter_lzw_decompress) (comp : List Nat) :
    Except FilterErr (List Nat) :=
  let rec go : Nat → filter_lzw_decompress → List Nat → List Nat →
      Except FilterErr (List Nat)
    | 0, _, _, acc => Except.ok acc
    | fuel + 1, f, inp, acc =>
        match f.transform inp inp.length (8 * inp.length + acc.length + 32) with
        | Except.error e => Except.error e
        | Except.ok (f', r, w, out) =>
            if r = 0 ∧ w = 0 then Except.ok acc
            else go fuel f' (inp.drop r) (acc ++ out)
  go (comp.length + 8) f0 comp []

/-- Caller protocol for the LZW compressor. -/
def lzwCompressAll (f0 : filter_lzw_compress) (inp0 : List Nat) : List Nat :=
  let rec go : Nat → filter_lzw_compress → List Nat → List Nat → List Nat
    | 0, _, _, acc => acc
    | fuel + 1, f, inp, acc =>
        let (f', r, out) :=
          f.transform inp inp.length (4 * inp.length + 16)
        if r = 0 ∧ out.length = 0 then acc
        else go fuel f' (inp.drop r) (acc ++ out)
  go (inp0.length + 3) f0 inp0 []

/-! ### The `bitstream` model, stream-bound flavour

`bitstream::read`/`write`/`flush`/`writeBufByte` in their overloads bound
to a parent byte stream (`fnNextChar == NULL`).  The parent is a plain
byte list addressed through `offset`, re-seeked before every access just
as the C++ does.
-/

/-- A stream-bound `bitstream`: the callback-state plus the byte offset
into the parent and the parent's bytes themselves. -/
structure bitstreamS where
  curBitPos : Nat
  bufByte : Nat
  origBufByte : Int
  offset : Nat
  media : List Nat
deriving DecidableEq, Repr

/-- A fresh `bitstream` bound to a parent holding `media`. -/
def bitstreamS.fresh (media : List Nat) : bitstreamS :=
  ⟨8, 0, INITIAL_VALUE, 0, media⟩

/-- `parent->seekg(offset); parent->try_read(&b, 1)`. -/
def mediaRead (media : List Nat) (offset : Nat) : Option Nat :=
  if offset < media.length then some (media.getD offset 0) else none

/-- `parent->seekp(offset); parent->write(&b, 1)` (the string/memory
parent streams extend when writing at the end). -/
def mediaWrite (media : List Nat) (offset b : Nat) : List Nat :=
  if offset < media.length then media.set offset b
  else media ++ List.replicate (offset - media.length) 0 ++ [b]

/-- `bitstream::writeBufByte()`: write the modified buffered byte back to
the parent, rewinding `offset` when the byte had been read in. -/
def bitstreamS.writeBufByte (s : bitstreamS) : bitstreamS :=
  if s.origBufByte ≠ INITIAL_VALUE ∧ (s.bufByte : Int) ≠ s.origBufByte then
    let offset := if s.origBufByte ≥ 0 then s.offset - 1 else s.offset
    { s with
      media := mediaWrite s.media offset s.bufByte
      offset := offset + 1
      origBufByte := (s.bufByte : Int) }
  else s

/-- The `while (bits > 0)` loop of the stream-bound `bitstream::read`:
identical to the callback flavour except that a refill first calls
`writeBufByte()` and reads the parent at `offset`. -/
def bitstreamS.readLoop (e : endian) :
    Nat → Nat → Nat → Nat → bitstreamS → Nat × Nat × bitstreamS
  | 0, _, acc, bitsread, s => (bitsread, acc, s)
  | fuel + 1, bits, acc, bitsread, s =>
  if bits = 0 then (bitsread, acc, s)
  else
    let refill : Option bitstreamS :=
      if s.curBitPos = 8 then
        let s := s.writeBufByte
        match mediaRead s.media s.offset with
        | none => none
        | some b =>
            some { s with
              curBitPos := 0
              bufByte := b
              origBufByte := (b : Int)
              offset := s.offset + 1 }
      else some s
    match refill with
    | none =>
        let s := s.writeBufByte  -- state change from the failed refill survives
        if bitsread = 0 then (0, acc, s)
        else if e = bigEndian then (bitsread + bits, acc <<< bits, s)
        else (bitsread, acc, s)
    | some s1 =>
        let bitsNow := min bits (8 - s1.curBitPos)
        if bitsNow = 0 then (bitsread, acc, s1)
        else
          bitstreamS.readLoop e fuel (bits - bitsNow)
            (readAccum e acc (readExtract e s1.bufByte s1.curBitPos bitsNow) bitsread bitsNow)
            (bitsread + bitsNow)
            { s1 with curBitPos := s1.curBitPos + bitsNow }

/-- `bitstream::read(bits, out)` (stream-bound). -/
def bitstreamS.read (e : endian) (bits : Nat) (s : bitstreamS) :
    Nat × Nat × bitstreamS :=
  if s.origBufByte = WASNT_BUFFERED then
    match mediaRead s.media s.offset with
    | none => (0, 0, s)
    | some b =>
        let mask : Nat :=
          if e = littleEndian then (0xFF <<< s.curBitPos) &&& 0xFFFFFFFF
          else 0xFF >>> s.curBitPos
        let buf' := ((s.bufByte &&& cNot32 mask) ||| (b &&& mask)) &&& 0xFF
        bitstreamS.readLoop e bits bits 0 0
          { s with bufByte := buf', origBufByte := (b : Int), offset := s.offset + 1 }
  else bitstreamS.readLoop e bits bits 0 0 s

/-- The `while (bitswritten < bits)` loop of the stream-bound
`bitstream::write`: a full buffer is written back via `writeBufByte()`. -/
def bitstreamS.writeLoop (e : endian) (bits : Nat) :
    Nat → Nat → Nat → bitstreamS → Nat × bitstreamS
  | 0, bitswritten, _, s => (bitswritten, s)
  | fuel + 1, bitswritten, inv, s =>
  if bits ≤ bitswritten then (bitswritten, s)
  else
    let s1 :=
      if s.curBitPos = 8 then
        let s := s.writeBufByte
        { s with curBitPos := 0, origBufByte := WASNT_BUFFERED, bufByte := 0 }
      else s
    let bitsNow := min (bits - bitswritten) (8 - s1.curBitPos)
    if bitsNow = 0 then (bitswritten, s1)
    else
      let step := writeExtract e bits bitsNow s1.curBitPos inv
      let bufByte' := ((s1.bufByte &&& cNot32 step.2.1) ||| step.1) &&& 0xFF
      bitstreamS.writeLoop e bits fuel (bitswritten + bitsNow) step.2.2
        { s1 with curBitPos := s1.curBitPos + bitsNow, bufByte := bufByte' }

/-- `bitstream::write(bits, in)` (stream-bound). -/
def bitstreamS.write (e : endian) (bits inv : Nat) (s : bitstreamS) :
    Nat × bitstreamS :=
  bitstreamS.writeLoop e bits bits 0 inv s

/-- `bitstream::flush()`: a partial byte triggers a zero-length read (and
thereby the lazy merge), then the buffered byte is written back.  The
parent's own `flush()` is a no-op on a byte list. -/
def bitstreamS.flush (e : endian) (s : bitstreamS) : bitstreamS :=
  if s.origBufByte = INITIAL_VALUE then s
  else
    let s := if s.curBitPos < 8 then (bitstreamS.read e 0 s).2.2 else s
    s.writeBufByte

/-! ### Bit toolkit

Lemmas characterising the bit-run vocabulary and converting the C++
mask arithmetic into divisions and remainders.
-/


theorem lsbBits_length (n v : Nat) : (lsbBits n v).length = n := by
  induction n generalizing v with
  | zero => rfl
  | succ n ih => simp [lsbBits, ih]

theorem msbBits_length (n v : Nat) : (msbBits n v).length = n := by
  simp [msbBits, lsbBits_length]

theorem lsbVal_lt (bs : List Bool) : lsbVal bs < 2 ^ bs.length := by
  induction bs with
  | nil => simp [lsbVal]
  | cons b t ih =>
      simp only [lsbVal, List.length_cons, pow_succ]
      cases b <;> simp <;> omega

theorem lsbVal_append (xs ys : List Bool) :
    lsbVal (xs ++ ys) = lsbVal xs + 2 ^ xs.length * lsbVal ys := by
  induction xs with
  | nil => simp [lsbVal]
  | cons b t ih =>
      simp only [List.cons_append, List.append_eq, lsbVal, ih, List.length_cons, pow_succ]
      ring

theorem lsbBits_append (m n v : Nat) :
    lsbBits (m + n) v = lsbBits m v ++ lsbBits n (v / 2 ^ m) := by
  induction m generalizing v with
  | zero => simp [lsbBits]
  | succ m ih =>
      have h : m + 1 + n = (m + n) + 1 := by omega
      rw [h]
      simp only [lsbBits, List.cons_append]
      congr 1
      rw [ih]
      congr 2
      rw [Nat.div_div_eq_div_mul, pow_succ]
      ring_nf

theorem lsbVal_lsbBits (n v : Nat) : lsbVal (lsbBits n v) = v % 2 ^ n := by
  induction n generalizing v with
  | zero => simp [lsbBits, lsbVal, Nat.mod_one]
  | succ n ih =>
      simp only [lsbBits, lsbVal, ih]
      have h2 : (2 : Nat) ^ (n + 1) = 2 * 2 ^ n := by rw [pow_succ]; ring
      rw [h2, Nat.mod_mul]
      have : v % 2 = 0 ∨ v % 2 = 1 := by omega
      rcases this with h | h <;> simp [h]

theorem lsbBits_drop (n v p : Nat) :
    (lsbBits n v).drop p = lsbBits (n - p) (v / 2 ^ p) := by
  induction p generalizing n v with
  | zero => simp
  | succ p ih =>
      cases n with
      | zero => simp [lsbBits]
      | succ n =>
          simp only [lsbBits, List.drop_succ_cons, ih]
          congr 1
          · omega
          · rw [Nat.div_div_eq_div_mul, pow_succ]; ring_nf

theorem lsbBits_take (n v j : Nat) :
    (lsbBits n v).take j = lsbBits (min j n) v := by
  induction j generalizing n v with
  | zero => simp [lsbBits]
  | succ j ih =>
      cases n with
      | zero => simp [lsbBits]
      | succ n =>
          simp only [lsbBits, List.take_succ_cons, ih]
          have : min (j + 1) (n + 1) = min j n + 1 := by omega
          rw [this]
          rfl

theorem lsbBits_lsbVal (bs : List Bool) (n : Nat) (h : bs.length ≤ n) :
    lsbBits n (lsbVal bs) = bs ++ List.replicate (n - bs.length) false := by
  induction bs generalizing n with
  | nil =>
      simp only [lsbVal, List.nil_append, List.length_nil, Nat.sub_zero]
      induction n with
      | zero => rfl
      | succ n ih2 => simp [lsbBits, ih2, List.replicate_succ]
  | cons b t ih =>
      cases n with
      | zero => simp at h
      | succ n =>
          simp only [List.length_cons] at h
          simp only [lsbBits, lsbVal, List.cons_append, List.length_cons]
          congr 1
          · cases b <;> simp [Nat.add_mul_mod_self_left]
          · have hdiv : ((if b = true then 1 else 0) + 2 * lsbVal t) / 2 = lsbVal t := by
              cases b <;> simp <;> omega
            rw [hdiv]
            have hn : n + 1 - (t.length + 1) = n - t.length := by omega
            rw [hn]
            exact ih n (by omega)

theorem msbVal_lt (bs : List Bool) : msbVal bs < 2 ^ bs.length := by
  have := lsbVal_lt bs.reverse
  simpa [msbVal] using this

theorem msbVal_append (xs ys : List Bool) :
    msbVal (xs ++ ys) = msbVal xs * 2 ^ ys.length + msbVal ys := by
  simp only [msbVal, List.reverse_append, lsbVal_append, List.length_reverse]
  ring

theorem msbBits_append (m n v : Nat) :
    msbBits (m + n) v = msbBits n (v / 2 ^ m) ++ msbBits m v := by
  simp only [msbBits]
  rw [lsbBits_append, List.reverse_append]

theorem msbVal_msbBits (n v : Nat) : msbVal (msbBits n v) = v % 2 ^ n := by
  simp [msbVal, msbBits, lsbVal_lsbBits]

theorem msbBits_take (n v j : Nat) (h : j ≤ n) :
    (msbBits n v).take j = msbBits j (v / 2 ^ (n - j)) := by
  have hs : n = (n - j) + j := by omega
  rw [hs, msbBits_append]
  have hl : (msbBits j (v / 2 ^ (n - j))).length = j := msbBits_length _ _
  rw [List.take_left' hl]
  have hx : n - j + j - j = n - j := by omega
  rw [hx]

theorem msbBits_drop (n v p : Nat) (h : p ≤ n) :
    (msbBits n v).drop p = msbBits (n - p) v := by
  have hs : n = (n - p) + p := by omega
  conv_lhs => rw [hs, msbBits_append]
  have hl : (msbBits p (v / 2 ^ (n - p))).length = p := msbBits_length _ _
  rw [List.drop_left' hl]



theorem cNot32_testBit (x i : Nat) :
    (cNot32 x).testBit i = (x.testBit i != decide (i < 32)) := by
  have h : (0xFFFFFFFF : Nat) = 2 ^ 32 - 1 := by norm_num
  rw [cNot32, Nat.testBit_xor, h, Nat.testBit_two_pow_sub_one]

theorem or_mul_pow (a b k : Nat) (ha : a < 2 ^ k) :
    a ||| (b <<< k) = 2 ^ k * b + a := by
  apply Nat.eq_of_testBit_eq
  intro i
  rw [Nat.testBit_or, Nat.testBit_shiftLeft, Nat.testBit_mul_pow_two_add b ha]
  by_cases h : i < k
  · have h2 : ¬ i ≥ k := by omega
    simp [h, h2]
  · have h2 : i ≥ k := by omega
    have h3 : a.testBit i = false := Nat.testBit_lt_two_pow (by
      calc a < 2 ^ k := ha
      _ ≤ 2 ^ i := Nat.pow_le_pow_right (by omega) (by omega))
    simp [h, h2, h3]

theorem shiftl_or_add (a e k : Nat) (he : e < 2 ^ k) :
    (a <<< k) ||| e = a * 2 ^ k + e := by
  rw [Nat.lor_comm, or_mul_pow e a k he, Nat.mul_comm]

theorem and_mask_shift (x j s : Nat) :
    x &&& ((2 ^ j - 1) <<< s) = ((x >>> s) % 2 ^ j) <<< s := by
  apply Nat.eq_of_testBit_eq
  intro i
  rw [Nat.testBit_and, Nat.testBit_shiftLeft, Nat.testBit_shiftLeft,
    Nat.testBit_two_pow_sub_one, Nat.testBit_mod_two_pow, Nat.testBit_shiftRight]
  by_cases h1 : s ≤ i
  · have hadd : s + (i - s) = i := by omega
    simp [h1, hadd, Bool.and_comm]
  · simp [h1]

theorem and_cNot32_low (a m p : Nat) (ha : a < 2 ^ p) (hp : p ≤ 32) :
    a &&& cNot32 (m <<< p) = a := by
  apply Nat.eq_of_testBit_eq
  intro i
  rw [Nat.testBit_and, cNot32_testBit, Nat.testBit_shiftLeft]
  by_cases h1 : i < p
  · have h2 : ¬ i ≥ p := by omega
    have h3 : i < 32 := by omega
    simp [h2, h3]
  · have h3 : a.testBit i = false := Nat.testBit_lt_two_pow (by
      calc a < 2 ^ p := ha
      _ ≤ 2 ^ i := Nat.pow_le_pow_right (by omega) (by omega))
    simp [h3]

theorem and_cNot32_high (a m s : Nat) (hm : m < 2 ^ s) (hx : a * 2 ^ s < 2 ^ 32) :
    (a * 2 ^ s) &&& cNot32 m = a * 2 ^ s := by
  apply Nat.eq_of_testBit_eq
  intro i
  rw [Nat.testBit_and, cNot32_testBit, ← Nat.shiftLeft_eq, Nat.testBit_shiftLeft]
  by_cases h1 : i < s
  · have h2 : ¬ i ≥ s := by omega
    simp [h2]
  · by_cases h2 : i < 32
    · have hmb : m.testBit i = false := Nat.testBit_lt_two_pow (by
        calc m < 2 ^ s := hm
        _ ≤ 2 ^ i := Nat.pow_le_pow_right (by omega) (by omega))
      simp [hmb, h2]
    · have hb : (a <<< s).testBit i = false := Nat.testBit_lt_two_pow (by
        rw [Nat.shiftLeft_eq]
        calc a * 2 ^ s < 2 ^ 32 := hx
        _ ≤ 2 ^ i := Nat.pow_le_pow_right (by omega) (by omega))
      rw [Nat.testBit_shiftLeft] at hb
      simp [hb, h2]

theorem and_255 (x : Nat) (h : x < 256) : x &&& 255 = x := by
  have h2 : (255 : Nat) = 2 ^ 8 - 1 := by norm_num
  rw [h2, Nat.and_pow_two_sub_one_eq_mod x 8]
  exact Nat.mod_eq_of_lt h



theorem maskFF_le : ∀ k, k ≤ 8 → cNot32 (0xFF <<< k) &&& 0xFF = 2 ^ k - 1 := by decide

theorem maskFF_be : ∀ k, k ≤ 8 → cNot32 (0xFF >>> k) &&& 0xFF = (2 ^ k - 1) <<< (8 - k) := by
  decide

theorem ifMask32 (n : Nat) :
    (if n = 32 then (0xFFFFFFFF : Nat) else (1 <<< n) - 1) = 2 ^ n - 1 := by
  split
  next h => rw [h]; norm_num
  next => rw [Nat.shiftLeft_eq, Nat.one_mul]

theorem mask32 : ∀ n, n ≤ 32 → ∀ k, k ≤ 8 → k ≤ n →
    cNot32 ((2 ^ n - 1) >>> k) &&& (2 ^ n - 1) = (2 ^ k - 1) <<< (n - k) := by decide

theorem bitsOfBytes_length (e : endian) (B : List Nat) :
    (bitsOfBytes e B).length = 8 * B.length := by
  induction B with
  | nil => rfl
  | cons b t ih =>
      simp only [bitsOfBytes, List.length_append, ih, List.length_cons]
      cases e <;> simp [byteBits, lsbBits_length, msbBits_length] <;> ring

theorem bitsOfBytes_append (e : endian) (B1 B2 : List Nat) :
    bitsOfBytes e (B1 ++ B2) = bitsOfBytes e B1 ++ bitsOfBytes e B2 := by
  induction B1 with
  | nil => rfl
  | cons b t ih => simp only [List.cons_append, bitsOfBytes, List.append_eq, ih, List.append_assoc]

theorem bitsOfBytes_drop8 (e : endian) (B : List Nat) (q : Nat) :
    (bitsOfBytes e B).drop (8 * q) = bitsOfBytes e (B.drop q) := by
  induction q generalizing B with
  | zero => simp
  | succ q ih =>
      cases B with
      | nil => simp [bitsOfBytes]
      | cons b t =>
          have hlen : (byteBits e b).length = 8 := by
            cases e <;> simp [byteBits, lsbBits_length, msbBits_length]
          have h8 : 8 * (q + 1) = 8 + 8 * q := by ring
          simp only [bitsOfBytes, h8, List.drop_succ_cons]
          rw [← List.drop_drop, List.drop_left' hlen, ih]



/-- Byte count pulled from the source after consuming `c` bits. -/
def bitPos (c : Nat) : Nat := (c + 7) / 8

/-- The `bitstream` state after a fresh reader has consumed `c` bits of
the byte list `B`. -/
def readState (B : List Nat) (c : Nat) : bitstream :=
  if c = 0 then bitstream.fresh
  else ⟨(c - 1) % 8 + 1, B.getD ((c - 1) / 8) 0, (B.getD ((c - 1) / 8) 0 : Int)⟩

theorem slice_le (B : List Nat) (c j : Nat) (h1 : c % 8 + j ≤ 8)
    (h2 : c + j ≤ 8 * B.length) :
    lsbVal (((bitsOfBytes littleEndian B).drop c).take j) =
      (B.getD (c / 8) 0 / 2 ^ (c % 8)) % 2 ^ j := by
  cases j with
  | zero => simp [lsbVal, Nat.mod_one]
  | succ j0 =>
      set j := j0 + 1 with hj
      have hq : c / 8 < B.length := by
        have := Nat.div_add_mod c 8
        omega
      rw [show (bitsOfBytes littleEndian B).drop c
            = ((bitsOfBytes littleEndian B).drop (8 * (c / 8))).drop (c % 8) by
          rw [List.drop_drop, Nat.div_add_mod]]
      rw [bitsOfBytes_drop8, List.drop_eq_getElem_cons hq]
      rw [show bitsOfBytes littleEndian (B[c / 8] :: B.drop (c / 8 + 1))
            = lsbBits 8 B[c / 8] ++ bitsOfBytes littleEndian (B.drop (c / 8 + 1)) from rfl]
      rw [List.drop_append_of_le_length (by rw [lsbBits_length]; omega)]
      rw [lsbBits_drop, List.take_append_of_le_length (by rw [lsbBits_length]; omega)]
      rw [lsbBits_take, show min j (8 - c % 8) = j by omega, lsbVal_lsbBits,
        List.getD_eq_getElem B 0 hq]

theorem slice_be (B : List Nat) (c j : Nat) (h1 : c % 8 + j ≤ 8)
    (h2 : c + j ≤ 8 * B.length) :
    msbVal (((bitsOfBytes bigEndian B).drop c).take j) =
      (B.getD (c / 8) 0 / 2 ^ (8 - c % 8 - j)) % 2 ^ j := by
  cases j with
  | zero => simp [msbVal, lsbVal, Nat.mod_one]
  | succ j0 =>
      set j := j0 + 1 with hj
      have hq : c / 8 < B.length := by
        have := Nat.div_add_mod c 8
        omega
      rw [show (bitsOfBytes bigEndian B).drop c
            = ((bitsOfBytes bigEndian B).drop (8 * (c / 8))).drop (c % 8) by
          rw [List.drop_drop, Nat.div_add_mod]]
      rw [bitsOfBytes_drop8, List.drop_eq_getElem_cons hq]
      rw [show bitsOfBytes bigEndian (B[c / 8] :: B.drop (c / 8 + 1))
            = msbBits 8 B[c / 8] ++ bitsOfBytes bigEndian (B.drop (c / 8 + 1)) from rfl]
      rw [List.drop_append_of_le_length (by rw [msbBits_length]; omega)]
      rw [msbBits_drop _ _ _ (by omega),
        List.take_append_of_le_length (by rw [msbBits_length]; omega)]
      rw [msbBits_take _ _ _ (by omega), msbVal_msbBits, List.getD_eq_getElem B 0 hq]


theorem shiftLeft_shiftRight_self (a s : Nat) : (a <<< s) >>> s = a := by
  rw [Nat.shiftLeft_eq, Nat.shiftRight_eq_div_pow, Nat.mul_div_cancel _ (Nat.pos_pow_of_pos s (by omega))]

theorem readExtract_le (b p j : Nat) (hpj : p + j ≤ 8) :
    readExtract littleEndian b p j = (b / 2 ^ p) % 2 ^ j := by
  unfold readExtract
  rw [if_pos rfl, maskFF_le j (by omega), Nat.shiftRight_eq_div_pow,
    Nat.and_pow_two_sub_one_eq_mod]

theorem readExtract_be (b p j : Nat) (hpj : p + j ≤ 8) :
    readExtract bigEndian b p j = (b / 2 ^ (8 - p - j)) % 2 ^ j := by
  unfold readExtract
  rw [if_neg (by simp), maskFF_be j (by omega), and_mask_shift,
    shiftLeft_shiftRight_self]
  have hx : (b <<< p) >>> (8 - j) = b / 2 ^ (8 - p - j) := by
    rw [Nat.shiftLeft_eq, Nat.shiftRight_eq_div_pow,
      show 8 - j = p + (8 - p - j) by omega, pow_add, Nat.mul_comm b (2 ^ p),
      Nat.mul_div_mul_left _ _ (Nat.pos_pow_of_pos p (by omega))]
  rw [hx]

theorem readAccum_le (acc exval k j : Nat) (hacc : acc < 2 ^ k) :
    readAccum littleEndian acc exval k j = 2 ^ k * exval + acc := by
  unfold readAccum
  rw [if_pos rfl, or_mul_pow acc exval k hacc]

theorem readAccum_be (acc exval k j : Nat) (he : exval < 2 ^ j) :
    readAccum bigEndian acc exval k j = acc * 2 ^ j + exval := by
  unfold readAccum
  rw [if_neg (by simp), shiftl_or_add acc exval j he]

theorem readState_curBitPos_ne_eight (B : List Nat) (c : Nat) (h : c % 8 ≠ 0) :
    (readState B c).curBitPos = c % 8 := by
  unfold readState
  rw [if_neg (by omega)]
  show (c - 1) % 8 + 1 = c % 8
  omega

theorem readRefill_at (B : List Nat) (c : Nat) (h : c < 8 * B.length) :
    bitstream.readRefill B B.length (readState B c) (bitPos c) =
      some (⟨c % 8, B.getD (c / 8) 0, (B.getD (c / 8) 0 : Int)⟩, c / 8 + 1) := by
  unfold bitstream.readRefill
  by_cases hp : c % 8 = 0
  · have hcur : (readState B c).curBitPos = 8 := by
      unfold readState
      by_cases hc0 : c = 0
      · rw [if_pos hc0]; rfl
      · rw [if_neg hc0]; show (c - 1) % 8 + 1 = 8; omega
    rw [if_pos hcur]
    have hbp : bitPos c = c / 8 := by unfold bitPos; omega
    rw [hbp]
    unfold bitstreamFilterNextChar
    rw [if_pos (by omega), hp]
  · rw [if_neg (by rw [readState_curBitPos_ne_eight B c hp]; omega)]
    unfold readState bitPos
    rw [if_neg (by omega)]
    rw [show (c - 1) % 8 + 1 = c % 8 by omega, show (c - 1) / 8 = c / 8 by omega,
      show (c + 7) / 8 = c / 8 + 1 by omega]

theorem readRefill_eof (B : List Nat) :
    bitstream.readRefill B B.length (readState B (8 * B.length)) (bitPos (8 * B.length)) =
      none := by
  unfold bitstream.readRefill
  have hcur : (readState B (8 * B.length)).curBitPos = 8 := by
    unfold readState
    by_cases hc0 : 8 * B.length = 0
    · rw [if_pos hc0]; rfl
    · rw [if_neg hc0]; show (8 * B.length - 1) % 8 + 1 = 8; omega
  rw [if_pos hcur]
  have hbp : bitPos (8 * B.length) = B.length := by unfold bitPos; omega
  rw [hbp]
  unfold bitstreamFilterNextChar
  rw [if_neg (by omega)]

theorem readLoop_step_none (e : endian) (inBuf : List Nat) (lenIn fuel bits acc k : Nat)
    (st : bitstream) (r : Nat) (hb : bits ≠ 0)
    (hrefill : bitstream.readRefill inBuf lenIn st r = none) :
    bitstream.readLoop e inBuf lenIn (fuel + 1) bits acc k st r =
      if k = 0 then (0, acc, st, r)
      else if e = bigEndian then (k + bits, acc <<< bits, st, r)
      else (k, acc, st, r) := by
  rw [bitstream.readLoop, if_neg hb, hrefill]

theorem readLoop_step_some (e : endian) (inBuf : List Nat) (lenIn fuel bits acc k : Nat)
    (st : bitstream) (r : Nat) (st1 : bitstream) (r1 : Nat) (hb : bits ≠ 0)
    (hrefill : bitstream.readRefill inBuf lenIn st r = some (st1, r1))
    (hnz : min bits (8 - st1.curBitPos) ≠ 0) :
    bitstream.readLoop e inBuf lenIn (fuel + 1) bits acc k st r =
      bitstream.readLoop e inBuf lenIn fuel (bits - min bits (8 - st1.curBitPos))
        (readAccum e acc
          (readExtract e st1.bufByte st1.curBitPos (min bits (8 - st1.curBitPos)))
          k (min bits (8 - st1.curBitPos)))
        (k + min bits (8 - st1.curBitPos))
        ⟨st1.curBitPos + min bits (8 - st1.curBitPos), st1.bufByte, st1.origBufByte⟩ r1 := by
  rw [bitstream.readLoop, if_neg hb, hrefill]
  simp only [if_neg hnz]

theorem readLoop_le (B : List Nat) (hB : ∀ b ∈ B, b < 256) :
    ∀ fuel m acc k c, m ≤ fuel → c ≤ 8 * B.length → acc < 2 ^ k →
      bitstream.readLoop littleEndian B B.length fuel m acc k (readState B c) (bitPos c) =
        if c + m ≤ 8 * B.length then
          (k + m, acc + lsbVal (((bitsOfBytes littleEndian B).drop c).take m) * 2 ^ k,
            readState B (c + m), bitPos (c + m))
        else
          (k + (8 * B.length - c),
            acc + lsbVal ((bitsOfBytes littleEndian B).drop c) * 2 ^ k,
            readState B (8 * B.length), B.length) := by
  intro fuel
  induction fuel with
  | zero =>
      intro m acc k c hm hc hacc
      have hm0 : m = 0 := by omega
      subst hm0
      rw [if_pos (by omega)]
      show (k, acc, readState B c, bitPos c) = _
      simp [lsbVal]
  | succ fuel ih =>
      intro m acc k c hm hc hacc
      by_cases hm0 : m = 0
      · subst hm0
        rw [if_pos (show c + 0 ≤ 8 * B.length by omega), bitstream.readLoop]
        simp [lsbVal]
      · by_cases hceof : c = 8 * B.length
        · subst hceof
          rw [readLoop_step_none _ _ _ _ _ _ _ _ _ hm0 (readRefill_eof B)]
          rw [if_neg (show ¬ (8 * B.length + m ≤ 8 * B.length) by omega)]
          have hdrop : (bitsOfBytes littleEndian B).drop (8 * B.length) = [] := by
            apply List.drop_eq_nil_of_le
            rw [bitsOfBytes_length]
          have hbp : bitPos (8 * B.length) = B.length := by unfold bitPos; omega
          by_cases hk : k = 0
          · rw [if_pos hk, hdrop, hbp, hk]
            simp [lsbVal]
          · rw [if_neg hk, if_neg (show ¬ (littleEndian = bigEndian) by decide),
              hdrop, hbp]
            simp [lsbVal]
        · -- a chunk is available
          have hclt : c < 8 * B.length := by omega
          have hqlt : c / 8 < B.length := by omega
          set b := B.getD (c / 8) 0 with hbdef
          have hblt : b < 256 := by
            rw [hbdef, List.getD_eq_getElem B 0 hqlt]
            exact hB _ (List.getElem_mem hqlt)
          set j := min m (8 - c % 8) with hjdef
          have hj1 : 1 ≤ j := by omega
          have hjm : j ≤ m := by omega
          have hpj : c % 8 + j ≤ 8 := by omega
          have hcj : c + j ≤ 8 * B.length := by omega
          rw [readLoop_step_some littleEndian B B.length fuel m acc k _ _ _ _ hm0
            (readRefill_at B c hclt) (by simp only []; omega)]
          simp only []
          have hstate : (⟨c % 8 + j, b, (b : Int)⟩ : bitstream) = readState B (c + j) := by
            unfold readState
            rw [if_neg (by omega)]
            rw [show (c + j - 1) % 8 + 1 = c % 8 + j by omega,
              show (c + j - 1) / 8 = c / 8 by omega]
          have hr1 : c / 8 + 1 = bitPos (c + j) := by unfold bitPos; omega
          rw [hstate, hr1]
          have hexval : readExtract littleEndian b (c % 8) j =
              lsbVal (((bitsOfBytes littleEndian B).drop c).take j) := by
            rw [readExtract_le b (c % 8) j hpj, slice_le B c j hpj hcj]
          have haccval : readAccum littleEndian acc (readExtract littleEndian b (c % 8) j) k j =
              2 ^ k * readExtract littleEndian b (c % 8) j + acc :=
            readAccum_le acc _ k j hacc
          have hexlt : readExtract littleEndian b (c % 8) j < 2 ^ j := by
            rw [readExtract_le b (c % 8) j hpj]
            exact Nat.mod_lt _ (Nat.pos_pow_of_pos j (by omega))
          have haclt : readAccum littleEndian acc (readExtract littleEndian b (c % 8) j) k j
              < 2 ^ (k + j) := by
            rw [haccval, pow_add]
            have : 2 ^ k * readExtract littleEndian b (c % 8) j + acc
                < 2 ^ k * (readExtract littleEndian b (c % 8) j + 1) := by
              rw [Nat.mul_add, Nat.mul_one]
              omega
            calc 2 ^ k * readExtract littleEndian b (c % 8) j + acc
                < 2 ^ k * (readExtract littleEndian b (c % 8) j + 1) := this
              _ ≤ 2 ^ k * 2 ^ j := by
                  apply Nat.mul_le_mul_left
                  omega
          rw [ih (m - j) _ (k + j) (c + j) (by omega) hcj haclt]
          have hsplit : ((bitsOfBytes littleEndian B).drop c).take m =
              ((bitsOfBytes littleEndian B).drop c).take j ++
                ((bitsOfBytes littleEndian B).drop (c + j)).take (m - j) := by
            rw [show m = j + (m - j) by omega, List.take_add, List.drop_drop]
            rw [show j + (m - j) - j = m - j by omega]
          have hlenj : (((bitsOfBytes littleEndian B).drop c).take j).length = j := by
            rw [List.length_take, List.length_drop, bitsOfBytes_length]
            omega
          by_cases hcm : c + m ≤ 8 * B.length
          · rw [if_pos (by omega), if_pos hcm]
            have h1 : k + j + (m - j) = k + m := by omega
            have h2 : c + j + (m - j) = c + m := by omega
            rw [h1, h2, haccval, hexval, hsplit, lsbVal_append, hlenj]
            simp only [Prod.mk.injEq, true_and, and_true]
            ring
          · rw [if_neg (by omega), if_neg hcm]
            have h1 : k + j + (8 * B.length - (c + j)) = k + (8 * B.length - c) := by omega
            rw [h1, haccval, hexval]
            have hsplit2 : (bitsOfBytes littleEndian B).drop c =
                ((bitsOfBytes littleEndian B).drop c).take j ++
                  (bitsOfBytes littleEndian B).drop (c + j) := by
              conv_lhs => rw [← List.take_append_drop j ((bitsOfBytes littleEndian B).drop c)]
              rw [List.drop_drop]
            conv_rhs => rw [hsplit2]
            rw [lsbVal_append, hlenj]
            simp only [Prod.mk.injEq, true_and, and_true]
            ring

theorem readLoop_be (B : List Nat) (hB : ∀ b ∈ B, b < 256) :
    ∀ fuel m acc k c, m ≤ fuel → c ≤ 8 * B.length → acc < 2 ^ k →
      bitstream.readLoop bigEndian B B.length fuel m acc k (readState B c) (bitPos c) =
        if c + m ≤ 8 * B.length then
          (k + m, acc * 2 ^ m + msbVal (((bitsOfBytes bigEndian B).drop c).take m),
            readState B (c + m), bitPos (c + m))
        else if k = 0 ∧ c = 8 * B.length then (0, acc, readState B c, bitPos c)
        else
          (k + m,
            (acc * 2 ^ (8 * B.length - c) + msbVal ((bitsOfBytes bigEndian B).drop c)) *
              2 ^ (m - (8 * B.length - c)),
            readState B (8 * B.length), B.length) := by
  intro fuel
  induction fuel with
  | zero =>
      intro m acc k c hm hc hacc
      have hm0 : m = 0 := by omega
      subst hm0
      rw [if_pos (by omega)]
      show (k, acc, readState B c, bitPos c) = _
      simp [msbVal, lsbVal]
  | succ fuel ih =>
      intro m acc k c hm hc hacc
      by_cases hm0 : m = 0
      · subst hm0
        rw [if_pos (show c + 0 ≤ 8 * B.length by omega), bitstream.readLoop]
        simp [msbVal, lsbVal]
      · by_cases hceof : c = 8 * B.length
        · subst hceof
          rw [readLoop_step_none _ _ _ _ _ _ _ _ _ hm0 (readRefill_eof B)]
          rw [if_neg (show ¬ (8 * B.length + m ≤ 8 * B.length) by omega)]
          have hdrop : (bitsOfBytes bigEndian B).drop (8 * B.length) = [] := by
            apply List.drop_eq_nil_of_le
            rw [bitsOfBytes_length]
          have hbp : bitPos (8 * B.length) = B.length := by unfold bitPos; omega
          by_cases hk : k = 0
          · rw [if_pos hk, if_pos (show k = 0 ∧ 8 * B.length = 8 * B.length from ⟨hk, rfl⟩)]
          · rw [if_neg hk, if_neg (show ¬ (k = 0 ∧ 8 * B.length = 8 * B.length) by tauto),
              hdrop, hbp, Nat.shiftLeft_eq]
            simp only [Prod.mk.injEq, true_and, and_true]
            simp [msbVal, lsbVal]
        · have hclt : c < 8 * B.length := by omega
          have hqlt : c / 8 < B.length := by omega
          set b := B.getD (c / 8) 0 with hbdef
          have hblt : b < 256 := by
            rw [hbdef, List.getD_eq_getElem B 0 hqlt]
            exact hB _ (List.getElem_mem hqlt)
          set j := min m (8 - c % 8) with hjdef
          have hj1 : 1 ≤ j := by omega
          have hjm : j ≤ m := by omega
          have hpj : c % 8 + j ≤ 8 := by omega
          have hcj : c + j ≤ 8 * B.length := by omega
          rw [readLoop_step_some bigEndian B B.length fuel m acc k _ _ _ _ hm0
            (readRefill_at B c hclt) (by simp only []; omega)]
          simp only []
          have hstate : (⟨c % 8 + j, b, (b : Int)⟩ : bitstream) = readState B (c + j) := by
            unfold readState
            rw [if_neg (by omega)]
            rw [show (c + j - 1) % 8 + 1 = c % 8 + j by omega,
              show (c + j - 1) / 8 = c / 8 by omega]
          have hr1 : c / 8 + 1 = bitPos (c + j) := by unfold bitPos; omega
          rw [hstate, hr1]
          have hexval : readExtract bigEndian b (c % 8) j =
              msbVal (((bitsOfBytes bigEndian B).drop c).take j) := by
            rw [readExtract_be b (c % 8) j hpj, slice_be B c j hpj hcj]
          have hexlt : readExtract bigEndian b (c % 8) j < 2 ^ j := by
            rw [readExtract_be b (c % 8) j hpj]
            exact Nat.mod_lt _ (Nat.pos_pow_of_pos j (by omega))
          have haccval : readAccum bigEndian acc (readExtract bigEndian b (c % 8) j) k j =
              acc * 2 ^ j + readExtract bigEndian b (c % 8) j :=
            readAccum_be acc _ k j hexlt
          have haclt : readAccum bigEndian acc (readExtract bigEndian b (c % 8) j) k j
              < 2 ^ (k + j) := by
            rw [haccval, pow_add]
            calc acc * 2 ^ j + readExtract bigEndian b (c % 8) j
                < (acc + 1) * 2 ^ j := by rw [Nat.add_mul, Nat.one_mul]; omega
              _ ≤ 2 ^ k * 2 ^ j := by
                  apply Nat.mul_le_mul_right
                  omega
          rw [ih (m - j) _ (k + j) (c + j) (by omega) hcj haclt]
          have hsplit : ((bitsOfBytes bigEndian B).drop c).take m =
              ((bitsOfBytes bigEndian B).drop c).take j ++
                ((bitsOfBytes bigEndian B).drop (c + j)).take (m - j) := by
            rw [show m = j + (m - j) by omega, List.take_add, List.drop_drop]
            rw [show j + (m - j) - j = m - j by omega]
          have hlenj : (((bitsOfBytes bigEndian B).drop c).take j).length = j := by
            rw [List.length_take, List.length_drop, bitsOfBytes_length]
            omega
          by_cases hcm : c + m ≤ 8 * B.length
          · rw [if_pos (by omega), if_pos hcm]
            have h1 : k + j + (m - j) = k + m := by omega
            have h2 : c + j + (m - j) = c + m := by omega
            have hlen2 : (((bitsOfBytes bigEndian B).drop (c + j)).take (m - j)).length
                = m - j := by
              rw [List.length_take, List.length_drop, bitsOfBytes_length]
              omega
            rw [h1, h2, haccval, hexval, hsplit, msbVal_append, hlen2]
            simp only [Prod.mk.injEq, true_and, and_true]
            have hp : (2:Nat) ^ m = 2 ^ j * 2 ^ (m - j) := by
              rw [← pow_add]
              congr 1
              omega
            rw [hp]
            ring
          · rw [if_neg (show ¬ (c + j + (m - j) ≤ 8 * B.length) by omega),
              if_neg (show ¬ (k + j = 0 ∧ c + j = 8 * B.length) by omega),
              if_neg (show ¬ (c + m ≤ 8 * B.length) by omega),
              if_neg (show ¬ (k = 0 ∧ c = 8 * B.length) by tauto)]
            have h1 : k + j + (m - j) = k + m := by omega
            have hsplit2 : (bitsOfBytes bigEndian B).drop c =
                ((bitsOfBytes bigEndian B).drop c).take j ++
                  (bitsOfBytes bigEndian B).drop (c + j) := by
              conv_lhs => rw [← List.take_append_drop j ((bitsOfBytes bigEndian B).drop c)]
              rw [List.drop_drop]
            have hlend : ((bitsOfBytes bigEndian B).drop (c + j)).length
                = 8 * B.length - (c + j) := by
              rw [List.length_drop, bitsOfBytes_length]
            rw [h1, haccval, hexval]
            conv_rhs => rw [hsplit2]
            rw [msbVal_append, hlend]
            simp only [Prod.mk.injEq, true_and, and_true]
            have ha2 : m - j - (8 * B.length - (c + j)) = m - (8 * B.length - c) := by omega
            have hp : (2:Nat) ^ (8 * B.length - c) = 2 ^ j * 2 ^ (8 * B.length - (c + j)) := by
              rw [← pow_add]
              congr 1
              omega
            rw [ha2, hp]
            ring



theorem readState_origBufByte_ne (B : List Nat) (c : Nat) :
    (readState B c).origBufByte ≠ WASNT_BUFFERED := by
  unfold readState
  by_cases hc0 : c = 0
  · rw [if_pos hc0]
    decide
  · rw [if_neg hc0]
    show ((B.getD ((c - 1) / 8) 0 : Int)) ≠ WASNT_BUFFERED
    unfold WASNT_BUFFERED
    omega

theorem read_at (e : endian) (B : List Nat) (n c : Nat) :
    bitstream.read e B B.length n (readState B c) (bitPos c) =
      bitstream.readLoop e B B.length n n 0 0 (readState B c) (bitPos c) := by
  unfold bitstream.read
  rw [if_neg (readState_origBufByte_ne B c)]

theorem read_le_spec (B : List Nat) (hB : ∀ b ∈ B, b < 256) (n c : Nat)
    (hc : c ≤ 8 * B.length) :
    bitstream.read littleEndian B B.length n (readState B c) (bitPos c) =
      if c + n ≤ 8 * B.length then
        (n, lsbVal (((bitsOfBytes littleEndian B).drop c).take n),
          readState B (c + n), bitPos (c + n))
      else
        (8 * B.length - c, lsbVal ((bitsOfBytes littleEndian B).drop c),
          readState B (8 * B.length), B.length) := by
  rw [read_at, readLoop_le B hB n n 0 0 c (le_refl n) hc (by decide)]
  simp

theorem read_be_spec (B : List Nat) (hB : ∀ b ∈ B, b < 256) (n c : Nat)
    (hc : c ≤ 8 * B.length) :
    bitstream.read bigEndian B B.length n (readState B c) (bitPos c) =
      if c + n ≤ 8 * B.length then
        (n, msbVal (((bitsOfBytes bigEndian B).drop c).take n),
          readState B (c + n), bitPos (c + n))
      else if c = 8 * B.length then (0, 0, readState B c, bitPos c)
      else
        (n, msbVal ((bitsOfBytes bigEndian B).drop c) * 2 ^ (n - (8 * B.length - c)),
          readState B (8 * B.length), B.length) := by
  rw [read_at, readLoop_be B hB n n 0 0 c (le_refl n) hc (by decide)]
  simp


/-- The bit sequence in which `bitstream::write` consumes an `n`-bit
value: low bit first in little-endian mode, high bit first in big-endian
mode. -/
def ebits (e : endian) (n v : Nat) : List Bool :=
  match e with
  | littleEndian => lsbBits n v
  | bigEndian => msbBits n v

/-- The `bitstream` state after a fresh writer has consumed the bit list
`L`: the final (possibly full, not yet emitted) byte stays buffered. -/
def writeState (e : endian) (L : List Bool) : bitstream :=
  if L.length = 0 then bitstream.fresh
  else ⟨(L.length - 1) % 8 + 1, byteVal e (L.drop (8 * ((L.length - 1) / 8))),
    WASNT_BUFFERED⟩

/-- The bytes the sink has received after a fresh writer has consumed `L`:
every completed byte except the final one, which stays buffered until the
next byte starts or `flushByte` runs. -/
def wEmitted (e : endian) (L : List Bool) : List Nat :=
  bytesOfBits e (L.take (8 * ((L.length - 1) / 8)))

/-- State at the bottom of the write loop's flush step, as a function of
the bits consumed so far. -/
def midState (e : endian) (L : List Bool) : bitstream :=
  ⟨L.length % 8, byteVal e (L.drop (8 * (L.length / 8))), WASNT_BUFFERED⟩

/-- Output at the bottom of the write loop's flush step. -/
def midEmitted (e : endian) (L : List Bool) : List Nat :=
  bytesOfBits e (L.take (8 * (L.length / 8)))

theorem lsbBits_mod (k u : Nat) : lsbBits k (u % 2 ^ k) = lsbBits k u := by
  rw [← lsbVal_lsbBits k u, lsbBits_lsbVal _ _ (by rw [lsbBits_length])]
  simp [lsbBits_length]

theorem msbBits_mod (k u : Nat) : msbBits k (u % 2 ^ k) = msbBits k u := by
  unfold msbBits
  rw [lsbBits_mod]

theorem lsbBits_zero (k : Nat) : lsbBits k 0 = List.replicate k false := by
  induction k with
  | zero => rfl
  | succ k ih => simp [lsbBits, ih, List.replicate_succ]

theorem byteBits_byteVal (e : endian) (c : List Bool) (h : c.length ≤ 8) :
    byteBits e (byteVal e c) = c ++ List.replicate (8 - c.length) false := by
  cases e
  · exact lsbBits_lsbVal c 8 h
  · show msbBits 8 (msbVal c <<< (8 - c.length)) = _
    rw [Nat.shiftLeft_eq]
    unfold msbBits
    have happ : lsbBits 8 (msbVal c * 2 ^ (8 - c.length)) =
        lsbBits (8 - c.length) (msbVal c * 2 ^ (8 - c.length)) ++
          lsbBits c.length (msbVal c * 2 ^ (8 - c.length) / 2 ^ (8 - c.length)) := by
      have h2 := lsbBits_append (8 - c.length) c.length (msbVal c * 2 ^ (8 - c.length))
      rw [show 8 - c.length + c.length = 8 by omega] at h2
      exact h2
    rw [happ, Nat.mul_div_cancel _ (Nat.pos_pow_of_pos _ (by omega))]
    rw [← lsbBits_mod (8 - c.length) (msbVal c * 2 ^ (8 - c.length)),
      Nat.mul_mod_left, lsbBits_zero, List.reverse_append, List.reverse_replicate]
    have hc : lsbBits c.length (msbVal c) = c.reverse ++ List.replicate 0 false := by
      have := lsbBits_lsbVal c.reverse c.length (by simp)
      simpa [msbVal] using this
    rw [hc]
    simp

theorem bytesOfBits_cons8 (e : endian) (b0 b1 b2 b3 b4 b5 b6 b7 : Bool)
    (rest : List Bool) :
    bytesOfBits e (b0 :: b1 :: b2 :: b3 :: b4 :: b5 :: b6 :: b7 :: rest) =
      byteVal e [b0, b1, b2, b3, b4, b5, b6, b7] :: bytesOfBits e rest := rfl

theorem bytesOfBits_append8 (e : endian) (c rest : List Bool) (h : c.length = 8) :
    bytesOfBits e (c ++ rest) = byteVal e c :: bytesOfBits e rest := by
  rcases c with _ | ⟨a0, c⟩
  · simp at h
  rcases c with _ | ⟨a1, c⟩
  · simp at h
  rcases c with _ | ⟨a2, c⟩
  · simp at h
  rcases c with _ | ⟨a3, c⟩
  · simp at h
  rcases c with _ | ⟨a4, c⟩
  · simp at h
  rcases c with _ | ⟨a5, c⟩
  · simp at h
  rcases c with _ | ⟨a6, c⟩
  · simp at h
  rcases c with _ | ⟨a7, c⟩
  · simp at h
  rcases c with _ | ⟨a8, c⟩
  · rfl
  · simp at h

theorem bytesOfBits_short (e : endian) (c : List Bool) (h1 : c ≠ [])
    (h8 : c.length ≤ 8) : bytesOfBits e c = [byteVal e c] := by
  rcases c with _ | ⟨a0, c⟩
  · exact absurd rfl h1
  rcases c with _ | ⟨a1, c⟩
  · rfl
  rcases c with _ | ⟨a2, c⟩
  · rfl
  rcases c with _ | ⟨a3, c⟩
  · rfl
  rcases c with _ | ⟨a4, c⟩
  · rfl
  rcases c with _ | ⟨a5, c⟩
  · rfl
  rcases c with _ | ⟨a6, c⟩
  · rfl
  rcases c with _ | ⟨a7, c⟩
  · rfl
  rcases c with _ | ⟨a8, c⟩
  · rfl
  · simp at h8

theorem bytesOfBits_append_mul8 (e : endian) :
    ∀ k (L M : List Bool), L.length = 8 * k →
      bytesOfBits e (L ++ M) = bytesOfBits e L ++ bytesOfBits e M := by
  intro k
  induction k with
  | zero =>
      intro L M h
      have : L = [] := List.eq_nil_of_length_eq_zero (by omega)
      subst this
      rfl
  | succ k ih =>
      intro L M h
      have h8 : 8 ≤ L.length := by omega
      have hsplit : L = L.take 8 ++ L.drop 8 := (List.take_append_drop 8 L).symm
      have hlen : (L.take 8).length = 8 := by
        rw [List.length_take]
        omega
      conv_lhs => rw [hsplit, List.append_assoc]
      rw [bytesOfBits_append8 e _ _ hlen]
      conv_rhs => rw [hsplit]
      rw [bytesOfBits_append8 e _ _ hlen,
        ih (L.drop 8) M (by rw [List.length_drop]; omega)]
      rfl

theorem bytesOfBits_length_le (e : endian) :
    ∀ k (L : List Bool), L.length ≤ 8 * k →
      (bytesOfBits e L).length = (L.length + 7) / 8 := by
  intro k
  induction k with
  | zero =>
      intro L h
      have : L = [] := List.eq_nil_of_length_eq_zero (by omega)
      subst this
      rfl
  | succ k ih =>
      intro L h
      by_cases h8 : L.length ≤ 8
      · by_cases h0 : L = []
        · subst h0
          rfl
        · rw [bytesOfBits_short e L h0 h8]
          have : L.length ≠ 0 := by
            intro hc
            exact h0 (List.eq_nil_of_length_eq_zero hc)
          show 1 = (L.length + 7) / 8
          omega
      · have hsplit : L = L.take 8 ++ L.drop 8 := (List.take_append_drop 8 L).symm
        have hlen : (L.take 8).length = 8 := by
          rw [List.length_take]
          omega
        conv_lhs => rw [hsplit]
        rw [bytesOfBits_append8 e _ _ hlen, List.length_cons,
          ih (L.drop 8) (by rw [List.length_drop]; omega), List.length_drop]
        omega

theorem bytesOfBits_length (e : endian) (L : List Bool) :
    (bytesOfBits e L).length = (L.length + 7) / 8 :=
  bytesOfBits_length_le e L.length L (by omega)

theorem bytesOfBits_last (e : endian) (L : List Bool) (h : L ≠ []) :
    bytesOfBits e L =
      wEmitted e L ++ [byteVal e (L.drop (8 * ((L.length - 1) / 8)))] := by
  have hL : L.length ≠ 0 := by
    intro hc
    exact h (List.eq_nil_of_length_eq_zero hc)
  have hq : 8 * ((L.length - 1) / 8) ≤ L.length - 1 := by omega
  conv_lhs => rw [← List.take_append_drop (8 * ((L.length - 1) / 8)) L]
  rw [bytesOfBits_append_mul8 e ((L.length - 1) / 8) _ _
    (by rw [List.length_take]; omega)]
  unfold wEmitted
  congr 1
  apply bytesOfBits_short
  · intro hc
    have := congrArg List.length hc
    rw [List.length_drop] at this
    simp at this
    omega
  · rw [List.length_drop]
    omega

theorem or_shiftLeft (x y s : Nat) : (x <<< s) ||| (y <<< s) = (x ||| y) <<< s := by
  apply Nat.eq_of_testBit_eq
  intro i
  rw [Nat.testBit_or, Nat.testBit_shiftLeft, Nat.testBit_shiftLeft,
    Nat.testBit_shiftLeft, Nat.testBit_or]
  by_cases hsi : s ≤ i <;> simp [hsi]

theorem writeState_nil (e : endian) : writeState e [] = bitstream.fresh := rfl

theorem wEmitted_nil (e : endian) : wEmitted e [] = [] := rfl

theorem wEmitted_length (e : endian) (L : List Bool) :
    (wEmitted e L).length = (L.length - 1) / 8 := by
  unfold wEmitted
  rw [bytesOfBits_length, List.length_take]
  omega

theorem writeFlush_at (lenOut : Nat) (e : endian) (L : List Bool) (prior : List Nat)
    (hroom : L.length % 8 = 0 → L.length ≠ 0 →
      prior.length + (L.length - 1) / 8 < lenOut) :
    bitstream.writeFlush lenOut (writeState e L) (prior ++ wEmitted e L) =
      some (midState e L, prior ++ midEmitted e L) := by
  unfold bitstream.writeFlush
  by_cases hb : L.length % 8 = 0
  · by_cases h0 : L.length = 0
    · have hnil : L = [] := List.eq_nil_of_length_eq_zero h0
      subst hnil
      rw [writeState_nil]
      have hmid : midState e [] = ⟨0, 0, WASNT_BUFFERED⟩ := by
        unfold midState
        cases e <;> simp [byteVal, msbVal, lsbVal]
      rw [if_pos (show bitstream.fresh.curBitPos = 8 from rfl),
        if_neg (show ¬ (bitstream.fresh.origBufByte ≠ INITIAL_VALUE ∧
          (bitstream.fresh.bufByte : Int) ≠ bitstream.fresh.origBufByte) by
            simp [bitstream.fresh]), hmid]
      rfl
    · have hcur : (writeState e L).curBitPos = 8 := by
        unfold writeState
        rw [if_neg h0]
        show (L.length - 1) % 8 + 1 = 8
        omega
      rw [if_pos hcur]
      have hob : (writeState e L).origBufByte = WASNT_BUFFERED := by
        unfold writeState
        rw [if_neg h0]
      have hbuf : (writeState e L).bufByte =
          byteVal e (L.drop (8 * ((L.length - 1) / 8))) := by
        unfold writeState
        rw [if_neg h0]
      have hcond : (writeState e L).origBufByte ≠ INITIAL_VALUE ∧
          ((writeState e L).bufByte : Int) ≠ (writeState e L).origBufByte := by
        constructor
        · rw [hob]
          decide
        · rw [hob]
          unfold WASNT_BUFFERED
          omega
      rw [if_pos hcond]
      unfold bitstreamFilterPutChar
      rw [if_pos (by
        rw [List.length_append, wEmitted_length]
        exact hroom hb h0)]
      have hout : prior ++ wEmitted e L ++ [(writeState e L).bufByte] =
          prior ++ midEmitted e L := by
        rw [List.append_assoc]
        congr 1
        have hmid : midEmitted e L = bytesOfBits e L := by
          unfold midEmitted
          rw [List.take_of_length_le (by omega)]
        rw [hmid, bytesOfBits_last e L
          (by intro hc; exact h0 (by rw [hc]; rfl)), hbuf]
      rw [hout]
      have hmidst : (⟨0, 0, WASNT_BUFFERED⟩ : bitstream) = midState e L := by
        unfold midState
        have hdrop : L.drop (8 * (L.length / 8)) = [] :=
          List.drop_eq_nil_of_le (by omega)
        rw [hdrop]
        cases e <;> simp [byteVal, msbVal, lsbVal, hb]
      rw [hmidst]
  · have hcur : (writeState e L).curBitPos ≠ 8 := by
      unfold writeState
      rw [if_neg (by omega)]
      show (L.length - 1) % 8 + 1 ≠ 8
      omega
    rw [if_neg hcur]
    have hst : writeState e L = midState e L := by
      unfold writeState midState
      rw [if_neg (by omega)]
      rw [show (L.length - 1) % 8 + 1 = L.length % 8 by omega,
        show (L.length - 1) / 8 = L.length / 8 by omega]
    have hem : wEmitted e L = midEmitted e L := by
      unfold wEmitted midEmitted
      rw [show (L.length - 1) / 8 = L.length / 8 by omega]
    rw [hst, hem]

theorem writeLoop_step (e : endian) (lenOut bits fuel bw inv : Nat)
    (st st1 : bitstream) (out out1 : List Nat) (hlt : bw < bits)
    (hflush : bitstream.writeFlush lenOut st out = some (st1, out1))
    (hnz : min (bits - bw) (8 - st1.curBitPos) ≠ 0) :
    bitstream.writeLoop e lenOut bits (fuel + 1) bw inv st out =
      bitstream.writeLoop e lenOut bits fuel
        (bw + min (bits - bw) (8 - st1.curBitPos))
        (writeExtract e bits (min (bits - bw) (8 - st1.curBitPos))
          st1.curBitPos inv).2.2
        ⟨st1.curBitPos + min (bits - bw) (8 - st1.curBitPos),
          ((st1.bufByte &&&
              cNot32 (writeExtract e bits (min (bits - bw) (8 - st1.curBitPos))
                st1.curBitPos inv).2.1) |||
            (writeExtract e bits (min (bits - bw) (8 - st1.curBitPos))
              st1.curBitPos inv).1) &&& 0xFF,
          st1.origBufByte⟩ out1 := by
  rw [bitstream.writeLoop, if_neg (show ¬ (bits ≤ bw) by omega), hflush]
  simp only [if_neg hnz]

theorem writeChunk_le (n p j v a : Nat) (hpj : p + j ≤ 8) (hj : 1 ≤ j)
    (ha : a < 2 ^ p) :
    ((a &&& cNot32 (writeExtract littleEndian n j p v).2.1) |||
        (writeExtract littleEndian n j p v).1) &&& 0xFF =
      a + 2 ^ p * (v % 2 ^ j) := by
  unfold writeExtract
  rw [if_pos rfl]
  simp only []
  rw [maskFF_le j (by omega), and_mask_shift, shiftLeft_shiftRight_self,
    and_cNot32_low a (2 ^ j - 1) p ha (by omega),
    or_mul_pow a (v % 2 ^ j) p ha]
  have h1 : v % 2 ^ j < 2 ^ j := Nat.mod_lt _ (Nat.pos_pow_of_pos _ (by omega))
  have hlt : 2 ^ p * (v % 2 ^ j) + a < 256 := by
    have h2 : 2 ^ p * (v % 2 ^ j) + a < 2 ^ p * 2 ^ j := by
      have h3 : 2 ^ p * (v % 2 ^ j) + a < 2 ^ p * (v % 2 ^ j + 1) := by
        rw [Nat.mul_add, Nat.mul_one]
        omega
      calc 2 ^ p * (v % 2 ^ j) + a < 2 ^ p * (v % 2 ^ j + 1) := h3
        _ ≤ 2 ^ p * 2 ^ j := Nat.mul_le_mul_left _ (by omega)
    have h4 : (2 : Nat) ^ p * 2 ^ j ≤ 2 ^ 8 := by
      rw [← pow_add]
      exact Nat.pow_le_pow_right (by omega) hpj
    have h5 : (2 : Nat) ^ 8 = 256 := by norm_num
    omega
  rw [and_255 _ hlt]
  omega

theorem writeExtract_le_next (n p j v : Nat) :
    (writeExtract littleEndian n j p v).2.2 = v / 2 ^ j := by
  unfold writeExtract
  rw [if_pos rfl]
  simp only []
  rw [Nat.shiftRight_eq_div_pow]

theorem writeChunk_be (n p j w u a : Nat) (hn : n ≤ 32) (hpj : p + j ≤ 8)
    (hj : 1 ≤ j) (hwj : w + j ≤ n) (hu : u < 2 ^ (n - w)) (ha : a < 2 ^ p) :
    ((a * 2 ^ (8 - p) &&&
        cNot32 (writeExtract bigEndian n j p (u * 2 ^ w)).2.1) |||
      (writeExtract bigEndian n j p (u * 2 ^ w)).1) &&& 0xFF =
      (a * 2 ^ j + u / 2 ^ (n - w - j)) * 2 ^ (8 - j - p) := by
  have hipos : (0 : Nat) < 2 ^ (n - w - j) := Nat.pos_pow_of_pos _ (by omega)
  have hhi : u * 2 ^ w / 2 ^ (n - j) = u / 2 ^ (n - w - j) := by
    have hx : (2 : Nat) ^ (n - j) = 2 ^ w * 2 ^ (n - w - j) := by
      rw [← pow_add]
      congr 1
      omega
    rw [hx, Nat.mul_comm u (2 ^ w), Nat.mul_div_mul_left _ _
      (Nat.pos_pow_of_pos _ (by omega))]
  have hhilt : u / 2 ^ (n - w - j) < 2 ^ j := by
    rw [Nat.div_lt_iff_lt_mul hipos]
    have hx : (2 : Nat) ^ j * 2 ^ (n - w - j) = 2 ^ (n - w) := by
      rw [← pow_add]
      congr 1
      omega
    rw [hx]
    exact hu
  unfold writeExtract
  rw [if_neg (show ¬ (bigEndian = littleEndian) by decide)]
  simp only [ifMask32]
  rw [mask32 n hn j (by omega) (by omega), and_mask_shift,
    shiftLeft_shiftRight_self, shiftLeft_shiftRight_self,
    Nat.shiftRight_eq_div_pow, hhi, Nat.mod_eq_of_lt hhilt]
  have hm : (2 ^ j - 1) <<< (8 - j - p) < 2 ^ (8 - p) := by
    rw [Nat.shiftLeft_eq]
    have hx : (2 : Nat) ^ (8 - p) = 2 ^ j * 2 ^ (8 - j - p) := by
      rw [← pow_add]
      congr 1
      omega
    rw [hx]
    exact (Nat.mul_lt_mul_right (Nat.pos_pow_of_pos _ (by omega))).mpr
      (Nat.sub_lt (Nat.pos_pow_of_pos _ (by omega)) (by omega))
  have hx32 : a * 2 ^ (8 - p) < 2 ^ 32 := by
    have h1 : a * 2 ^ (8 - p) < 2 ^ p * 2 ^ (8 - p) :=
      (Nat.mul_lt_mul_right (Nat.pos_pow_of_pos _ (by omega))).mpr ha
    have h2 : (2 : Nat) ^ p * 2 ^ (8 - p) = 2 ^ 8 := by
      rw [← pow_add]
      congr 1
      omega
    have h3 : (2 : Nat) ^ 8 ≤ 2 ^ 32 := Nat.pow_le_pow_right (by omega) (by omega)
    omega
  rw [and_cNot32_high a ((2 ^ j - 1) <<< (8 - j - p)) (8 - p) hm hx32]
  have hp8 : (2 : Nat) ^ (8 - p) = 2 ^ j * 2 ^ (8 - j - p) := by
    rw [← pow_add]
    congr 1
    omega
  have hsplit : a * 2 ^ (8 - p) = (a * 2 ^ j) <<< (8 - j - p) := by
    rw [Nat.shiftLeft_eq, hp8, Nat.mul_assoc]
  rw [hsplit, or_shiftLeft]
  have hor : (a * 2 ^ j) ||| (u / 2 ^ (n - w - j)) =
      a * 2 ^ j + u / 2 ^ (n - w - j) := by
    conv_lhs => rw [← Nat.shiftLeft_eq]
    exact shiftl_or_add a _ j hhilt
  rw [hor, Nat.shiftLeft_eq]
  have h1 : a * 2 ^ j + u / 2 ^ (n - w - j) < 2 ^ p * 2 ^ j :=
    calc a * 2 ^ j + u / 2 ^ (n - w - j)
        < a * 2 ^ j + 2 ^ j := Nat.add_lt_add_left hhilt _
      _ = (a + 1) * 2 ^ j := by ring
      _ ≤ 2 ^ p * 2 ^ j := Nat.mul_le_mul_right _ (by omega)
  have hlt : (a * 2 ^ j + u / 2 ^ (n - w - j)) * 2 ^ (8 - j - p) < 256 :=
    calc (a * 2 ^ j + u / 2 ^ (n - w - j)) * 2 ^ (8 - j - p)
        < (2 ^ p * 2 ^ j) * 2 ^ (8 - j - p) :=
          (Nat.mul_lt_mul_right (Nat.pos_pow_of_pos _ (by omega))).mpr h1
      _ = 2 ^ 8 := by
          rw [← pow_add, ← pow_add]
          congr 1
          omega
      _ = 256 := by norm_num
  rw [and_255 _ hlt]

theorem writeExtract_be_next (n p j w u : Nat) (hwj : w + j ≤ n) :
    (writeExtract bigEndian n j p (u * 2 ^ w)).2.2 =
      (u % 2 ^ (n - w - j)) * 2 ^ (w + j) := by
  unfold writeExtract
  rw [if_neg (show ¬ (bigEndian = littleEndian) by decide)]
  simp only [ifMask32]
  rw [Nat.shiftLeft_eq, Nat.and_pow_two_sub_one_eq_mod, Nat.mul_assoc,
    ← pow_add]
  have hx : (2 : Nat) ^ n = 2 ^ (n - w - j) * 2 ^ (w + j) := by
    rw [← pow_add]
    congr 1
    omega
  rw [hx, Nat.mul_mod_mul_right]

theorem writeLoop_le (lenOut n : Nat) (prior : List Nat) :
    ∀ fuel (L : List Bool) (w v : Nat), n - w ≤ fuel → w ≤ n →
      v < 2 ^ (n - w) →
      prior.length + (L.length + (n - w) - 1) / 8 ≤ lenOut →
      bitstream.writeLoop littleEndian lenOut n fuel w v
          (writeState littleEndian L) (prior ++ wEmitted littleEndian L) =
        (n, writeState littleEndian (L ++ lsbBits (n - w) v),
          prior ++ wEmitted littleEndian (L ++ lsbBits (n - w) v)) := by
  intro fuel
  induction fuel with
  | zero =>
      intro L w v hf hw hv hroom
      have hwn : w = n := by omega
      subst hwn
      show (w, writeState littleEndian L, prior ++ wEmitted littleEndian L) = _
      rw [Nat.sub_self]
      show _ = (w, writeState littleEndian (L ++ []), prior ++ wEmitted littleEndian (L ++ []))
      rw [List.append_nil]
  | succ fuel ih =>
      intro L w v hf hw hv hroom
      by_cases hwn : w = n
      · subst hwn
        rw [bitstream.writeLoop, if_pos (le_refl w), Nat.sub_self]
        show _ = (w, writeState littleEndian (L ++ []), prior ++ wEmitted littleEndian (L ++ []))
        rw [List.append_nil]
      · have hnw1 : 1 ≤ n - w := by omega
        have hflush := writeFlush_at lenOut littleEndian L prior
          (by intro hb h0; omega)
        have hnz : min (n - w) (8 - (midState littleEndian L).curBitPos) ≠ 0 := by
          show min (n - w) (8 - L.length % 8) ≠ 0
          omega
        rw [writeLoop_step littleEndian lenOut n fuel w v
          (writeState littleEndian L) (midState littleEndian L)
          (prior ++ wEmitted littleEndian L) (prior ++ midEmitted littleEndian L)
          (by omega) hflush hnz]
        simp only [show (midState littleEndian L).curBitPos = L.length % 8 from rfl,
          show (midState littleEndian L).origBufByte = WASNT_BUFFERED from rfl,
          show (midState littleEndian L).bufByte =
            byteVal littleEndian (L.drop (8 * (L.length / 8))) from rfl]
        set j := min (n - w) (8 - L.length % 8) with hjdef
        have hj1 : 1 ≤ j := by omega
        have hjnw : j ≤ n - w := by omega
        have hpj : L.length % 8 + j ≤ 8 := by omega
        have hplen : (L.drop (8 * (L.length / 8))).length = L.length % 8 := by
          rw [List.length_drop]
          omega
        have ha : byteVal littleEndian (L.drop (8 * (L.length / 8))) <
            2 ^ (L.length % 8) := by
          show lsbVal (L.drop (8 * (L.length / 8))) < 2 ^ (L.length % 8)
          rw [← hplen]
          exact lsbVal_lt _
        rw [writeChunk_le n (L.length % 8) j v _ hpj hj1 ha,
          writeExtract_le_next n (L.length % 8) j v]
        have hstate : (⟨L.length % 8 + j,
            byteVal littleEndian (L.drop (8 * (L.length / 8))) +
              2 ^ (L.length % 8) * (v % 2 ^ j), WASNT_BUFFERED⟩ : bitstream) =
            writeState littleEndian (L ++ lsbBits j v) := by
          unfold writeState
          rw [if_neg (by rw [List.length_append, lsbBits_length]; omega)]
          rw [List.length_append, lsbBits_length,
            show (L.length + j - 1) % 8 + 1 = L.length % 8 + j by omega,
            show (L.length + j - 1) / 8 = L.length / 8 by omega,
            List.drop_append_of_le_length (by omega)]
          show _ = (⟨L.length % 8 + j,
            lsbVal (L.drop (8 * (L.length / 8)) ++ lsbBits j v),
            WASNT_BUFFERED⟩ : bitstream)
          rw [lsbVal_append, hplen, lsbVal_lsbBits]
          rfl
        have hout : midEmitted littleEndian L =
            wEmitted littleEndian (L ++ lsbBits j v) := by
          unfold midEmitted wEmitted
          rw [List.length_append, lsbBits_length,
            show (L.length + j - 1) / 8 = L.length / 8 by omega,
            List.take_append_of_le_length (by omega)]
        rw [hstate, hout]
        have hvlt : v / 2 ^ j < 2 ^ (n - (w + j)) := by
          rw [Nat.div_lt_iff_lt_mul (Nat.pos_pow_of_pos _ (by omega)),
            ← pow_add, show n - (w + j) + j = n - w by omega]
          exact hv
        rw [ih (L ++ lsbBits j v) (w + j) (v / 2 ^ j) (by omega) (by omega) hvlt
          (by rw [List.length_append, lsbBits_length]; omega)]
        rw [List.append_assoc]
        have hbits : lsbBits j v ++ lsbBits (n - (w + j)) (v / 2 ^ j) =
            lsbBits (n - w) v := by
          have h2 := lsbBits_append j (n - (w + j)) v
          rw [show j + (n - (w + j)) = n - w by omega] at h2
          rw [h2]
        rw [hbits]

theorem writeLoop_be (lenOut n : Nat) (hn : n ≤ 32) (prior : List Nat) :
    ∀ fuel (L : List Bool) (w u : Nat), n - w ≤ fuel → w ≤ n →
      u < 2 ^ (n - w) →
      prior.length + (L.length + (n - w) - 1) / 8 ≤ lenOut →
      bitstream.writeLoop bigEndian lenOut n fuel w (u * 2 ^ w)
          (writeState bigEndian L) (prior ++ wEmitted bigEndian L) =
        (n, writeState bigEndian (L ++ msbBits (n - w) u),
          prior ++ wEmitted bigEndian (L ++ msbBits (n - w) u)) := by
  intro fuel
  induction fuel with
  | zero =>
      intro L w u hf hw hu hroom
      have hwn : w = n := by omega
      subst hwn
      show (w, writeState bigEndian L, prior ++ wEmitted bigEndian L) = _
      rw [Nat.sub_self]
      show _ = (w, writeState bigEndian (L ++ []), prior ++ wEmitted bigEndian (L ++ []))
      rw [List.append_nil]
  | succ fuel ih =>
      intro L w u hf hw hu hroom
      by_cases hwn : w = n
      · subst hwn
        rw [bitstream.writeLoop, if_pos (le_refl w), Nat.sub_self]
        show _ = (w, writeState bigEndian (L ++ []), prior ++ wEmitted bigEndian (L ++ []))
        rw [List.append_nil]
      · have hnw1 : 1 ≤ n - w := by omega
        have hflush := writeFlush_at lenOut bigEndian L prior
          (by intro hb h0; omega)
        have hnz : min (n - w) (8 - (midState bigEndian L).curBitPos) ≠ 0 := by
          show min (n - w) (8 - L.length % 8) ≠ 0
          omega
        rw [writeLoop_step bigEndian lenOut n fuel w (u * 2 ^ w)
          (writeState bigEndian L) (midState bigEndian L)
          (prior ++ wEmitted bigEndian L) (prior ++ midEmitted bigEndian L)
          (by omega) hflush hnz]
        simp only [show (midState bigEndian L).curBitPos = L.length % 8 from rfl,
          show (midState bigEndian L).origBufByte = WASNT_BUFFERED from rfl,
          show (midState bigEndian L).bufByte =
            byteVal bigEndian (L.drop (8 * (L.length / 8))) from rfl]
        set j := min (n - w) (8 - L.length % 8) with hjdef
        have hj1 : 1 ≤ j := by omega
        have hjnw : j ≤ n - w := by omega
        have hpj : L.length % 8 + j ≤ 8 := by omega
        have hplen : (L.drop (8 * (L.length / 8))).length = L.length % 8 := by
          rw [List.length_drop]
          omega
        have ha : msbVal (L.drop (8 * (L.length / 8))) < 2 ^ (L.length % 8) := by
          rw [← hplen]
          exact msbVal_lt _
        have hbv : byteVal bigEndian (L.drop (8 * (L.length / 8))) =
            msbVal (L.drop (8 * (L.length / 8))) * 2 ^ (8 - L.length % 8) := by
          show msbVal _ <<< (8 - (L.drop (8 * (L.length / 8))).length) = _
          rw [hplen, Nat.shiftLeft_eq]
        rw [hbv, writeChunk_be n (L.length % 8) j w u
          (msbVal (L.drop (8 * (L.length / 8)))) hn hpj hj1 (by omega) hu ha,
          writeExtract_be_next n (L.length % 8) j w u (by omega)]
        have hstate : (⟨L.length % 8 + j,
            (msbVal (L.drop (8 * (L.length / 8))) * 2 ^ j +
              u / 2 ^ (n - w - j)) * 2 ^ (8 - j - L.length % 8),
            WASNT_BUFFERED⟩ : bitstream) =
            writeState bigEndian (L ++ msbBits j (u / 2 ^ (n - w - j))) := by
          unfold writeState
          rw [if_neg (by rw [List.length_append, msbBits_length]; omega)]
          rw [List.length_append, msbBits_length,
            show (L.length + j - 1) % 8 + 1 = L.length % 8 + j by omega,
            show (L.length + j - 1) / 8 = L.length / 8 by omega,
            List.drop_append_of_le_length (by omega)]
          show _ = (⟨L.length % 8 + j,
            msbVal (L.drop (8 * (L.length / 8)) ++ msbBits j (u / 2 ^ (n - w - j))) <<<
              (8 - (L.drop (8 * (L.length / 8)) ++ msbBits j (u / 2 ^ (n - w - j))).length),
            WASNT_BUFFERED⟩ : bitstream)
          rw [msbVal_append, msbBits_length, List.length_append, msbBits_length,
            hplen, msbVal_msbBits, Nat.shiftLeft_eq]
          have hhilt : u / 2 ^ (n - w - j) < 2 ^ j := by
            rw [Nat.div_lt_iff_lt_mul (Nat.pos_pow_of_pos _ (by omega)),
              ← pow_add, show j + (n - w - j) = n - w by omega]
            exact hu
          rw [Nat.mod_eq_of_lt hhilt,
            show 8 - (L.length % 8 + j) = 8 - j - L.length % 8 by omega]
        have hout : midEmitted bigEndian L =
            wEmitted bigEndian (L ++ msbBits j (u / 2 ^ (n - w - j))) := by
          unfold midEmitted wEmitted
          rw [List.length_append, msbBits_length,
            show (L.length + j - 1) / 8 = L.length / 8 by omega,
            List.take_append_of_le_length (by omega)]
        rw [hstate, hout]
        have humod : u % 2 ^ (n - w - j) < 2 ^ (n - (w + j)) := by
          rw [show n - (w + j) = n - w - j by omega]
          exact Nat.mod_lt _ (Nat.pos_pow_of_pos _ (by omega))
        have hih := ih (L ++ msbBits j (u / 2 ^ (n - w - j))) (w + j)
          (u % 2 ^ (n - w - j)) (by omega) (by omega) humod
          (by rw [List.length_append, msbBits_length]; omega)
        rw [show (2 : Nat) ^ (w + j) = 2 ^ (w + j) from rfl] at hih
        rw [hih]
        rw [List.append_assoc]
        have hbits : msbBits j (u / 2 ^ (n - w - j)) ++
            msbBits (n - (w + j)) (u % 2 ^ (n - w - j)) = msbBits (n - w) u := by
          rw [show n - (w + j) = n - w - j by omega, msbBits_mod]
          have h2 := msbBits_append (n - w - j) j u
          rw [show n - w - j + j = n - w by omega] at h2
          rw [h2]
        rw [hbits]

theorem write_spec (e : endian) (lenOut n v : Nat) (L : List Bool)
    (prior : List Nat) (hn : n ≤ 32) (hv : v < 2 ^ n)
    (hroom : prior.length + (L.length + n - 1) / 8 ≤ lenOut) :
    bitstream.write e lenOut n v (writeState e L) (prior ++ wEmitted e L) =
      (n, writeState e (L ++ ebits e n v),
        prior ++ wEmitted e (L ++ ebits e n v)) := by
  unfold bitstream.write
  cases e
  · have h := writeLoop_le lenOut n prior n L 0 v (by omega) (by omega)
      (by rw [Nat.sub_zero]; exact hv) (by omega)
    rw [Nat.sub_zero] at h
    exact h
  · have h := writeLoop_be lenOut n hn prior n L 0 v (by omega) (by omega)
      (by rw [Nat.sub_zero]; exact hv) (by omega)
    rw [Nat.sub_zero] at h
    rw [pow_zero, Nat.mul_one] at h
    exact h

theorem flushByte_spec (e : endian) (lenOut : Nat) (L : List Bool)
    (prior : List Nat)
    (hroom : prior.length + (L.length + 7) / 8 ≤ lenOut) :
    bitstream.flushByte lenOut (writeState e L) (prior ++ wEmitted e L) =
      (⟨8, 0, INITIAL_VALUE⟩, prior ++ bytesOfBits e L) := by
  unfold bitstream.flushByte
  by_cases h0 : L.length = 0
  · have hnil : L = [] := List.eq_nil_of_length_eq_zero h0
    subst hnil
    rw [writeState_nil, if_neg (by simp [bitstream.fresh])]
    rfl
  · have hob : (writeState e L).origBufByte = WASNT_BUFFERED := by
      unfold writeState
      rw [if_neg h0]
    have hbuf : (writeState e L).bufByte =
        byteVal e (L.drop (8 * ((L.length - 1) / 8))) := by
      unfold writeState
      rw [if_neg h0]
    have hcond : (writeState e L).origBufByte ≠ INITIAL_VALUE ∧
        ((writeState e L).bufByte : Int) ≠ (writeState e L).origBufByte := by
      constructor
      · rw [hob]
        decide
      · rw [hob]
        unfold WASNT_BUFFERED
        omega
    rw [if_pos hcond]
    unfold bitstreamFilterPutChar
    rw [if_pos (by
      rw [List.length_append, wEmitted_length]
      omega)]
    have hout : prior ++ wEmitted e L ++ [(writeState e L).bufByte] =
        prior ++ bytesOfBits e L := by
      rw [List.append_assoc]
      congr 1
      rw [bytesOfBits_last e L (by intro hc; exact h0 (by rw [hc]; rfl)), hbuf]
    rw [hout]

theorem byteVal_lt (e : endian) (c : List Bool) (h : c.length ≤ 8) :
    byteVal e c < 256 := by
  cases e
  · show lsbVal c < 256
    calc lsbVal c < 2 ^ c.length := lsbVal_lt c
      _ ≤ 2 ^ 8 := Nat.pow_le_pow_right (by omega) h
      _ = 256 := by norm_num
  · show msbVal c <<< (8 - c.length) < 256
    rw [Nat.shiftLeft_eq]
    calc msbVal c * 2 ^ (8 - c.length)
        < 2 ^ c.length * 2 ^ (8 - c.length) :=
          (Nat.mul_lt_mul_right (Nat.pos_pow_of_pos _ (by omega))).mpr
            (msbVal_lt c)
      _ = 2 ^ 8 := by
          rw [← pow_add]
          congr 1
          omega
      _ = 256 := by norm_num

theorem bytesOfBits_lt_le (e : endian) :
    ∀ k (L : List Bool), L.length ≤ 8 * k →
      ∀ b ∈ bytesOfBits e L, b < 256 := by
  intro k
  induction k with
  | zero =>
      intro L h b hb
      have : L = [] := List.eq_nil_of_length_eq_zero (by omega)
      subst this
      simp [bytesOfBits] at hb
  | succ k ih =>
      intro L h b hb
      by_cases h8 : L.length ≤ 8
      · by_cases h0 : L = []
        · subst h0
          simp [bytesOfBits] at hb
        · rw [bytesOfBits_short e L h0 h8] at hb
          simp at hb
          subst hb
          exact byteVal_lt e L h8
      · have hsplit : L = L.take 8 ++ L.drop 8 := (List.take_append_drop 8 L).symm
        have hlen : (L.take 8).length = 8 := by
          rw [List.length_take]
          omega
        rw [hsplit, bytesOfBits_append8 e _ _ hlen] at hb
        rcases List.mem_cons.mp hb with hb1 | hb2
        · subst hb1
          exact byteVal_lt e _ (by omega)
        · exact ih (L.drop 8) (by rw [List.length_drop]; omega) b hb2

theorem bytesOfBits_lt (e : endian) (L : List Bool) :
    ∀ b ∈ bytesOfBits e L, b < 256 :=
  bytesOfBits_lt_le e L.length L (by omega)

theorem bitsOfBytes_bytesOfBits_le (e : endian) :
    ∀ k (L : List Bool), L.length ≤ 8 * k →
      bitsOfBytes e (bytesOfBits e L) =
        L ++ List.replicate ((8 - L.length % 8) % 8) false := by
  intro k
  induction k with
  | zero =>
      intro L h
      have : L = [] := List.eq_nil_of_length_eq_zero (by omega)
      subst this
      rfl
  | succ k ih =>
      intro L h
      by_cases h8 : L.length ≤ 8
      · by_cases h0 : L = []
        · subst h0
          rfl
        · rw [bytesOfBits_short e L h0 h8]
          show byteBits e (byteVal e L) ++ bitsOfBytes e [] = _
          rw [show bitsOfBytes e [] = [] from rfl, byteBits_byteVal e L h8]
          have hL0 : L.length ≠ 0 := by
            intro hc
            exact h0 (List.eq_nil_of_length_eq_zero hc)
          rw [show (8 - L.length % 8) % 8 = 8 - L.length by omega]
          simp
      · have hsplit : L = L.take 8 ++ L.drop 8 := (List.take_append_drop 8 L).symm
        have hlen : (L.take 8).length = 8 := by
          rw [List.length_take]
          omega
        conv_lhs => rw [hsplit, bytesOfBits_append8 e _ _ hlen]
        show byteBits e (byteVal e (L.take 8)) ++ bitsOfBytes e (bytesOfBits e (L.drop 8)) = _
        rw [byteBits_byteVal e _ (by omega),
          ih (L.drop 8) (by rw [List.length_drop]; omega), hlen]
        rw [show (8 : Nat) - 8 = 0 from rfl]
        rw [List.length_drop,
          show (L.length - 8) % 8 = L.length % 8 by omega]
        rw [List.replicate_zero, List.append_nil, ← List.append_assoc, ← hsplit]

theorem bitsOfBytes_bytesOfBits (e : endian) (L : List Bool) :
    bitsOfBytes e (bytesOfBits e L) =
      L ++ List.replicate ((8 - L.length % 8) % 8) false :=
  bitsOfBytes_bytesOfBits_le e L.length L (by omega)



theorem ebits_length (e : endian) (n v : Nat) : (ebits e n v).length = n := by
  cases e
  · exact lsbBits_length n v
  · exact msbBits_length n v

/-- Write `n` bits of `v` on a fresh `bitstream` into an empty sink of
budget `lenOut`, then `flushByte`: the bytes the sink received. -/
def writeThenFlush (e : endian) (lenOut n v : Nat) : List Nat :=
  (bitstream.flushByte lenOut
    (bitstream.write e lenOut n v bitstream.fresh []).2.1
    (bitstream.write e lenOut n v bitstream.fresh []).2.2).2

theorem writeThenFlush_spec (e : endian) (lenOut n v : Nat) (hn : n ≤ 32)
    (hv : v < 2 ^ n) (hroom : (n + 7) / 8 ≤ lenOut) :
    writeThenFlush e lenOut n v = bytesOfBits e (ebits e n v) := by
  unfold writeThenFlush
  have hw := write_spec e lenOut n v [] [] hn hv
    (by simp only [List.length_nil]; omega)
  rw [writeState_nil, wEmitted_nil] at hw
  simp only [List.append_nil, List.nil_append] at hw
  rw [hw]
  show (bitstream.flushByte lenOut (writeState e (ebits e n v))
    (wEmitted e (ebits e n v))).2 = _
  have hf := flushByte_spec e lenOut (ebits e n v) []
    (by rw [List.length_nil, ebits_length]; omega)
  simp only [List.nil_append] at hf
  rw [hf]


theorem and_cNot32_hi_nibble :
    ∀ b, b < 256 → b &&& cNot32 ((2 ^ 4 - 1) <<< 4) = b % 2 ^ 4 := by decide

theorem and_cNot32_lo_nibble :
    ∀ b, b < 256 → b &&& cNot32 (2 ^ 4 - 1) = (b / 2 ^ 4) <<< 4 := by decide

theorem flushS_at (e : endian) (x b : Nat) :
    (bitstreamS.flush e ⟨8, x, (b : Int), 1, [b]⟩).media = [x] := by
  unfold bitstreamS.flush
  rw [if_neg (show ¬ ((b : Int) = INITIAL_VALUE) by
    unfold INITIAL_VALUE
    omega)]
  show ((⟨8, x, (b : Int), 1, [b]⟩ : bitstreamS).writeBufByte).media = [x]
  unfold bitstreamS.writeBufByte
  by_cases hxb : x = b
  · rw [if_neg (by simp [hxb])]
    simp [hxb]
  · rw [if_pos ⟨by
      show (b : Int) ≠ INITIAL_VALUE
      unfold INITIAL_VALUE
      omega,
      by
      show ((x : Nat) : Int) ≠ (b : Int)
      omega⟩]
    rw [if_pos (show ((b : Int) ≥ 0) by omega)]
    rfl

theorem writeChunk_le_nibble (b v : Nat) (hb : b < 256) :
    ((b &&& cNot32 (writeExtract littleEndian 4 4 4 v).2.1) |||
      (writeExtract littleEndian 4 4 4 v).1) &&& 0xFF =
      b % 2 ^ 4 + 2 ^ 4 * (v % 2 ^ 4) := by
  have hmaskle : ((cNot32 (0xFF <<< 4) &&& 0xFF : Nat)) = 2 ^ 4 - 1 := by decide
  have h21 : (writeExtract littleEndian 4 4 4 v).2.1 = (2 ^ 4 - 1) <<< 4 := by
    show (cNot32 (0xFF <<< 4) &&& 0xFF) <<< 4 = (2 ^ 4 - 1) <<< 4
    rw [hmaskle]
  have h1 : (writeExtract littleEndian 4 4 4 v).1 =
      (v <<< 4) &&& ((2 ^ 4 - 1) <<< 4) := by
    show (v <<< 4) &&& ((cNot32 (0xFF <<< 4) &&& 0xFF) <<< 4) = _
    rw [hmaskle]
  rw [h21, h1, and_cNot32_hi_nibble b hb, and_mask_shift,
    shiftLeft_shiftRight_self,
    or_mul_pow (b % 2 ^ 4) (v % 2 ^ 4) 4 (Nat.mod_lt _ (by omega)),
    and_255 _ (by omega)]
  omega

theorem writeChunk_be_nibble (b v : Nat) (hb : b < 256) :
    ((b &&& cNot32 (writeExtract bigEndian 4 4 4 v).2.1) |||
      (writeExtract bigEndian 4 4 4 v).1) &&& 0xFF =
      (b / 2 ^ 4) * 2 ^ 4 + v % 2 ^ 4 := by
  have hmaskbe : ((cNot32 (((1 <<< 4) - 1) >>> 4) &&& ((1 <<< 4) - 1) : Nat)) =
      2 ^ 4 - 1 := by decide
  have h21 : (writeExtract bigEndian 4 4 4 v).2.1 = 2 ^ 4 - 1 := by
    show (cNot32 (((1 <<< 4) - 1) >>> 4) &&& ((1 <<< 4) - 1) : Nat) = 2 ^ 4 - 1
    exact hmaskbe
  have h1 : (writeExtract bigEndian 4 4 4 v).1 = v &&& (2 ^ 4 - 1) := by
    show v &&& (cNot32 (((1 <<< 4) - 1) >>> 4) &&& ((1 <<< 4) - 1)) = _
    rw [hmaskbe]
  rw [h21, h1, and_cNot32_lo_nibble b hb, Nat.and_pow_two_sub_one_eq_mod,
    shiftl_or_add (b / 2 ^ 4) (v % 2 ^ 4) 4 (Nat.mod_lt _ (by omega)),
    and_255 _ (by omega)]


theorem writeFlush_shift (lenOut lenOut' s : Nat) (st : bitstream)
    (out out' : List Nat) (h1 : lenOut = out.length + s)
    (h2 : lenOut' = out'.length + s) :
    (bitstream.writeFlush lenOut st out = none ∧
      bitstream.writeFlush lenOut' st out' = none) ∨
    ∃ st1 Δ s2, s = Δ.length + s2 ∧
      bitstream.writeFlush lenOut st out = some (st1, out ++ Δ) ∧
      bitstream.writeFlush lenOut' st out' = some (st1, out' ++ Δ) := by
  unfold bitstream.writeFlush
  by_cases hcur : st.curBitPos = 8
  · rw [if_pos hcur, if_pos hcur]
    by_cases hcond : st.origBufByte ≠ INITIAL_VALUE ∧
        (st.bufByte : Int) ≠ st.origBufByte
    · rw [if_pos hcond, if_pos hcond]
      unfold bitstreamFilterPutChar
      by_cases hs : s = 0
      · rw [if_neg (by omega), if_neg (by omega)]
        exact Or.inl ⟨rfl, rfl⟩
      · rw [if_pos (by omega), if_pos (by omega)]
        exact Or.inr ⟨⟨0, 0, WASNT_BUFFERED⟩, [st.bufByte], s - 1,
          by simp; omega, rfl, rfl⟩
    · rw [if_neg hcond, if_neg hcond]
      exact Or.inr ⟨⟨0, 0, WASNT_BUFFERED⟩, [], s, by simp,
        by rw [List.append_nil], by rw [List.append_nil]⟩
  · rw [if_neg hcur, if_neg hcur]
    exact Or.inr ⟨st, [], s, by simp,
      by rw [List.append_nil], by rw [List.append_nil]⟩

theorem writeLoop_shift (e : endian) (bits : Nat) :
    ∀ fuel bw inv (st : bitstream) (out out' : List Nat) (lenOut lenOut' s : Nat),
      lenOut = out.length + s → lenOut' = out'.length + s →
      ∃ Δ, bitstream.writeLoop e lenOut bits fuel bw inv st out =
          ((bitstream.writeLoop e lenOut' bits fuel bw inv st out').1,
            (bitstream.writeLoop e lenOut' bits fuel bw inv st out').2.1,
            out ++ Δ) ∧
        (bitstream.writeLoop e lenOut' bits fuel bw inv st out').2.2 =
          out' ++ Δ := by
  intro fuel
  induction fuel with
  | zero =>
      intro bw inv st out out' lenOut lenOut' s h1 h2
      exact ⟨[], by simp [bitstream.writeLoop], by simp [bitstream.writeLoop]⟩
  | succ fuel ih =>
      intro bw inv st out out' lenOut lenOut' s h1 h2
      by_cases hbw : bits ≤ bw
      · refine ⟨[], ?_, ?_⟩
        · rw [bitstream.writeLoop, if_pos hbw, bitstream.writeLoop, if_pos hbw,
            List.append_nil]
        · rw [bitstream.writeLoop, if_pos hbw, List.append_nil]
      · rcases writeFlush_shift lenOut lenOut' s st out out' h1 h2 with
          ⟨hn1, hn2⟩ | ⟨st1, Δ1, s2, hs2, hs1, hs1'⟩
        · refine ⟨[], ?_, ?_⟩
          · rw [bitstream.writeLoop, if_neg hbw, hn1,
              bitstream.writeLoop, if_neg hbw, hn2, List.append_nil]
          · rw [bitstream.writeLoop, if_neg hbw, hn2, List.append_nil]
        · by_cases hnz : min (bits - bw) (8 - st1.curBitPos) = 0
          · refine ⟨Δ1, ?_, ?_⟩
            · rw [bitstream.writeLoop, if_neg hbw, hs1]
              simp only [if_pos hnz]
              rw [bitstream.writeLoop, if_neg hbw, hs1']
              simp only [if_pos hnz]
            · rw [bitstream.writeLoop, if_neg hbw, hs1']
              simp only [if_pos hnz]
          · obtain ⟨Δ2, hΔ2, hΔ2'⟩ := ih
              (bw + min (bits - bw) (8 - st1.curBitPos))
              (writeExtract e bits (min (bits - bw) (8 - st1.curBitPos))
                st1.curBitPos inv).2.2
              ⟨st1.curBitPos + min (bits - bw) (8 - st1.curBitPos),
                ((st1.bufByte &&&
                    cNot32 (writeExtract e bits
                      (min (bits - bw) (8 - st1.curBitPos))
                      st1.curBitPos inv).2.1) |||
                  (writeExtract e bits (min (bits - bw) (8 - st1.curBitPos))
                    st1.curBitPos inv).1) &&& 0xFF,
                st1.origBufByte⟩
              (out ++ Δ1) (out' ++ Δ1) lenOut lenOut' s2
              (by rw [List.length_append]; omega)
              (by rw [List.length_append]; omega)
            refine ⟨Δ1 ++ Δ2, ?_, ?_⟩
            · rw [writeLoop_step e lenOut bits fuel bw inv st st1 out
                  (out ++ Δ1) (by omega) hs1 hnz,
                writeLoop_step e lenOut' bits fuel bw inv st st1 out'
                  (out' ++ Δ1) (by omega) hs1' hnz,
                hΔ2, ← List.append_assoc]
            · rw [writeLoop_step e lenOut' bits fuel bw inv st st1 out'
                  (out' ++ Δ1) (by omega) hs1' hnz,
                hΔ2', ← List.append_assoc]

theorem write_spec_any (e : endian) (lenOut n v : Nat) (L : List Bool)
    (out : List Nat) (hn : n ≤ 32) (hv : v < 2 ^ n)
    (hroom : out.length + (L.length + n - 1) / 8 ≤ lenOut + (L.length - 1) / 8) :
    ∃ Δ, wEmitted e L ++ Δ = wEmitted e (L ++ ebits e n v) ∧
      bitstream.write e lenOut n v (writeState e L) out =
        (n, writeState e (L ++ ebits e n v), out ++ Δ) := by
  have hle : out.length ≤ lenOut := by omega
  set s := lenOut - out.length with hsdef
  have hcanon := write_spec e ((L.length - 1) / 8 + s) n v L [] hn hv
    (by simp only [List.length_nil, Nat.zero_add]; omega)
  simp only [List.nil_append] at hcanon
  obtain ⟨Δ, hΔ1, hΔ2⟩ := writeLoop_shift e n n 0 v (writeState e L)
    (wEmitted e L) out ((L.length - 1) / 8 + s) lenOut s
    (by rw [wEmitted_length]) (by omega)
  refine ⟨Δ, ?_, ?_⟩
  · have h3 : bitstream.write e ((L.length - 1) / 8 + s) n v (writeState e L)
        (wEmitted e L) = (n, writeState e (L ++ ebits e n v),
          wEmitted e (L ++ ebits e n v)) := hcanon
    unfold bitstream.write at h3
    rw [h3] at hΔ1
    have h4 := congrArg (fun p => p.2.2) hΔ1
    simp only [] at h4
    exact h4.symm
  · have h3 : bitstream.write e ((L.length - 1) / 8 + s) n v (writeState e L)
        (wEmitted e L) = (n, writeState e (L ++ ebits e n v),
          wEmitted e (L ++ ebits e n v)) := hcanon
    unfold bitstream.write at h3
    unfold bitstream.write
    rw [h3] at hΔ1
    have h5 := congrArg (fun p => p.1) hΔ1
    have h6 := congrArg (fun p => p.2.1) hΔ1
    simp only [] at h5 h6
    have hETA : bitstream.writeLoop e lenOut n n 0 v (writeState e L) out =
        ((bitstream.writeLoop e lenOut n n 0 v (writeState e L) out).1,
          (bitstream.writeLoop e lenOut n n 0 v (writeState e L) out).2.1,
          (bitstream.writeLoop e lenOut n n 0 v (writeState e L) out).2.2) := rfl
    rw [hETA, hΔ2, ← h5, ← h6]

theorem flushByte_any (e : endian) (lenOut : Nat) (L : List Bool)
    (out : List Nat) (hroom : out.length < lenOut) :
    ∃ Δ, wEmitted e L ++ Δ = bytesOfBits e L ∧
      bitstream.flushByte lenOut (writeState e L) out =
        (⟨8, 0, INITIAL_VALUE⟩, out ++ Δ) := by
  unfold bitstream.flushByte
  by_cases h0 : L.length = 0
  · have hnil : L = [] := List.eq_nil_of_length_eq_zero h0
    subst hnil
    refine ⟨[], rfl, ?_⟩
    rw [writeState_nil, if_neg (by simp [bitstream.fresh]), List.append_nil]
  · have hob : (writeState e L).origBufByte = WASNT_BUFFERED := by
      unfold writeState
      rw [if_neg h0]
    have hbuf : (writeState e L).bufByte =
        byteVal e (L.drop (8 * ((L.length - 1) / 8))) := by
      unfold writeState
      rw [if_neg h0]
    have hcond : (writeState e L).origBufByte ≠ INITIAL_VALUE ∧
        ((writeState e L).bufByte : Int) ≠ (writeState e L).origBufByte := by
      constructor
      · rw [hob]
        decide
      · rw [hob]
        unfold WASNT_BUFFERED
        omega
    refine ⟨[byteVal e (L.drop (8 * ((L.length - 1) / 8)))], ?_, ?_⟩
    · exact (bytesOfBits_last e L
        (by intro hc; exact h0 (by rw [hc]; rfl))).symm
    · rw [if_pos hcond]
      unfold bitstreamFilterPutChar
      rw [if_pos hroom, hbuf]



/-- The bit sequence the placeholder LZSS encoder produces: each input
byte becomes a zero flag bit followed by its eight data bits. -/
def lzssBits : List Nat → List Bool
  | [] => []
  | b :: t => false :: (msbBits 8 b ++ lzssBits t)

theorem lzssBits_length (s : List Nat) : (lzssBits s).length = 9 * s.length := by
  induction s with
  | nil => rfl
  | cons b t ih =>
      simp [lzssBits, msbBits_length, ih]
      ring

theorem lzssBits_append (a b : List Nat) :
    lzssBits (a ++ b) = lzssBits a ++ lzssBits b := by
  induction a with
  | nil => rfl
  | cons x t ih =>
      simp [lzssBits, ih]

theorem ebits_be_9 (b : Nat) (hb : b < 256) :
    ebits bigEndian 9 b = false :: msbBits 8 b := by
  show msbBits 9 b = _
  unfold msbBits
  have h9 : lsbBits 9 b = lsbBits 8 b ++ lsbBits 1 (b / 2 ^ 8) := by
    have := lsbBits_append 8 1 b
    exact this
  have hz : b / 2 ^ 8 = 0 := by
    have : (2 : Nat) ^ 8 = 256 := by norm_num
    omega
  rw [h9, hz]
  rw [show lsbBits 1 0 = [false] from rfl, List.reverse_append]
  rfl

theorem lzssCompLoop_be (t : List Nat) (ht : ∀ b ∈ t, b < 256)
    (lenOut stop : Nat)
    (hstop : stop = if t.length < 2 then t.length else t.length - 1) :
    ∀ fuel i (L : List Bool) (out : List Nat),
      i ≤ stop → stop - i ≤ fuel →
      out.length + 3 + (L.length + 9 * (stop - i) + 7) / 8 ≤
        lenOut + (L.length - 1) / 8 →
      ∃ Δ, wEmitted bigEndian L ++ Δ =
          wEmitted bigEndian (L ++ lzssBits ((t.drop i).take (stop - i))) ∧
        lzssCompLoop bigEndian t t.length lenOut fuel
            (writeState bigEndian L) i out =
          (writeState bigEndian (L ++ lzssBits ((t.drop i).take (stop - i))),
            stop, out ++ Δ) := by
  have hstop2 : (t.length < 2 ∧ stop = t.length) ∨
      (2 ≤ t.length ∧ stop = t.length - 1) := by
    by_cases h2 : t.length < 2
    · rw [if_pos h2] at hstop
      exact Or.inl ⟨h2, hstop⟩
    · rw [if_neg h2] at hstop
      exact Or.inr ⟨by omega, hstop⟩
  intro fuel
  induction fuel with
  | zero =>
      intro i L out hi hf hroom
      have hieq : i = stop := by omega
      subst hieq
      rw [Nat.sub_self]
      refine ⟨[], ?_, ?_⟩
      · rw [List.append_nil, show List.take 0 (t.drop i) = [] from rfl,
          show lzssBits [] = [] from rfl, List.append_nil]
      · show (writeState bigEndian L, i, out) = _
        rw [show List.take 0 (t.drop i) = [] from rfl,
          show lzssBits [] = [] from rfl, List.append_nil, List.append_nil]
  | succ fuel ih =>
      intro i L out hi hf hroom
      by_cases hieq : i = stop
      · subst hieq
        rw [Nat.sub_self]
        refine ⟨[], ?_, ?_⟩
        · rw [List.append_nil, show List.take 0 (t.drop i) = [] from rfl,
            show lzssBits [] = [] from rfl, List.append_nil]
        · rw [lzssCompLoop, if_neg (show ¬ (out.length + LZSS_LEFTOVER_BYTES <
              lenOut ∧ (i + 1 < t.length ∨ (i < t.length ∧ t.length < 2))) by
            intro hg
            rcases hg with ⟨_, hg2⟩
            rcases hg2 with h | ⟨h1, h2⟩ <;> omega)]
          rw [show List.take 0 (t.drop i) = [] from rfl,
            show lzssBits [] = [] from rfl, List.append_nil, List.append_nil]
      · have hilt : i < stop := by omega
        have hit : i < t.length := by omega
        have hbi : t.getD i 0 < 256 := by
          rw [List.getD_eq_getElem t 0 hit]
          exact ht _ (List.getElem_mem hit)
        obtain ⟨Δ1, hΔ1, hw⟩ := write_spec_any bigEndian lenOut 9 (t.getD i 0)
          L out (by omega) (by
            have h256 : (2 : Nat) ^ 9 = 512 := by norm_num
            omega)
          (by omega)
        have hΔ1len : (L.length - 1) / 8 + Δ1.length = (L.length + 9 - 1) / 8 := by
          have := congrArg List.length hΔ1
          rw [List.length_append, wEmitted_length, wEmitted_length,
            List.length_append, ebits_length] at this
          omega
        rw [lzssCompLoop, if_pos (by
          refine ⟨by unfold LZSS_LEFTOVER_BYTES; omega, ?_⟩
          rcases hstop2 with ⟨h1, h2⟩ | ⟨h1, h2⟩
          · exact Or.inr ⟨by omega, h1⟩
          · exact Or.inl (by omega))]
        simp only [hw]
        rw [if_neg (show ¬ (9 < 9) by omega)]
        obtain ⟨Δ2, hΔ2, hrec⟩ := ih (i + 1) (L ++ ebits bigEndian 9 (t.getD i 0))
          (out ++ Δ1) (by omega) (by omega)
          (by
            rw [List.length_append, List.length_append, ebits_length]
            omega)
        rw [hrec]
        have hsplit : (t.drop i).take (stop - i) =
            t.getD i 0 :: (t.drop (i + 1)).take (stop - i - 1) := by
          rw [List.getD_eq_getElem t 0 hit]
          rw [show t.drop i = t[i] :: t.drop (i + 1) from
            List.drop_eq_getElem_cons hit]
          rw [show stop - i = (stop - i - 1) + 1 by omega]
          rfl
        have hL : (L ++ ebits bigEndian 9 (t.getD i 0)) ++
            lzssBits ((t.drop (i + 1)).take (stop - (i + 1))) =
            L ++ lzssBits ((t.drop i).take (stop - i)) := by
          rw [hsplit, ebits_be_9 _ hbi, List.append_assoc]
          congr 1
        rw [hL]
        refine ⟨Δ1 ++ Δ2, ?_, by rw [← List.append_assoc]⟩
        rw [← List.append_assoc, hΔ1, hΔ2, hL]

theorem lzssCompTransform_be (t : List Nat) (ht : ∀ b ∈ t, b < 256)
    (L : List Bool) (lenOut stop : Nat) (htne : t ≠ [])
    (hstop : stop = if t.length < 2 then t.length else t.length - 1)
    (hroom : 3 + (L.length + 9 * t.length + 7) / 8 ≤
      lenOut + (L.length - 1) / 8) :
    ∃ Δ, wEmitted bigEndian L ++ Δ =
        wEmitted bigEndian (L ++ lzssBits (t.take stop)) ∧
      filter_lzss_compress.transform bigEndian ⟨writeState bigEndian L⟩
          t t.length lenOut =
        (⟨writeState bigEndian (L ++ lzssBits (t.take stop))⟩, stop, Δ) := by
  have htlen : t.length ≠ 0 := by
    intro hc
    exact htne (List.eq_nil_of_length_eq_zero hc)
  have hstople : stop ≤ t.length := by
    by_cases h2 : t.length < 2
    · rw [if_pos h2] at hstop
      omega
    · rw [if_neg h2] at hstop
      omega
  obtain ⟨Δ, hΔ, hloop⟩ := lzssCompLoop_be t ht lenOut stop hstop
    (t.length + 1) 0 L [] (by omega) (by omega)
    (by simp only [List.length_nil]; omega)
  rw [show t.drop 0 = t from rfl, Nat.sub_zero] at hloop
  refine ⟨Δ, hΔ, ?_⟩
  unfold filter_lzss_compress.transform
  rw [show (⟨writeState bigEndian L⟩ : filter_lzss_compress).data =
    writeState bigEndian L from rfl]
  simp only [hloop, List.nil_append]
  rw [if_neg (show ¬ (Δ.length < lenOut ∧ t.length = 0) from
    fun hg => htlen hg.2)]

theorem lzssCompTransform_nil (L : List Bool) (lenOut : Nat)
    (h : 0 < lenOut) :
    ∃ Δ, wEmitted bigEndian L ++ Δ = bytesOfBits bigEndian L ∧
      filter_lzss_compress.transform bigEndian ⟨writeState bigEndian L⟩
          [] 0 lenOut =
        (⟨bitstream.fresh⟩, 0, Δ) := by
  obtain ⟨Δ, hΔ, hflush⟩ := flushByte_any bigEndian lenOut L []
    (by simp only [List.length_nil]; omega)
  refine ⟨Δ, hΔ, ?_⟩
  have hloop : lzssCompLoop bigEndian [] 0 lenOut 1
      (⟨writeState bigEndian L⟩ : filter_lzss_compress).data 0 [] =
      (writeState bigEndian L, 0, []) := by
    rw [show (⟨writeState bigEndian L⟩ : filter_lzss_compress).data =
      writeState bigEndian L from rfl]
    rw [lzssCompLoop, if_neg (show ¬ (([] : List Nat).length +
        LZSS_LEFTOVER_BYTES < lenOut ∧ ((0 : Nat) + 1 < 0 ∨
        ((0 : Nat) < 0 ∧ (0 : Nat) < 2))) by
      intro hg
      rcases hg.2 with h | h <;> omega)]
  unfold filter_lzss_compress.transform
  simp only [hloop]
  rw [if_pos (show ([] : List Nat).length < lenOut ∧ True from
    ⟨by simp only [List.length_nil]; omega, trivial⟩)]
  simp only [hflush, List.nil_append]
  rfl



theorem lzssCompressGo_fresh (acc : List Nat) :
    ∀ fuel, 1 ≤ fuel →
      lzssCompressAll.go bigEndian fuel ⟨bitstream.fresh⟩ [] acc = acc := by
  intro fuel hf
  rcases fuel with _ | f
  · omega
  · obtain ⟨Δ, hΔ, htr⟩ := lzssCompTransform_nil [] 16 (by omega)
    have hΔnil : Δ = [] := by
      rw [show wEmitted bigEndian [] = [] from rfl,
        show bytesOfBits bigEndian [] = [] from rfl] at hΔ
      simpa using hΔ
    subst hΔnil
    rw [lzssCompressAll.go]
    rw [show (⟨bitstream.fresh⟩ : filter_lzss_compress) =
      ⟨writeState bigEndian []⟩ from rfl]
    simp only [List.length_nil, Nat.mul_zero, Nat.zero_add]
    simp only [htr]
    rw [if_pos ⟨trivial, rfl⟩]

theorem lzssCompressGo_nil (L : List Bool) (acc : List Nat) :
    ∀ fuel, 2 ≤ fuel →
      ∃ Δ, wEmitted bigEndian L ++ Δ = bytesOfBits bigEndian L ∧
        lzssCompressAll.go bigEndian fuel ⟨writeState bigEndian L⟩ [] acc =
          acc ++ Δ := by
  intro fuel hf
  rcases fuel with _ | f
  · omega
  · obtain ⟨Δ, hΔ, htr⟩ := lzssCompTransform_nil L 16 (by omega)
    refine ⟨Δ, hΔ, ?_⟩
    rw [lzssCompressAll.go]
    simp only [List.length_nil, Nat.mul_zero, Nat.zero_add]
    simp only [htr]
    by_cases hΔ0 : Δ.length = 0
    · rw [if_pos ⟨trivial, hΔ0⟩]
      have hnil : Δ = [] := List.eq_nil_of_length_eq_zero hΔ0
      subst hnil
      rw [List.append_nil]
    · rw [if_neg (by intro hg; exact hΔ0 hg.2)]
      rw [show ([] : List Nat).drop 0 = [] from rfl]
      exact lzssCompressGo_fresh (acc ++ Δ) f (by omega)

theorem lzssCompressAll_be (s : List Nat) (hs : ∀ b ∈ s, b < 256) :
    lzssCompressAll bigEndian s = bytesOfBits bigEndian (lzssBits s) := by
  by_cases hs0 : s = []
  · subst hs0
    decide
  · have hlen1 : 1 ≤ s.length := List.length_pos.mpr hs0
    unfold lzssCompressAll
    by_cases hs1 : s.length = 1
    · obtain ⟨Δ1, hΔ1, htr1⟩ := lzssCompTransform_be s hs [] (2 * s.length + 16)
        1 hs0 (by rw [if_pos (by omega)]; omega)
        (by simp only [List.length_nil]; omega)
      rw [show s.take 1 = s from by rw [← hs1]; exact List.take_length s]
        at htr1 hΔ1
      rw [show s.length + 3 = (s.length + 2) + 1 from rfl, lzssCompressAll.go]
      rw [show filter_lzss_compress.mk' = ⟨writeState bigEndian []⟩ from rfl]
      simp only [htr1]
      rw [if_neg (by intro hg; omega)]
      rw [show s.drop 1 = [] from List.drop_eq_nil_of_le (by omega)]
      obtain ⟨Δ2, hΔ2, hgo⟩ := lzssCompressGo_nil
        ([] ++ lzssBits s) ([] ++ Δ1) (s.length + 2) (by omega)
      rw [hgo]
      simp only [List.nil_append, wEmitted_nil] at hΔ1 hΔ2 ⊢
      rw [hΔ1]
      exact hΔ2
    · have hlen2 : 2 ≤ s.length := by omega
      obtain ⟨Δ1, hΔ1, htr1⟩ := lzssCompTransform_be s hs [] (2 * s.length + 16)
        (s.length - 1) hs0 (by rw [if_neg (by omega)])
        (by simp only [List.length_nil]; omega)
      rw [show s.length + 3 = (s.length + 2) + 1 from rfl, lzssCompressAll.go]
      rw [show filter_lzss_compress.mk' = ⟨writeState bigEndian []⟩ from rfl]
      simp only [htr1]
      rw [if_neg (by intro hg; omega)]
      set t2 := s.drop (s.length - 1) with ht2def
      have ht2len : t2.length = 1 := by
        rw [ht2def, List.length_drop]
        omega
      have ht2ne : t2 ≠ [] := by
        intro hc
        rw [hc] at ht2len
        simp at ht2len
      have ht2 : ∀ b ∈ t2, b < 256 := by
        intro b hb
        exact hs b (List.drop_subset _ _ hb)
      set L1 := ([] : List Bool) ++ lzssBits (s.take (s.length - 1)) with hL1def
      have hL1len : L1.length = 9 * (s.length - 1) := by
        rw [hL1def, List.nil_append, lzssBits_length, List.length_take]
        omega
      obtain ⟨Δ2, hΔ2, htr2⟩ := lzssCompTransform_be t2 ht2 L1
        (2 * t2.length + 16) 1 ht2ne (by rw [if_pos (by omega)]; omega)
        (by omega)
      rw [show t2.take 1 = t2 from by rw [← ht2len]; exact List.take_length t2]
        at htr2 hΔ2
      rw [show s.length + 2 = (s.length + 1) + 1 from rfl, lzssCompressAll.go]
      rw [show t2.length = t2.length from rfl] at htr2
      simp only [htr2]
      rw [if_neg (by intro hg; omega)]
      rw [show t2.drop 1 = [] from List.drop_eq_nil_of_le (by omega)]
      obtain ⟨Δ3, hΔ3, hgo⟩ := lzssCompressGo_nil
        (L1 ++ lzssBits t2) (([] ++ Δ1) ++ Δ2) (s.length + 1) (by omega)
      rw [hgo]
      have hLz : L1 ++ lzssBits t2 = lzssBits s := by
        rw [hL1def, List.nil_append, ← lzssBits_append, ht2def,
          List.take_append_drop]
      rw [hLz] at hΔ2 hΔ3
      simp only [List.nil_append, wEmitted_nil] at hΔ1 ⊢
      rw [List.append_assoc, hΔ1, ← List.append_assoc, hΔ2]
      exact hΔ3



theorem lzssBits_drop (s : List Nat) (i : Nat) (hi : i ≤ s.length) :
    (lzssBits s).drop (9 * i) = lzssBits (s.drop i) := by
  conv_lhs => rw [← List.take_append_drop i s, lzssBits_append]
  rw [show 9 * i = (lzssBits (s.take i)).length from by
    rw [lzssBits_length, List.length_take]
    omega]
  rw [List.drop_left]

theorem lzssDecompLoop_be (szL szD : Nat) (s : List Nat)
    (hs : ∀ b ∈ s, b < 256) (B : List Nat)
    (hB : B = bytesOfBits bigEndian (lzssBits s)) (lenOut : Nat) :
    ∀ k fuel i win pw w (out : List Nat), i + k = s.length →
      2 * k + 1 ≤ fuel → w + k < lenOut →
      ∃ win2 pw2,
        lzssDecompLoop bigEndian B B.length lenOut fuel
          { data := readState B (9 * i)
            sizeLength := szL
            sizeDistance := szD
            state := LzssState.S0_READ_FLAG
            maxDistance := 1 <<< szD
            window := win
            posWindow := pw
            lzssLength := 0
            lzssDistance := 0 }
          (bitPos (9 * i)) w out =
        ({ data := readState B (9 * s.length)
           sizeLength := szL
           sizeDistance := szD
           state := LzssState.S0_READ_FLAG
           maxDistance := 1 <<< szD
           window := win2
           posWindow := pw2
           lzssLength := 0
           lzssDistance := 0 }, bitPos (9 * s.length),
          w + k, out ++ s.drop i) := by
  have hBlen : B.length = (9 * s.length + 7) / 8 := by
    rw [hB, bytesOfBits_length, lzssBits_length]
  have hB8 : 9 * s.length ≤ 8 * B.length := by omega
  have hmem : ∀ b ∈ B, b < 256 := by
    rw [hB]
    exact bytesOfBits_lt bigEndian (lzssBits s)
  have hbits : bitsOfBytes bigEndian B =
      lzssBits s ++ List.replicate ((8 - 9 * s.length % 8) % 8) false := by
    rw [hB, bitsOfBytes_bytesOfBits, lzssBits_length]
  intro k
  induction k with
  | zero =>
      intro fuel i win pw w out hi hf hw
      rcases fuel with _ | f
      · omega
      · have hieq : i = s.length := by omega
        subst hieq
        refine ⟨win, pw, ?_⟩
        rw [lzssDecompLoop, if_neg (by
          intro hg
          rcases hg.2 with h | h
          · rw [hBlen] at h
            unfold bitPos at h
            omega
          · exact h rfl)]
        rw [List.drop_length, List.append_nil, Nat.add_zero]
  | succ k ih =>
      intro fuel i win pw w out hi hf hw
      rcases fuel with _ | f1
      · omega
      rcases f1 with _ | f2
      · omega
      have hilt : i < s.length := by omega
      have hdropbits : (bitsOfBytes bigEndian B).drop (9 * i) =
          lzssBits (s.drop i) ++
            List.replicate ((8 - 9 * s.length % 8) % 8) false := by
        rw [hbits, List.drop_append_of_le_length (by rw [lzssBits_length]; omega),
          lzssBits_drop s i (by omega)]
      have hcons : s.drop i = s.getD i 0 :: s.drop (i + 1) := by
        rw [List.getD_eq_getElem s 0 hilt]
        exact List.drop_eq_getElem_cons hilt
      have hsi : s.getD i 0 < 256 := by
        rw [List.getD_eq_getElem s 0 hilt]
        exact hs _ (List.getElem_mem hilt)
      have hread1 : bitstream.read bigEndian B B.length 1
          (readState B (9 * i)) (bitPos (9 * i)) =
          (1, 0, readState B (9 * i + 1), bitPos (9 * i + 1)) := by
        rw [read_be_spec B hmem 1 (9 * i) (by omega),
          if_pos (show 9 * i + 1 ≤ 8 * B.length by omega)]
        rw [hdropbits, hcons]
        rfl
      have hread8 : bitstream.read bigEndian B B.length 8
          (readState B (9 * i + 1)) (bitPos (9 * i + 1)) =
          (8, s.getD i 0, readState B (9 * (i + 1)), bitPos (9 * (i + 1))) := by
        rw [read_be_spec B hmem 8 (9 * i + 1) (by omega),
          if_pos (show 9 * i + 1 + 8 ≤ 8 * B.length by omega)]
        have hdrop2 : (bitsOfBytes bigEndian B).drop (9 * i + 1) =
            msbBits 8 (s.getD i 0) ++ (lzssBits (s.drop (i + 1)) ++
              List.replicate ((8 - 9 * s.length % 8) % 8) false) := by
          rw [← List.drop_drop, hdropbits, hcons]
          rw [show lzssBits (s.getD i 0 :: s.drop (i + 1)) =
            false :: (msbBits 8 (s.getD i 0) ++ lzssBits (s.drop (i + 1)))
            from rfl]
          rw [show ((false :: (msbBits 8 (s.getD i 0) ++
            lzssBits (s.drop (i + 1)))) ++
            List.replicate ((8 - 9 * s.length % 8) % 8) false).drop 1 =
            (msbBits 8 (s.getD i 0) ++ lzssBits (s.drop (i + 1))) ++
            List.replicate ((8 - 9 * s.length % 8) % 8) false from rfl]
          rw [List.append_assoc]
        rw [hdrop2, List.take_append_of_le_length (by rw [msbBits_length]),
          List.take_of_length_le (by rw [msbBits_length])]
        rw [msbVal_msbBits, Nat.mod_eq_of_lt (by omega)]
        rw [show 9 * i + 1 + 8 = 9 * (i + 1) by ring]
      rw [lzssDecompLoop, if_pos (by
        constructor
        · omega
        · exact Or.inl (by rw [hBlen]; unfold bitPos; omega))]
      simp only [hread1]
      rw [if_neg (show ¬ ((1 : Nat) = 0) by omega),
        if_pos (show True from trivial)]
      rw [lzssDecompLoop, if_pos (by
        constructor
        · omega
        · exact Or.inl (by rw [hBlen]; unfold bitPos; omega))]
      simp only [hread8]
      rw [if_neg (show ¬ ((8 : Nat) ≠ 8) by omega)]
      obtain ⟨win2, pw2, hrec⟩ := ih f2 (i + 1) (win.set pw (s.getD i 0))
        ((pw + 1) % (1 <<< szD)) (w + 1) (out ++ [s.getD i 0])
        (by omega) (by omega) (by omega)
      rw [hrec]
      refine ⟨win2, pw2, ?_⟩
      rw [show w + 1 + k = w + (k + 1) by omega,
        List.append_assoc]
      rw [show [s.getD i 0] ++ s.drop (i + 1) = s.drop i from by
        rw [hcons]
        rfl]



theorem lzssDecompTransform_nil (e : endian) (f : filter_lzss_decompress)
    (lenOut : Nat) (hL : f.lzssLength = 0) :
    filter_lzss_decompress.transform e f [] 0 lenOut = (f, 0, 0, []) := by
  unfold filter_lzss_decompress.transform
  rw [hL]
  rw [show 9 * 0 + 2 * lenOut + 0 + 18 = (9 * 0 + 2 * lenOut + 0 + 17) + 1
    by omega]
  rw [lzssDecompLoop, if_neg (show ¬ ((0 : Nat) < lenOut ∧
      ((0 : Nat) < 0 ∨ f.lzssLength ≠ 0)) by
    rw [hL]
    intro hg
    rcases hg.2 with h | h <;> omega)]

theorem lzssDecompTransform_be (szL szD : Nat) (s : List Nat)
    (hs : ∀ b ∈ s, b < 256) (B : List Nat)
    (hB : B = bytesOfBits bigEndian (lzssBits s)) (lenOut : Nat)
    (hlen : s.length < lenOut) :
    ∃ win2 pw2,
      filter_lzss_decompress.transform bigEndian
          (filter_lzss_decompress.mk' bigEndian szL szD) B B.length lenOut =
        ({ data := readState B (9 * s.length)
           sizeLength := szL
           sizeDistance := szD
           state := LzssState.S0_READ_FLAG
           maxDistance := 1 <<< szD
           window := win2
           posWindow := pw2
           lzssLength := 0
           lzssDistance := 0 }, bitPos (9 * s.length), s.length, s) := by
  have hBlen : B.length = (9 * s.length + 7) / 8 := by
    rw [hB, bytesOfBits_length, lzssBits_length]
  obtain ⟨win2, pw2, hloop⟩ := lzssDecompLoop_be szL szD s hs B hB lenOut
    s.length (9 * B.length + 2 * lenOut + 0 + 18) 0
    (List.replicate (1 <<< szD) 0) 0 0 [] (by omega) (by omega) (by omega)
  simp only [Nat.mul_zero, Nat.zero_add, List.drop_zero, List.nil_append]
    at hloop
  rw [show bitPos 0 = 0 from rfl] at hloop
  refine ⟨win2, pw2, ?_⟩
  unfold filter_lzss_decompress.transform
  rw [show filter_lzss_decompress.mk' bigEndian szL szD =
    { data := readState B 0
      sizeLength := szL
      sizeDistance := szD
      state := LzssState.S0_READ_FLAG
      maxDistance := 1 <<< szD
      window := List.replicate (1 <<< szD) 0
      posWindow := 0
      lzssLength := 0
      lzssDistance := 0 } from rfl]
  exact hloop

theorem lzssDecompressAll_be (szL szD : Nat) (s : List Nat)
    (hs : ∀ b ∈ s, b < 256) :
    lzssDecompressAll bigEndian szL szD (bytesOfBits bigEndian (lzssBits s)) =
      s := by
  set B := bytesOfBits bigEndian (lzssBits s) with hBdef
  have hBlen : B.length = (9 * s.length + 7) / 8 := by
    rw [hBdef, bytesOfBits_length, lzssBits_length]
  by_cases hs0 : s = []
  · subst hs0
    have hBnil : B = [] := by rw [hBdef]; rfl
    rw [hBnil]
    unfold lzssDecompressAll
    rw [show ([] : List Nat).length + 3 = 2 + 1 from rfl,
      lzssDecompressAll.go]
    have htrnil := lzssDecompTransform_nil bigEndian
      (filter_lzss_decompress.mk' bigEndian szL szD) (8 * 0 + 0 + 16) rfl
    simp only [List.length_nil, htrnil]
    rw [if_pos ⟨trivial, trivial⟩]
  · have hslen : 1 ≤ s.length := List.length_pos.mpr hs0
    have hr : bitPos (9 * s.length) = B.length := by
      unfold bitPos
      omega
    obtain ⟨win2, pw2, htr⟩ := lzssDecompTransform_be szL szD s hs B hBdef
      (8 * B.length + 16) (by omega)
    unfold lzssDecompressAll
    rw [show B.length + 3 = (B.length + 2) + 1 from rfl, lzssDecompressAll.go]
    rw [show 8 * B.length + ([] : List Nat).length + 16 = 8 * B.length + 16
      from by simp]
    simp only [htr]
    rw [if_neg (by
      intro hg
      rw [hr] at hg
      omega)]
    rw [hr, List.drop_length]
    rw [show B.length + 2 = (B.length + 1) + 1 from rfl, lzssDecompressAll.go]
    have htrnil := lzssDecompTransform_nil bigEndian
      ({ data := readState B (9 * s.length)
         sizeLength := szL
         sizeDistance := szD
         state := LzssState.S0_READ_FLAG
         maxDistance := 1 <<< szD
         window := win2
         posWindow := pw2
         lzssLength := 0
         lzssDistance := 0 } : filter_lzss_decompress)
      (8 * 0 + s.length + 16) rfl
    simp only [List.nil_append, List.length_nil]
    simp only [htrnil]
    rw [if_pos ⟨trivial, trivial⟩]



/-- The byte-at-a-time window copy performed by the `S4_COPY_REF` arm of
`filter_lzss_decompress::transform`: read the byte `dist` positions back
in the circular window, emit it, store it at the write position, advance,
repeat `len` times. -/
def copyRefBytes (win : List Nat) (M p d : Nat) : Nat → List Nat
  | 0 => []
  | l + 1 =>
      let b := win.getD ((M + p - d) % M) 0
      b :: copyRefBytes (win.set p b) M ((p + 1) % M) d l

theorem copyRefBytes_length (M d : Nat) :
    ∀ l win p, (copyRefBytes win M p d l).length = l := by
  intro l
  induction l with
  | zero => intro win p; rfl
  | succ l ih =>
      intro win p
      simp [copyRefBytes, ih]

theorem copyRefBytes_getD (M d : Nat) (hd : 1 ≤ d) (hdM : d ≤ M) :
    ∀ l win p k, win.length = M → p < M → k < l →
      (copyRefBytes win M p d l).getD k 0 =
        if k < d then win.getD ((M + p + k - d) % M) 0
        else (copyRefBytes win M p d l).getD (k - d) 0 := by
  intro l
  induction l with
  | zero =>
      intro win p k hwin hp hk
      omega
  | succ l ih =>
      intro win p k hwin hp hk
      have hM1 : 1 ≤ M := by omega
      rcases k with _ | k
      · rw [if_pos (by omega)]
        show win.getD ((M + p - d) % M) 0 = win.getD ((M + p + 0 - d) % M) 0
        rw [show M + p + 0 - d = M + p - d by omega]
      · show (copyRefBytes (win.set p (win.getD ((M + p - d) % M) 0)) M
            ((p + 1) % M) d l).getD k 0 = _
        have hwin' : (win.set p (win.getD ((M + p - d) % M) 0)).length = M := by
          rw [List.length_set, hwin]
        have hp' : (p + 1) % M < M := Nat.mod_lt _ (by omega)
        rw [ih (win.set p (win.getD ((M + p - d) % M) 0)) ((p + 1) % M) k
          hwin' hp' (by omega)]
        by_cases hkd : k < d
        · -- reading a position strictly before the current write cursor
          have hq : M + (p + 1) % M + k - d = (p + 1) % M + (M + k - d) := by
            omega
          have hmod : (M + (p + 1) % M + k - d) % M =
              (p + 1 + (M + k - d)) % M := by
            rw [hq, Nat.mod_add_mod]
          by_cases hk1d : k + 1 < d
          · rw [if_pos hkd, if_pos (by omega)]
            have hne : p ≠ (p + 1 + (M + k - d)) % M := by
              intro hc
              by_cases hlt : p + 1 + (M + k - d) < M
              · rw [Nat.mod_eq_of_lt hlt] at hc
                omega
              · have h2M : p + 1 + (M + k - d) < 2 * M := by omega
                rw [Nat.mod_eq_sub_mod (by omega),
                  Nat.mod_eq_of_lt (by omega)] at hc
                omega
            rw [hmod, List.getD_eq_getElem?_getD, List.getElem?_set_ne hne,
              ← List.getD_eq_getElem?_getD]
            congr 1
            have : M + p + (k + 1) - d = p + 1 + (M + k - d) := by omega
            rw [this]
          · -- k + 1 = d: the byte written at step 0 is read back
            have hk1 : k + 1 = d := by omega
            rw [if_pos hkd, if_neg (by omega)]
            have hpos : (p + 1 + (M + k - d)) % M = p := by
              have harg : p + 1 + (M + k - d) = p + M := by omega
              rw [harg, Nat.add_mod_right, Nat.mod_eq_of_lt hp]
            rw [hmod, hpos]
            rw [List.getD_eq_getElem?_getD, List.getElem?_set_self
              (by omega), Option.getD_some]
            show _ = (copyRefBytes win M p d (l + 1)).getD (k + 1 - d) 0
            rw [show k + 1 - d = 0 by omega]
            rfl
        · -- periodic region: defer to the element d steps back
          rw [if_neg hkd, if_neg (by omega)]
          show _ = (copyRefBytes win M p d (l + 1)).getD (k + 1 - d) 0
          rw [show k + 1 - d = (k - d) + 1 by omega]
          rfl

theorem lzssCopyRef_loop (e : endian) (inBuf : List Nat) (lenIn lenOut : Nat)
    (st : bitstream) (szL szD M d : Nat) :
    ∀ l fuel win p w (out : List Nat), l + 1 ≤ fuel → w + l < lenOut →
      ∃ win2 pw2,
        lzssDecompLoop e inBuf lenIn lenOut fuel
            ⟨st, szL, szD, LzssState.S4_COPY_REF, M, win, p, l, d⟩
            lenIn w out =
          (⟨st, szL, szD, LzssState.S4_COPY_REF, M, win2, pw2, 0, d⟩,
            lenIn, w + l, out ++ copyRefBytes win M p d l) := by
  intro l
  induction l with
  | zero =>
      intro fuel win p w out hf hroom
      rcases fuel with _ | f
      · omega
      refine ⟨win, p, ?_⟩
      rw [lzssDecompLoop, if_neg (show ¬ (w < lenOut ∧ (lenIn < lenIn ∨
          (⟨st, szL, szD, LzssState.S4_COPY_REF, M, win, p, 0, d⟩ :
            filter_lzss_decompress).lzssLength ≠ 0)) by
        intro hg
        rcases hg.2 with h | h
        · omega
        · exact h rfl)]
      rw [show copyRefBytes win M p d 0 = [] from rfl, List.append_nil,
        Nat.add_zero]
  | succ l ih =>
      intro fuel win p w out hf hroom
      rcases fuel with _ | f
      · omega
      obtain ⟨win2, pw2, hrec⟩ := ih f
        (win.set p (win.getD ((M + p - d) % M) 0)) ((p + 1) % M)
        (w + 1) (out ++ [win.getD ((M + p - d) % M) 0])
        (by omega) (by omega)
      refine ⟨win2, pw2, ?_⟩
      rw [lzssDecompLoop, if_pos (show w < lenOut ∧ (lenIn < lenIn ∨
          (⟨st, szL, szD, LzssState.S4_COPY_REF, M, win, p, l + 1, d⟩ :
            filter_lzss_decompress).lzssLength ≠ 0) from
        ⟨by omega, Or.inr (by
          show l + 1 ≠ 0
          omega)⟩)]
      simp only [if_neg (Nat.succ_ne_zero l)]
      show lzssDecompLoop e inBuf lenIn lenOut f
          ⟨st, szL, szD, LzssState.S4_COPY_REF, M,
            win.set p (win.getD ((M + p - d) % M) 0), (p + 1) % M, l, d⟩
          lenIn (w + 1) (out ++ [win.getD ((M + p - d) % M) 0]) = _
      rw [hrec]
      rw [show w + 1 + l = w + (l + 1) by omega, List.append_assoc]
      rw [show [win.getD ((M + p - d) % M) 0] ++
        copyRefBytes (win.set p (win.getD ((M + p - d) % M) 0)) M
          ((p + 1) % M) d l = copyRefBytes win M p d (l + 1) from rfl]




/-- The width/dictionary bookkeeping `filter_lzw_compress::transform`
performs after each successfully written codeword (the `dictSize` /
`currentBits` / `recalcCodes` update at the bottom of the loop). -/
def lzwCompStep (f : filter_lzw_compress) : filter_lzw_compress :=
  if (f.dictSize : Int) > f.maxCode then
    if f.currentBits = f.maxBits then
      if f.flags &&& LZW_RESET_FULL_DICT ≠ 0 then f.resetDictionary else f
    else ({ f with currentBits := f.currentBits + 1 }).recalcCodes
  else { f with dictSize := f.dictSize + 1 }

/-- The filter after `k` codewords have been written. -/
def lzwCompSteps (f : filter_lzw_compress) : Nat → filter_lzw_compress
  | 0 => f
  | k + 1 => lzwCompSteps (lzwCompStep f) k

/-- The codeword widths used for an input list: one per byte, evolving by
`lzwCompStep`. -/
def lzwWidths (f : filter_lzw_compress) : List Nat → List Nat
  | [] => []
  | _ :: t => f.currentBits :: lzwWidths (lzwCompStep f) t

/-- The bit sequence the LZW compressor produces for an input list: each
byte becomes one codeword of the current width holding the byte's own
value. -/
def lzwCompBits (e : endian) (f : filter_lzw_compress) : List Nat → List Bool
  | [] => []
  | b :: t => ebits e f.currentBits b ++ lzwCompBits e (lzwCompStep f) t

/-- Value of a bit list under endianness `e` (how the matching reader
would decode it). -/
def eVal (e : endian) : List Bool → Nat :=
  match e with
  | littleEndian => lsbVal
  | bigEndian => msbVal

theorem eVal_ebits (e : endian) (n v : Nat) (hv : v < 2 ^ n) :
    eVal e (ebits e n v) = v := by
  cases e
  · show lsbVal (lsbBits n v) = v
    rw [lsbVal_lsbBits, Nat.mod_eq_of_lt hv]
  · show msbVal (msbBits n v) = v
    rw [msbVal_msbBits, Nat.mod_eq_of_lt hv]

theorem recalcCodes_flags (f : filter_lzw_compress) :
    (f.recalcCodes).flags = f.flags := by
  simp only [filter_lzw_compress.recalcCodes]
  split_ifs <;> rfl

theorem recalcCodes_initialBits (f : filter_lzw_compress) :
    (f.recalcCodes).initialBits = f.initialBits := by
  simp only [filter_lzw_compress.recalcCodes]
  split_ifs <;> rfl

theorem recalcCodes_maxBits (f : filter_lzw_compress) :
    (f.recalcCodes).maxBits = f.maxBits := by
  simp only [filter_lzw_compress.recalcCodes]
  split_ifs <;> rfl

theorem recalcCodes_currentBits (f : filter_lzw_compress) :
    (f.recalcCodes).currentBits = f.currentBits := by
  simp only [filter_lzw_compress.recalcCodes]
  split_ifs <;> rfl

theorem recalcCodes_data (f : filter_lzw_compress) (st : bitstream) :
    ({ f with data := st } : filter_lzw_compress).recalcCodes =
      { f.recalcCodes with data := st } := by
  simp only [filter_lzw_compress.recalcCodes,
    apply_ite filter_lzw_compress.maxBits,
    apply_ite filter_lzw_compress.flags,
    apply_ite filter_lzw_compress.eofCode,
    apply_ite filter_lzw_compress.curEOFCode,
    apply_ite filter_lzw_compress.resetCode,
    apply_ite filter_lzw_compress.curResetCode,
    apply_ite filter_lzw_compress.maxCode,
    apply_ite filter_lzw_compress.firstCode,
    apply_ite filter_lzw_compress.initialBits,
    apply_ite filter_lzw_compress.dictSize,
    apply_ite filter_lzw_compress.currentBits]
  split_ifs <;> rfl

theorem resetDictionary_flags (f : filter_lzw_compress) :
    (f.resetDictionary).flags = f.flags := by
  simp only [filter_lzw_compress.resetDictionary]
  split_ifs
  · rw [recalcCodes_flags]
  · rfl

theorem resetDictionary_initialBits (f : filter_lzw_compress) :
    (f.resetDictionary).initialBits = f.initialBits := by
  simp only [filter_lzw_compress.resetDictionary]
  split_ifs
  · rw [recalcCodes_initialBits]
  · rfl

theorem resetDictionary_maxBits (f : filter_lzw_compress) :
    (f.resetDictionary).maxBits = f.maxBits := by
  simp only [filter_lzw_compress.resetDictionary]
  split_ifs
  · rw [recalcCodes_maxBits]
  · rfl

theorem resetDictionary_currentBits (f : filter_lzw_compress) :
    (f.resetDictionary).currentBits =
      if f.flags &&& LZW_NO_BITSIZE_RESET = 0 then f.initialBits
      else f.currentBits := by
  simp only [filter_lzw_compress.resetDictionary]
  split_ifs
  · rw [recalcCodes_currentBits]
  · rfl

theorem resetDictionary_data (f : filter_lzw_compress) (st : bitstream) :
    ({ f with data := st } : filter_lzw_compress).resetDictionary =
      { f.resetDictionary with data := st } := by
  simp only [filter_lzw_compress.resetDictionary]
  split_ifs
  · exact recalcCodes_data
      { f with dictSize := 256, currentBits := f.initialBits } st
  · rfl

theorem lzwCompStep_flags (f : filter_lzw_compress) :
    (lzwCompStep f).flags = f.flags := by
  unfold lzwCompStep
  split_ifs
  · rw [resetDictionary_flags]
  · rfl
  · rw [recalcCodes_flags]
  · rfl

theorem lzwCompStep_initialBits (f : filter_lzw_compress) :
    (lzwCompStep f).initialBits = f.initialBits := by
  unfold lzwCompStep
  split_ifs
  · rw [resetDictionary_initialBits]
  · rfl
  · rw [recalcCodes_initialBits]
  · rfl

theorem lzwCompStep_maxBits (f : filter_lzw_compress) :
    (lzwCompStep f).maxBits = f.maxBits := by
  unfold lzwCompStep
  split_ifs
  · rw [resetDictionary_maxBits]
  · rfl
  · rw [recalcCodes_maxBits]
  · rfl

theorem lzwCompStep_currentBits (f : filter_lzw_compress)
    (h1 : f.initialBits ≤ f.currentBits) (h2 : f.currentBits ≤ f.maxBits) :
    f.initialBits ≤ (lzwCompStep f).currentBits ∧
      (lzwCompStep f).currentBits ≤ f.maxBits := by
  unfold lzwCompStep
  split_ifs with hc1 hc2 hc3
  · rw [resetDictionary_currentBits]
    split_ifs
    · exact ⟨Nat.le_refl _, by omega⟩
    · exact ⟨h1, h2⟩
  · exact ⟨h1, h2⟩
  · rw [recalcCodes_currentBits]
    refine ⟨?_, ?_⟩
    · show f.initialBits ≤ f.currentBits + 1
      omega
    · show f.currentBits + 1 ≤ f.maxBits
      omega
  · exact ⟨h1, h2⟩

theorem lzwCompStep_data (f : filter_lzw_compress) (st : bitstream) :
    lzwCompStep { f with data := st } = { lzwCompStep f with data := st } := by
  unfold lzwCompStep
  split_ifs
  · exact resetDictionary_data f st
  · rfl
  · exact recalcCodes_data { f with currentBits := f.currentBits + 1 } st
  · rfl

theorem lzwWidths_length (f : filter_lzw_compress) :
    ∀ s, (lzwWidths f s).length = s.length := by
  intro s
  induction s generalizing f with
  | nil => rfl
  | cons b t ih =>
      show (f.currentBits :: lzwWidths (lzwCompStep f) t).length = t.length + 1
      rw [List.length_cons, ih]

theorem lzwWidths_ge (f : filter_lzw_compress)
    (h1 : f.initialBits ≤ f.currentBits) (h2 : f.currentBits ≤ f.maxBits) :
    ∀ s, ∀ n ∈ lzwWidths f s, f.initialBits ≤ n := by
  intro s
  induction s generalizing f with
  | nil =>
      intro n hn
      exact absurd hn (List.not_mem_nil n)
  | cons b t ih =>
      intro n hn
      rcases List.mem_cons.mp hn with h | h
      · omega
      · obtain ⟨hs1, hs2⟩ := lzwCompStep_currentBits f h1 h2
        have := ih (lzwCompStep f)
          (by rw [lzwCompStep_initialBits]; exact hs1)
          (by rw [lzwCompStep_maxBits]; exact hs2) n h
        rw [lzwCompStep_initialBits] at this
        exact this

theorem lzwCompBits_zip (e : endian) (f : filter_lzw_compress) :
    ∀ s, lzwCompBits e f s =
      (List.zipWith (fun n b => ebits e n b) (lzwWidths f s) s).flatten := by
  intro s
  induction s generalizing f with
  | nil => rfl
  | cons b t ih =>
      show ebits e f.currentBits b ++ lzwCompBits e (lzwCompStep f) t = _
      rw [ih (lzwCompStep f)]
      rfl

theorem lzwCompBits_length_ge (e : endian) (f : filter_lzw_compress)
    (h1 : f.initialBits ≤ f.currentBits) (h2 : f.currentBits ≤ f.maxBits) :
    ∀ s, s.length * f.initialBits ≤ (lzwCompBits e f s).length := by
  intro s
  induction s generalizing f with
  | nil =>
      rw [show lzwCompBits e f [] = [] from rfl]
      simp
  | cons b t ih =>
      obtain ⟨hs1, hs2⟩ := lzwCompStep_currentBits f h1 h2
      have hrec := ih (lzwCompStep f)
        (by rw [lzwCompStep_initialBits]; exact hs1)
        (by rw [lzwCompStep_maxBits]; exact hs2)
      rw [lzwCompStep_initialBits] at hrec
      show (b :: t).length * f.initialBits ≤
        (ebits e f.currentBits b ++ lzwCompBits e (lzwCompStep f) t).length
      rw [List.length_append, ebits_length, List.length_cons, Nat.succ_mul]
      omega


theorem lzwCompLoop_spec (t : List Nat) (ht : ∀ b ∈ t, b < 256)
    (lenOut stop : Nat)
    (hstop : stop = if t.length < 2 then t.length else t.length - 1) :
    ∀ fuel i (g : filter_lzw_compress) (e : endian) (L : List Bool)
      (out : List Nat),
      e = (if g.flags &&& LZW_BIG_ENDIAN ≠ LZW_BIG_ENDIAN then littleEndian
        else bigEndian) →
      8 ≤ g.initialBits → g.initialBits ≤ g.currentBits →
      g.currentBits ≤ g.maxBits → g.maxBits ≤ 32 →
      i ≤ stop → stop - i ≤ fuel →
      out.length + 3 +
          (L.length + (lzwCompBits e g ((t.drop i).take (stop - i))).length
            + 7) / 8 ≤
        lenOut + (L.length - 1) / 8 →
      ∃ Δ, wEmitted e L ++ Δ =
          wEmitted e (L ++ lzwCompBits e g ((t.drop i).take (stop - i))) ∧
        lzwCompLoop t t.length lenOut fuel { g with data := writeState e L }
            i out =
          ({ lzwCompSteps g (stop - i) with
              data := writeState e
                (L ++ lzwCompBits e g ((t.drop i).take (stop - i))) },
            stop, out ++ Δ) := by
  have hstop2 : (t.length < 2 ∧ stop = t.length) ∨
      (2 ≤ t.length ∧ stop = t.length - 1) := by
    by_cases h2 : t.length < 2
    · rw [if_pos h2] at hstop
      exact Or.inl ⟨h2, hstop⟩
    · rw [if_neg h2] at hstop
      exact Or.inr ⟨by omega, hstop⟩
  intro fuel
  induction fuel with
  | zero =>
      intro i g e L out he h8 hcb1 hcb2 hm32 hi hf hroom
      have hieq : i = stop := by omega
      subst hieq
      rw [Nat.sub_self]
      refine ⟨[], ?_, ?_⟩
      · rw [List.append_nil, show List.take 0 (t.drop i) = [] from rfl,
          show lzwCompBits e g [] = [] from rfl, List.append_nil]
      · show ({ g with data := writeState e L }, i, out) = _
        rw [show List.take 0 (t.drop i) = [] from rfl,
          show lzwCompBits e g [] = [] from rfl, List.append_nil,
          List.append_nil]
        rfl
  | succ fuel ih =>
      intro i g e L out he h8 hcb1 hcb2 hm32 hi hf hroom
      by_cases hieq : i = stop
      · subst hieq
        rw [Nat.sub_self]
        refine ⟨[], ?_, ?_⟩
        · rw [List.append_nil, show List.take 0 (t.drop i) = [] from rfl,
            show lzwCompBits e g [] = [] from rfl, List.append_nil]
        · rw [lzwCompLoop, if_neg (show ¬ (out.length + LZW_LEFTOVER_BYTES <
              lenOut ∧ (i + 1 < t.length ∨ (i < t.length ∧ t.length < 2))) by
            intro hg
            rcases hg with ⟨_, hg2⟩
            rcases hg2 with h | ⟨h1, h2⟩ <;> omega)]
          rw [show List.take 0 (t.drop i) = [] from rfl,
            show lzwCompBits e g [] = [] from rfl, List.append_nil,
            List.append_nil]
          rfl
      · have hilt : i < stop := by omega
        have hit : i < t.length := by omega
        have hbi : t.getD i 0 < 256 := by
          rw [List.getD_eq_getElem t 0 hit]
          exact ht _ (List.getElem_mem hit)
        have hsplit : (t.drop i).take (stop - i) =
            t.getD i 0 :: (t.drop (i + 1)).take (stop - i - 1) := by
          rw [List.getD_eq_getElem t 0 hit]
          rw [show t.drop i = t[i] :: t.drop (i + 1) from
            List.drop_eq_getElem_cons hit]
          rw [show stop - i = (stop - i - 1) + 1 by omega]
          rfl
        have hbitcons : lzwCompBits e g ((t.drop i).take (stop - i)) =
            ebits e g.currentBits (t.getD i 0) ++
              lzwCompBits e (lzwCompStep g)
                ((t.drop (i + 1)).take (stop - i - 1)) := by
          rw [hsplit]
          rfl
        have hbitlen : (lzwCompBits e g ((t.drop i).take (stop - i))).length =
            g.currentBits +
              (lzwCompBits e (lzwCompStep g)
                ((t.drop (i + 1)).take (stop - i - 1))).length := by
          rw [hbitcons, List.length_append, ebits_length]
        have hv : t.getD i 0 < 2 ^ g.currentBits := by
          have h28 : (2 : Nat) ^ 8 ≤ 2 ^ g.currentBits :=
            Nat.pow_le_pow_right (by omega) (by omega)
          have h256 : (2 : Nat) ^ 8 = 256 := by norm_num
          omega
        obtain ⟨Δ1, hΔ1, hw⟩ := write_spec_any e lenOut g.currentBits
          (t.getD i 0) L out (by omega) hv (by omega)
        have hΔ1len : (L.length - 1) / 8 + Δ1.length =
            (L.length + g.currentBits - 1) / 8 := by
          have := congrArg List.length hΔ1
          rw [List.length_append, wEmitted_length, wEmitted_length,
            List.length_append, ebits_length] at this
          omega
        obtain ⟨Δ2, hΔ2, hrec⟩ := ih (i + 1) (lzwCompStep g) e
          (L ++ ebits e g.currentBits (t.getD i 0)) (out ++ Δ1)
          (by rw [lzwCompStep_flags]; exact he)
          (by rw [lzwCompStep_initialBits]; omega)
          (by
            rw [lzwCompStep_initialBits]
            exact (lzwCompStep_currentBits g hcb1 hcb2).1)
          (by
            rw [lzwCompStep_maxBits]
            exact (lzwCompStep_currentBits g hcb1 hcb2).2)
          (by rw [lzwCompStep_maxBits]; omega)
          (by omega) (by omega)
          (by
            rw [List.length_append, List.length_append, ebits_length,
              show stop - (i + 1) = stop - i - 1 by omega]
            rw [hbitlen] at hroom
            omega)
        rw [show stop - (i + 1) = stop - i - 1 by omega] at hΔ2 hrec
        refine ⟨Δ1 ++ Δ2, ?_, ?_⟩
        · rw [← List.append_assoc, hΔ1, hΔ2, hbitcons, ← List.append_assoc]
        · rw [lzwCompLoop, if_pos (by
            refine ⟨by unfold LZW_LEFTOVER_BYTES; omega, ?_⟩
            rcases hstop2 with ⟨h1, h2⟩ | ⟨h1, h2⟩
            · exact Or.inr ⟨by omega, h1⟩
            · exact Or.inl (by omega))]
          rw [show (if ({ g with data := writeState e L } :
              filter_lzw_compress).flags &&& LZW_BIG_ENDIAN ≠ LZW_BIG_ENDIAN
              then littleEndian else bigEndian) = e from he.symm]
          simp only [hw]
          rw [if_neg (show ¬ (g.currentBits < g.currentBits) by omega)]
          show lzwCompLoop t t.length lenOut fuel (lzwCompStep { g with data := writeState e (L ++ ebits e g.currentBits (t.getD i 0)) }) (i + 1) (out ++ Δ1) = _
          rw [lzwCompStep_data g (writeState e (L ++ ebits e g.currentBits (t.getD i 0)))]
          rw [hrec]
          rw [hbitcons, ← List.append_assoc, ← List.append_assoc,
            show lzwCompSteps g (stop - i) =
              lzwCompSteps (lzwCompStep g) (stop - i - 1) from by
            rw [show stop - i = (stop - i - 1) + 1 by omega]
            rfl]


theorem lzwCompTransform_spec (f : filter_lzw_compress) (e : endian)
    (he : e = if f.flags &&& LZW_BIG_ENDIAN ≠ LZW_BIG_ENDIAN then littleEndian
      else bigEndian)
    (t : List Nat) (ht : ∀ b ∈ t, b < 256) (L : List Bool)
    (lenOut stop : Nat) (htne : t ≠ [])
    (hstop : stop = if t.length < 2 then t.length else t.length - 1)
    (h8 : 8 ≤ f.initialBits) (hcb1 : f.initialBits ≤ f.currentBits)
    (hcb2 : f.currentBits ≤ f.maxBits) (hm32 : f.maxBits ≤ 32)
    (hroom : 3 + (L.length + (lzwCompBits e f (t.take stop)).length + 7) / 8 ≤
      lenOut + (L.length - 1) / 8) :
    ∃ Δ, wEmitted e L ++ Δ = wEmitted e (L ++ lzwCompBits e f (t.take stop)) ∧
      filter_lzw_compress.transform { f with data := writeState e L }
          t t.length lenOut =
        ({ lzwCompSteps f stop with
            data := writeState e (L ++ lzwCompBits e f (t.take stop)) },
          stop, Δ) := by
  have htlen : t.length ≠ 0 := by
    intro hc
    exact htne (List.eq_nil_of_length_eq_zero hc)
  have hstople : stop ≤ t.length := by
    by_cases h2 : t.length < 2
    · rw [if_pos h2] at hstop
      omega
    · rw [if_neg h2] at hstop
      omega
  obtain ⟨Δ, hΔ, hloop⟩ := lzwCompLoop_spec t ht lenOut stop hstop
    (t.length + 1) 0 f e L [] he h8 hcb1 hcb2 hm32 (by omega) (by omega)
    (by
      simp only [List.length_nil, List.drop_zero, Nat.sub_zero]
      omega)
  rw [List.drop_zero, Nat.sub_zero] at hΔ hloop
  rw [List.nil_append] at hloop
  refine ⟨Δ, hΔ, ?_⟩
  unfold filter_lzw_compress.transform
  simp only [hloop]
  rw [if_neg (show ¬ (Δ.length < lenOut ∧ t.length = 0) from
    fun hg => htlen hg.2)]
  rw [if_neg (show ¬ (Δ.length < lenOut ∧ t.length = 0) from
    fun hg => htlen hg.2)]


/-! ### Claim theorems -/

deriving instance DecidableEq for Except

/-- Any codeword at or beyond the next free slot decodes identically to
the just-assigned slot itself: `Dictionary::decode` only compares `code`
against `newCodeStringIndex`, so every out-of-range codeword takes the
KwKwK path (resolve `oldCode`, re-emit its first byte, insert) and no
error specific to the overrun is raised. -/
theorem decode_beyond_next_slot_is_kwkwk (d : Dictionary) (oldCode code : Nat)
    (h : d.newCodeStringIndex ≤ code) :
    d.decode oldCode code = d.decode oldCode d.newCodeStringIndex := by
  unfold Dictionary.decode
  have h1 : ¬ code < d.newCodeStringIndex := by omega
  have h2 : ¬ d.newCodeStringIndex < d.newCodeStringIndex := by omega
  simp only [h1, h2, if_neg, ite_false]

/-- C2 (counterexample): on a fresh dictionary (`codeStart = 0x100`,
`maxBits = 9`) whose next free slot is `0x100`, decoding codeword `0x105`
— strictly greater than the next slot yet in range at the current
9-bit width — raises no `filter_error` at all: it succeeds and emits
`oldCode`'s byte twice. -/
theorem lzw_decode_oob_code_no_error :
    Except.map Prod.fst (Dictionary.decode (Dictionary.mk' 9 0x100) 0x61 0x105) =
      Except.ok [0x61, 0x61] := by decide

/-- C2 (amended): a codeword strictly greater than the next unassigned
slot is treated exactly like the KwKwK codeword equal to that slot —
`oldCode`'s sequence plus its first byte is emitted and the slot is
filled — with no error raised for the overrun itself. -/
theorem lzw_decode_oob_code_behaviour (d : Dictionary) (oldCode code : Nat)
    (h : d.newCodeStringIndex < code) :
    d.decode oldCode code = d.decode oldCode d.newCodeStringIndex :=
  decode_beyond_next_slot_is_kwkwk d oldCode code (Nat.le_of_lt h)

/-- Witness for `lzw_decode_oob_code_behaviour` at a concrete dictionary. -/
theorem lzw_decode_oob_code_behaviour_witness :
    (Dictionary.mk' 3 2).newCodeStringIndex < 5 ∧
      (Dictionary.mk' 3 2).decode 1 5 = (Dictionary.mk' 3 2).decode 1 2 :=
  ⟨by decide, lzw_decode_oob_code_behaviour (Dictionary.mk' 3 2) 1 5 (by decide)⟩

/-- C5 (counterexample): the spec's concrete KwKwK example is wrong about
the code.  Decoding the 9-bit big-endian codeword stream `'a' 'b' 0x101`
with `codeStart = 0x100` (bytes `30 98 A0 20`) yields `"abbb"`, not
`"abab"`: after `'a' 'b'` the previous codeword is `'b'` (sequence "b"),
so the KwKwK expansion of `0x101` is "b" + 'b'. -/
theorem lzw_kwkwk_concrete_example :
    lzwDecompressAll (filter_lzw_decompress.mk' 9 9 0x100 0 0 LZW_BIG_ENDIAN)
        [0x30, 0x98, 0xA0, 0x20] = Except.ok [0x61, 0x62, 0x62, 0x62] ∧
      Except.ok [0x61, 0x62, 0x62, 0x62] ≠
        (Except.ok [0x61, 0x62, 0x61, 0x62] : Except FilterErr (List Nat)) := by
  constructor
  · decide
  · decide

/-- C5 (amended, general mechanism): decoding the codeword equal to the
next free slot `N` when the previous codeword `oldCode` resolves to the
walk-order byte list `ds` (so the decoded sequence is `ds.reverse` and
its first byte is `ds.getLastD 0`) emits exactly that sequence followed
by its first byte, and inserts `{prefixIndex := oldCode, k := first byte}`
at slot `N`. -/
theorem lzw_kwkwk_decode (d : Dictionary) (oldCode : Nat) (ds : List Nat)
    (hfill : d.fillDecodedString oldCode = Except.ok ds)
    (hroom : d.newCodeStringIndex < d.table.length) :
    d.decode oldCode d.newCodeStringIndex =
      Except.ok (ds.reverse ++ [ds.getLastD 0],
        { d with
          table := d.table.set d.newCodeStringIndex
            { d.table.getD d.newCodeStringIndex CodeString.mk' with
              prefixIndex := oldCode
              k := ds.getLastD 0 }
          newCodeStringIndex := d.newCodeStringIndex + 1 }) := by
  unfold Dictionary.decode
  have h2 : ¬ d.newCodeStringIndex < d.newCodeStringIndex := by omega
  simp only [h2, if_neg, ite_false, hfill, hroom, if_pos, ite_true]

/-- Witness for `lzw_kwkwk_decode` at a concrete dictionary. -/
theorem lzw_kwkwk_decode_witness :
    (Dictionary.mk' 3 2).fillDecodedString 1 = Except.ok [1] ∧
      (Dictionary.mk' 3 2).newCodeStringIndex < (Dictionary.mk' 3 2).table.length ∧
      (Dictionary.mk' 3 2).decode 1 (Dictionary.mk' 3 2).newCodeStringIndex =
        Except.ok (([1] : List Nat).reverse ++ [([1] : List Nat).getLastD 0],
          { Dictionary.mk' 3 2 with
            table := (Dictionary.mk' 3 2).table.set (Dictionary.mk' 3 2).newCodeStringIndex
              { (Dictionary.mk' 3 2).table.getD (Dictionary.mk' 3 2).newCodeStringIndex
                  CodeString.mk' with
                prefixIndex := 1
                k := ([1] : List Nat).getLastD 0 }
            newCodeStringIndex := (Dictionary.mk' 3 2).newCodeStringIndex + 1 }) :=
  ⟨by decide, by decide, lzw_kwkwk_decode (Dictionary.mk' 3 2) 1 [1] (by decide) (by decide)⟩

/-- C6 (code evaluated at the failing input): little-endian LZSS with
`sizeLength = 2`, `sizeDistance = 8` fed the single byte `0x01`: the flag
bit (1) and the 2-bit length field are consumed, the 8-bit distance field
is truncated after 5 bits.  The decompressor simply returns — the
repeated-`transform` protocol ends normally with empty output and no
`filter_error` is ever raised (the C++ transform contains no `throw`),
contradicting filter.hpp's documented requirement to throw on truncated
input. -/
theorem lzss_truncated_mid_token_silent :
    lzssDecompressAll littleEndian 2 8 [0x01] = [] := by decide

/-- Helper for C9: with fuel exceeding `2 * tableSize - safety` the fill
loop reaches one of its own four exits before the fuel runs out. -/
theorem fillLoop_isSome (table : List CodeString) (tableSize : Nat) :
    ∀ fuel safety code acc, 2 * tableSize - safety < fuel →
      (fillLoop table tableSize fuel code acc safety).isSome := by
  intro fuel
  induction fuel with
  | zero => intro safety code acc h; omega
  | succ fuel ih =>
      intro safety code acc h
      rw [fillLoop]
      split
      next => simp
      next =>
        split
        next => simp
        next =>
          split
          next => simp
          next =>
            split
            next => simp
            next h4 => exact ih _ _ _ (by omega)

/-- Helper for C9: the loop's value does not depend on the fuel once the
fuel is sufficient. -/
theorem fillLoop_fuel_indep (table : List CodeString) (tableSize : Nat) :
    ∀ fuel1 fuel2 safety code acc, 2 * tableSize - safety < fuel1 →
      2 * tableSize - safety < fuel2 →
      fillLoop table tableSize fuel1 code acc safety =
        fillLoop table tableSize fuel2 code acc safety := by
  intro fuel1
  induction fuel1 with
  | zero => intro fuel2 safety code acc h1 _; omega
  | succ fuel1 ih =>
      intro fuel2 safety code acc h1 h2
      match fuel2 with
      | 0 => omega
      | fuel2 + 1 =>
          rw [fillLoop, fillLoop]
          split
          next => rfl
          next =>
            split
            next => rfl
            next =>
              split
              next => rfl
              next =>
                split
                next => rfl
                next h4 => exact ih fuel2 _ _ _ (by omega) (by omega)

/-- C9: prefix-chain resolution terminates.  The `while` loop of
`Dictionary::fillDecodedString`, modelled with explicit fuel, reaches one
of its own exits (the decoded sequence at a root entry, or one of the
three corruption errors) within `2 * capacity + 2` iterations for every
table and starting codeword, and giving it any more fuel changes
nothing — it can never loop indefinitely. -/
theorem lzw_fill_decoded_string_terminates (d : Dictionary) (code : Nat) :
    (fillLoop d.table d.table.length (2 * d.table.length + 2) code [] 0).isSome ∧
      ∀ fuel, 2 * d.table.length + 2 ≤ fuel →
        fillLoop d.table d.table.length fuel code [] 0 =
          some (d.fillDecodedString code) := by
  constructor
  · exact fillLoop_isSome d.table d.table.length _ 0 code [] (by omega)
  · intro fuel hfuel
    have he : fillLoop d.table d.table.length fuel code [] 0 =
        fillLoop d.table d.table.length (2 * d.table.length + 2) code [] 0 :=
      fillLoop_fuel_indep d.table d.table.length fuel _ 0 code [] (by omega) (by omega)
    have hs := fillLoop_isSome d.table d.table.length (2 * d.table.length + 2) 0 code []
      (by omega)
    rw [he]
    unfold Dictionary.fillDecodedString
    cases hx : fillLoop d.table d.table.length (2 * d.table.length + 2) code [] 0 with
    | none => rw [hx] at hs; simp at hs
    | some v => simp

/-- C1 (counterexample): the little-endian round trip fails.  The
placeholder compressor emits each byte as the 9-bit value of the byte
itself, so in little-endian bit order the flag bit is the *last* bit
emitted, not the first; compressing `[0x01]` gives bytes `01 00`, which
decode as a back-reference token instead of a literal. -/
theorem lzss_roundtrip_le_fails :
    lzssDecompressAll littleEndian 2 8 (lzssCompressAll littleEndian [0x01]) ≠
      [0x01] := by decide

/-- C3 (counterexample): a big-endian read that hits end-of-data after at
least one bit was obtained returns the *full* requested count, not a
short one: the EOF branch zero-pads the value and adds the missing bits
to the returned count.  Reading 9 bits over the one-byte medium `[0x00]`
returns 9, not something less. -/
theorem bitstream_read_be_eof_full_count :
    ¬ (bitstream.read bigEndian [0x00] 1 9 bitstream.fresh 0).1 < 9 := by decide

/-- C3.  Amended count behaviour of `bitstream::read` (callback overload)
after `c` bits have already been consumed from the byte source `B`: while
any of the `n` requested bits remain available the full count `n` is
returned; at a short read the little-endian path returns exactly the
number of bits actually obtained (`8*|B| - c`, strictly less than `n`),
but the big-endian EOF branch executes `*out <<= bits; bitsread += bits`,
zero-padding the value and counting the padding, so it returns the full
`n` whenever at least one bit was obtained and `0` only when the source
was already exhausted before the call.  No path signals by exception. -/
theorem bitstream_read_short_count (e : endian) (B : List Nat)
    (hB : ∀ b ∈ B, b < 256) (n c : Nat) ( _hn : 1 ≤ n) ( _hn32 : n ≤ 32)
    (hc : c ≤ 8 * B.length) :
    (bitstream.read e B B.length n (readState B c) (bitPos c)).1 =
      if c + n ≤ 8 * B.length then n
      else if e = littleEndian then 8 * B.length - c
      else if c = 8 * B.length then 0
      else n := by
  cases e
  · rw [read_le_spec B hB n c hc]
    by_cases h : c + n ≤ 8 * B.length
    · rw [if_pos h, if_pos h]
    · rw [if_neg h, if_neg h, if_pos rfl]
  · rw [read_be_spec B hB n c hc,
      if_neg (show ¬ (bigEndian = littleEndian) by decide)]
    by_cases h : c + n ≤ 8 * B.length
    · rw [if_pos h, if_pos h]
    · rw [if_neg h, if_neg h]
      by_cases h2 : c = 8 * B.length
      · rw [if_pos h2, if_pos h2]
      · rw [if_neg h2, if_neg h2]

theorem bitstream_read_short_count_witness :
    (bitstream.read littleEndian [5, 200] 2 9 (readState [5, 200] 8)
        (bitPos 8)).1 = 8 :=
  (bitstream_read_short_count littleEndian [5, 200] (by decide) 9 8
    (by decide) (by decide) (by decide)).trans (by decide)

/-- C7.  Write-then-read roundtrip of the callback `bitstream`: for every
width `n` (1 ≤ n ≤ 32) and value `v < 2^n`, writing `v` at width `n` on a
fresh stream, flushing, and reading `n` bits back from a fresh stream over
the produced bytes returns the full count `n` and exactly `v`, in both
endiannesses; and the spec's concrete example holds: 9 bits of 0x102 give
bytes 02 01 in little-endian mode and 81 00 in big-endian mode. -/
theorem bitstream_write_read_roundtrip (e : endian) (n v : Nat) (h1 : 1 ≤ n)
    (h32 : n ≤ 32) (hv : v < 2 ^ n) :
    ((bitstream.read e (writeThenFlush e 4 n v)
        (writeThenFlush e 4 n v).length n bitstream.fresh 0).1 = n ∧
      (bitstream.read e (writeThenFlush e 4 n v)
        (writeThenFlush e 4 n v).length n bitstream.fresh 0).2.1 = v) ∧
    writeThenFlush littleEndian 2 9 0x102 = [0x02, 0x01] ∧
    writeThenFlush bigEndian 2 9 0x102 = [0x81, 0x00] := by
  refine ⟨?_, by decide, by decide⟩
  rw [writeThenFlush_spec e 4 n v h32 hv (by omega)]
  set B := bytesOfBits e (ebits e n v) with hB
  have hlen : B.length = (n + 7) / 8 := by
    rw [hB, bytesOfBits_length, ebits_length]
  have hlt : ∀ b ∈ B, b < 256 := by
    rw [hB]
    exact bytesOfBits_lt e (ebits e n v)
  have htake : ((bitsOfBytes e B).drop 0).take n = ebits e n v := by
    rw [List.drop_zero, hB, bitsOfBytes_bytesOfBits,
      List.take_append_of_le_length (by rw [ebits_length]),
      List.take_of_length_le (by rw [ebits_length])]
  cases e
  · have hr := read_le_spec B hlt n 0 (by omega)
    rw [if_pos (by omega)] at hr
    have hred : bitstream.read littleEndian B B.length n bitstream.fresh 0 =
        bitstream.read littleEndian B B.length n (readState B 0) (bitPos 0) := rfl
    rw [hred, hr]
    refine ⟨rfl, ?_⟩
    show lsbVal (((bitsOfBytes littleEndian B).drop 0).take n) = v
    rw [htake]
    show lsbVal (lsbBits n v) = v
    rw [lsbVal_lsbBits]
    exact Nat.mod_eq_of_lt hv
  · have hr := read_be_spec B hlt n 0 (by omega)
    rw [if_pos (by omega)] at hr
    have hred : bitstream.read bigEndian B B.length n bitstream.fresh 0 =
        bitstream.read bigEndian B B.length n (readState B 0) (bitPos 0) := rfl
    rw [hred, hr]
    refine ⟨rfl, ?_⟩
    show msbVal (((bitsOfBytes bigEndian B).drop 0).take n) = v
    rw [htake]
    show msbVal (msbBits n v) = v
    rw [msbVal_msbBits]
    exact Nat.mod_eq_of_lt hv

theorem bitstream_write_read_roundtrip_witness :
    1 ≤ 9 ∧ 9 ≤ 32 ∧ 0x102 < 2 ^ 9 ∧
    (((bitstream.read bigEndian (writeThenFlush bigEndian 4 9 0x102)
        (writeThenFlush bigEndian 4 9 0x102).length 9 bitstream.fresh 0).1 = 9 ∧
      (bitstream.read bigEndian (writeThenFlush bigEndian 4 9 0x102)
        (writeThenFlush bigEndian 4 9 0x102).length 9 bitstream.fresh 0).2.1 =
        0x102) ∧
      writeThenFlush littleEndian 2 9 0x102 = [0x02, 0x01] ∧
      writeThenFlush bigEndian 2 9 0x102 = [0x81, 0x00]) :=
  ⟨by decide, by decide, by decide,
    bitstream_write_read_roundtrip bigEndian 9 0x102 (by decide) (by decide)
      (by decide)⟩

/-- C4.  Frame effect of the buffered byte: on a one-byte parent stream
holding `b`, reading 4 bits from a fresh stream-bound `bitstream`, writing
any 4-bit value `v` at the resulting position in the same byte, and
calling `flush()` writes back a byte whose 4 unwritten bit positions still
hold the corresponding bits of `b` — the low nibble (`b mod 16`) in
little-endian mode, the high nibble (`b div 16`) in big-endian mode. -/
theorem bitstream_lazy_merge_frame (e : endian) (b v : Nat) (hb : b < 256)
    ( _hv : v < 16) :
    (e = littleEndian →
      ((bitstreamS.flush e (bitstreamS.write e 4 v
          (bitstreamS.read e 4 (bitstreamS.fresh [b])).2.2).2).media.getD 0 0)
        % 16 = b % 16) ∧
    (e = bigEndian →
      ((bitstreamS.flush e (bitstreamS.write e 4 v
          (bitstreamS.read e 4 (bitstreamS.fresh [b])).2.2).2).media.getD 0 0)
        / 16 = b / 16) := by
  cases e
  · refine ⟨fun _ => ?_, fun h => absurd h (by decide)⟩
    have h1 : (bitstreamS.read littleEndian 4 (bitstreamS.fresh [b])).2.2 =
        ⟨4, b, (b : Int), 1, [b]⟩ := rfl
    have h2 : (bitstreamS.write littleEndian 4 v
        (⟨4, b, (b : Int), 1, [b]⟩ : bitstreamS)).2 =
        ⟨8, ((b &&& cNot32 (writeExtract littleEndian 4 4 4 v).2.1) |||
            (writeExtract littleEndian 4 4 4 v).1) &&& 0xFF,
          (b : Int), 1, [b]⟩ := rfl
    rw [h1, h2, writeChunk_le_nibble b v hb, flushS_at, List.getD_cons_zero]
    omega
  · refine ⟨fun h => absurd h (by decide), fun _ => ?_⟩
    have h1 : (bitstreamS.read bigEndian 4 (bitstreamS.fresh [b])).2.2 =
        ⟨4, b, (b : Int), 1, [b]⟩ := rfl
    have h2 : (bitstreamS.write bigEndian 4 v
        (⟨4, b, (b : Int), 1, [b]⟩ : bitstreamS)).2 =
        ⟨8, ((b &&& cNot32 (writeExtract bigEndian 4 4 4 v).2.1) |||
            (writeExtract bigEndian 4 4 4 v).1) &&& 0xFF,
          (b : Int), 1, [b]⟩ := rfl
    rw [h1, h2, writeChunk_be_nibble b v hb, flushS_at, List.getD_cons_zero]
    omega

theorem bitstream_lazy_merge_frame_witness :
    0xC5 < 256 ∧ 3 < 16 ∧
    ((littleEndian = littleEndian →
      ((bitstreamS.flush littleEndian (bitstreamS.write littleEndian 4 3
          (bitstreamS.read littleEndian 4
            (bitstreamS.fresh [0xC5])).2.2).2).media.getD 0 0)
        % 16 = 0xC5 % 16) ∧
    (littleEndian = bigEndian →
      ((bitstreamS.flush littleEndian (bitstreamS.write littleEndian 4 3
          (bitstreamS.read littleEndian 4
            (bitstreamS.fresh [0xC5])).2.2).2).media.getD 0 0)
        / 16 = 0xC5 / 16)) :=
  ⟨by decide, by decide,
    bitstream_lazy_merge_frame littleEndian 0xC5 3 (by decide) (by decide)⟩

/-- C1.  Amended roundtrip of the placeholder LZSS coder: in big-endian
mode, compressing any byte string with `filter_lzss_compress` (the
literal-only encoder) and decompressing the result with
`filter_lzss_decompress`, under the documented repeated-`transform`
caller protocol, returns the original bytes for every
`(sizeLength, sizeDistance)` configuration.  The little-endian mode of
the same pair does not roundtrip (see the separate counterexample): the
encoder emits the flag bit after the literal's data bits instead of
before them. -/
theorem lzss_roundtrip_be (szL szD : Nat) (s : List Nat)
    (hs : ∀ b ∈ s, b < 256) :
    lzssDecompressAll bigEndian szL szD (lzssCompressAll bigEndian s) = s := by
  rw [lzssCompressAll_be s hs]
  exact lzssDecompressAll_be szL szD s hs

theorem lzss_roundtrip_be_witness :
    (∀ b ∈ [72, 105, 33], b < 256) ∧
    lzssDecompressAll bigEndian 2 8 (lzssCompressAll bigEndian [72, 105, 33]) =
      [72, 105, 33] :=
  ⟨by decide, lzss_roundtrip_be 2 8 [72, 105, 33] (by decide)⟩

/-- C8.  Self-overlapping LZSS back-references expand correctly: from the
`S4_COPY_REF` state with pending length `l`, distance `d` (`1 ≤ d ≤ M`,
`d < l`), window `win` and write cursor `p`, the decompressor loop emits
exactly `l` bytes, copied one byte at a time through the circular window
(`copyRefBytes`), each stored back into the window before the next read;
consequently the first `d` emitted bytes are the last `d` bytes previously
stored in the window and from then on the output repeats with period `d`.
Concretely, a literal "A" followed by a distance-1 length-5 reference
decompresses to "AAAAAA" (the literal plus the run "AAAAA"). -/
theorem lzss_copy_ref_overlap (e : endian) (inBuf : List Nat)
    (lenIn lenOut : Nat) (st : bitstream) (szL szD M d l : Nat)
    (win : List Nat) (p w : Nat) (out : List Nat) (fuel : Nat)
    (hwin : win.length = M) (hp : p < M) (hd : 1 ≤ d) (hdM : d ≤ M)
    (hdl : d < l) (hfuel : l + 1 ≤ fuel) (hroom : w + l < lenOut) :
    (∃ win2 pw2,
      lzssDecompLoop e inBuf lenIn lenOut fuel
          ⟨st, szL, szD, LzssState.S4_COPY_REF, M, win, p, l, d⟩
          lenIn w out =
        (⟨st, szL, szD, LzssState.S4_COPY_REF, M, win2, pw2, 0, d⟩,
          lenIn, w + l, out ++ copyRefBytes win M p d l)) ∧
    (∀ k, k < d →
      (copyRefBytes win M p d l).getD k 0 =
        win.getD ((M + p + k - d) % M) 0) ∧
    (∀ k, d ≤ k → k < l →
      (copyRefBytes win M p d l).getD k 0 =
        (copyRefBytes win M p d l).getD (k - d) 0) ∧
    lzssDecompressAll bigEndian 2 8 [32, 240, 0] =
      [65, 65, 65, 65, 65, 65] := by
  refine ⟨lzssCopyRef_loop e inBuf lenIn lenOut st szL szD M d l fuel
    win p w out hfuel hroom, ?_, ?_, by decide⟩
  · intro k hk
    rw [copyRefBytes_getD M d hd hdM l win p k hwin hp (by omega),
      if_pos hk]
  · intro k hk1 hk2
    rw [copyRefBytes_getD M d hd hdM l win p k hwin hp hk2,
      if_neg (by omega)]

theorem lzss_copy_ref_overlap_witness :
    ([65, 0, 0, 0, 0, 0, 0, 0] : List Nat).length = 8 ∧ (1 : Nat) < 8 ∧
    (1 : Nat) ≤ 1 ∧ (1 : Nat) ≤ 8 ∧ (1 : Nat) < 5 ∧ (5 : Nat) + 1 ≤ 6 ∧
    (0 : Nat) + 5 < 10 ∧
    ((∃ win2 pw2,
      lzssDecompLoop littleEndian [] 0 10 6
          ⟨bitstream.fresh, 2, 3, LzssState.S4_COPY_REF, 8,
            [65, 0, 0, 0, 0, 0, 0, 0], 1, 5, 1⟩ 0 0 [65] =
        (⟨bitstream.fresh, 2, 3, LzssState.S4_COPY_REF, 8, win2, pw2, 0, 1⟩,
          0, 0 + 5,
          [65] ++ copyRefBytes [65, 0, 0, 0, 0, 0, 0, 0] 8 1 1 5)) ∧
    (∀ k, k < 1 →
      (copyRefBytes [65, 0, 0, 0, 0, 0, 0, 0] 8 1 1 5).getD k 0 =
        ([65, 0, 0, 0, 0, 0, 0, 0] : List Nat).getD ((8 + 1 + k - 1) % 8) 0) ∧
    (∀ k, 1 ≤ k → k < 5 →
      (copyRefBytes [65, 0, 0, 0, 0, 0, 0, 0] 8 1 1 5).getD k 0 =
        (copyRefBytes [65, 0, 0, 0, 0, 0, 0, 0] 8 1 1 5).getD (k - 1) 0) ∧
    lzssDecompressAll bigEndian 2 8 [32, 240, 0] =
      [65, 65, 65, 65, 65, 65]) :=
  ⟨rfl, by decide, by decide, by decide, by decide, by decide, by decide,
    lzss_copy_ref_overlap littleEndian [] 0 10 bitstream.fresh 2 3 8 1 5
      [65, 0, 0, 0, 0, 0, 0, 0] 1 0 [65] 6 rfl (by decide) (by decide)
      (by decide) (by decide) (by decide) (by decide)⟩

/-- C10.  The LZW "compressor" emits exactly one codeword per consumed
input byte, and that codeword is the byte's own root value, never a
dictionary codeword.  In one `transform` call on input `t` (consuming
`stop` bytes per the leftover-byte guard), the bit stream grows by
`lzwCompBits e f (t.take stop)`: the concatenation, byte by byte, of one
`ebits`-codeword per byte at the current width, each holding exactly the
byte's value (`eVal` recovers it), with widths evolving by the
`dictSize`/`currentBits` bookkeeping only.  No compression happens: the
emitted bits number at least `initialBits` per input byte. -/
theorem lzw_compress_root_codewords (f : filter_lzw_compress) (e : endian)
    (he : e = if f.flags &&& LZW_BIG_ENDIAN ≠ LZW_BIG_ENDIAN then littleEndian
      else bigEndian)
    (t : List Nat) (ht : ∀ b ∈ t, b < 256) (L : List Bool)
    (lenOut stop : Nat) (htne : t ≠ [])
    (hstop : stop = if t.length < 2 then t.length else t.length - 1)
    (h8 : 8 ≤ f.initialBits) (hcb1 : f.initialBits ≤ f.currentBits)
    (hcb2 : f.currentBits ≤ f.maxBits) (hm32 : f.maxBits ≤ 32)
    (hroom : 3 + (L.length + (lzwCompBits e f (t.take stop)).length + 7) / 8 ≤
      lenOut + (L.length - 1) / 8) :
    (∃ Δ, wEmitted e L ++ Δ =
        wEmitted e (L ++ lzwCompBits e f (t.take stop)) ∧
      filter_lzw_compress.transform { f with data := writeState e L }
          t t.length lenOut =
        ({ lzwCompSteps f stop with
            data := writeState e (L ++ lzwCompBits e f (t.take stop)) },
          stop, Δ)) ∧
    lzwCompBits e f (t.take stop) =
      (List.zipWith (fun n b => ebits e n b) (lzwWidths f (t.take stop))
        (t.take stop)).flatten ∧
    (lzwWidths f (t.take stop)).length = (t.take stop).length ∧
    (∀ n ∈ lzwWidths f (t.take stop), f.initialBits ≤ n) ∧
    (t.take stop).length * f.initialBits ≤
      (lzwCompBits e f (t.take stop)).length ∧
    (∀ i, i < (t.take stop).length →
      eVal e (ebits e ((lzwWidths f (t.take stop)).getD i 0)
        ((t.take stop).getD i 0)) = (t.take stop).getD i 0) := by
  refine ⟨lzwCompTransform_spec f e he t ht L lenOut stop htne hstop h8
      hcb1 hcb2 hm32 hroom,
    lzwCompBits_zip e f (t.take stop),
    lzwWidths_length f (t.take stop),
    lzwWidths_ge f hcb1 hcb2 (t.take stop),
    lzwCompBits_length_ge e f hcb1 hcb2 (t.take stop), ?_⟩
  intro i hi
  have hb : (t.take stop).getD i 0 < 256 := by
    rw [List.getD_eq_getElem (t.take stop) 0 hi]
    exact ht _ (List.take_subset stop t (List.getElem_mem hi))
  have hwlen : i < (lzwWidths f (t.take stop)).length := by
    rw [lzwWidths_length]
    exact hi
  have hw8 : f.initialBits ≤ (lzwWidths f (t.take stop)).getD i 0 := by
    rw [List.getD_eq_getElem (lzwWidths f (t.take stop)) 0 hwlen]
    exact lzwWidths_ge f hcb1 hcb2 (t.take stop) _ (List.getElem_mem hwlen)
  apply eVal_ebits
  have h28 : (2 : Nat) ^ 8 ≤ 2 ^ (lzwWidths f (t.take stop)).getD i 0 :=
    Nat.pow_le_pow_right (by omega) (by omega)
  have h256 : (2 : Nat) ^ 8 = 256 := by norm_num
  omega

theorem lzw_compress_root_codewords_witness :
    ((littleEndian : endian) = if (filter_lzw_compress.mk' 9 12 256 0 0 0).flags &&& LZW_BIG_ENDIAN ≠ LZW_BIG_ENDIAN then littleEndian else bigEndian) ∧
    (∀ b ∈ [10, 20], b < 256) ∧ ([10, 20] : List Nat) ≠ [] ∧
    ((1 : Nat) = if ([10, 20] : List Nat).length < 2 then ([10, 20] : List Nat).length else ([10, 20] : List Nat).length - 1) ∧
    8 ≤ (filter_lzw_compress.mk' 9 12 256 0 0 0).initialBits ∧
    (filter_lzw_compress.mk' 9 12 256 0 0 0).initialBits ≤ (filter_lzw_compress.mk' 9 12 256 0 0 0).currentBits ∧
    (filter_lzw_compress.mk' 9 12 256 0 0 0).currentBits ≤ (filter_lzw_compress.mk' 9 12 256 0 0 0).maxBits ∧
    (filter_lzw_compress.mk' 9 12 256 0 0 0).maxBits ≤ 32 ∧
    (3 + (([] : List Bool).length + (lzwCompBits littleEndian (filter_lzw_compress.mk' 9 12 256 0 0 0) (([10, 20] : List Nat).take 1)).length + 7) / 8 ≤ 16 + (([] : List Bool).length - 1) / 8) ∧
    ((∃ Δ, wEmitted littleEndian [] ++ Δ =
        wEmitted littleEndian ([] ++ lzwCompBits littleEndian (filter_lzw_compress.mk' 9 12 256 0 0 0) (([10, 20] : List Nat).take 1)) ∧
      filter_lzw_compress.transform { filter_lzw_compress.mk' 9 12 256 0 0 0 with data := writeState littleEndian [] } [10, 20] ([10, 20] : List Nat).length 16 =
        ({ lzwCompSteps (filter_lzw_compress.mk' 9 12 256 0 0 0) 1 with data := writeState littleEndian ([] ++ lzwCompBits littleEndian (filter_lzw_compress.mk' 9 12 256 0 0 0) (([10, 20] : List Nat).take 1)) },
          1, Δ)) ∧
    lzwCompBits littleEndian (filter_lzw_compress.mk' 9 12 256 0 0 0) (([10, 20] : List Nat).take 1) =
      (List.zipWith (fun n b => ebits littleEndian n b) (lzwWidths (filter_lzw_compress.mk' 9 12 256 0 0 0) (([10, 20] : List Nat).take 1)) (([10, 20] : List Nat).take 1)).flatten ∧
    (lzwWidths (filter_lzw_compress.mk' 9 12 256 0 0 0) (([10, 20] : List Nat).take 1)).length = (([10, 20] : List Nat).take 1).length ∧
    (∀ n ∈ lzwWidths (filter_lzw_compress.mk' 9 12 256 0 0 0) (([10, 20] : List Nat).take 1), (filter_lzw_compress.mk' 9 12 256 0 0 0).initialBits ≤ n) ∧
    (([10, 20] : List Nat).take 1).length * (filter_lzw_compress.mk' 9 12 256 0 0 0).initialBits ≤
      (lzwCompBits littleEndian (filter_lzw_compress.mk' 9 12 256 0 0 0) (([10, 20] : List Nat).take 1)).length ∧
    (∀ i, i < (([10, 20] : List Nat).take 1).length →
      eVal littleEndian (ebits littleEndian ((lzwWidths (filter_lzw_compress.mk' 9 12 256 0 0 0) (([10, 20] : List Nat).take 1)).getD i 0)
        ((([10, 20] : List Nat).take 1).getD i 0)) = (([10, 20] : List Nat).take 1).getD i 0)) :=
  ⟨by decide, by decide, by decide, by decide, by decide, by decide,
    by decide, by decide, by decide,
    lzw_compress_root_codewords (filter_lzw_compress.mk' 9 12 256 0 0 0)
      littleEndian (by decide) [10, 20] (by decide) [] 16 1 (by decide)
      (by decide) (by decide) (by decide) (by decide) (by decide) (by decide)⟩

end Camoto
